import Mathlib

/-!
# Order book and matching engine (`types/types.go`, `1.go`)

A shallow embedding of the Go package `types` of the stock-market simulation and of the
command loop that drives it, and theorems about the order book: the binary heap behind
`PriorityQueue`, `AddOrder` and the matching pass `MatchOrders`.

The package is embedded twice.

* On books of orders (`OrderBook`, `matchIter`, `OrderBook.MatchOrders`): a
  `PriorityQueue` is a `List Order`, every slot holds an `Order` of its own, and the update
  `buyOrder.Quantity -= quantity` through the head pointer is the replacement of element
  `0`.  This is what the code does on a book every slot of which holds a pointer of its
  own, as in the command loop, which allocates one `Order` per submission.
* On books of pointers (`PtrBook`, `matchIterAt`, `PtrBook.MatchOrders`): a
  `PriorityQueue` is a list of addresses, the `Order` objects live in a memory `Objects`,
  and an update through a pointer is seen through every slot that holds this pointer.  Two
  slots may hold the same pointer, in one queue or in both.  Every address holds an
  object: a nil `*Order` is not modelled.

`addOrder_view` and `matchOrders_refines` relate the two: on a book whose slots hold
distinct pointers, a call on the pointers does to the orders pointed to what the call on
the book of these orders does.

Modelling conventions.

* `float64` prices and cash are exact rationals (`ℚ`): sums and products are not rounded,
  and there are no infinities and no NaN.  For prices that are numbers the comparisons are
  those of the code.  What `Less` and `heap.Push` do with a NaN price is embedded apart
  (`Float64`, `FloatOrder`, `FloatBook.AddOrder`).
* Go `int` is the 64-bit two's-complement integer: the results of `+` and `-` are wrapped
  by `wrapInt`.
* `map[int]*Trader` is a function `Int → Option Trader` (`none`: key absent, the lookup
  yields a nil pointer); distinct keys hold distinct `Trader` objects.  A `Portfolio` is
  `Option (String → Int)`: `none` is the nil map, and a key that is absent reads as `0`,
  as in Go.  The field `Strategy` is never read or written by the package and is left out.
* `container/heap` is the Go standard library; `heapUp`, `heapDown`, `heapPush` and
  `heapPop` follow its `up`, `down`, `Push` and `Pop` on a queue of orders, and `upLoopOf`,
  `downLoopOf`, `heapPushOf` and `heapPopOf` follow them on a slice of any element type
  with any `Less`.  Their loops are driven by a fuel argument that the callers set to a
  bound proved sufficient below.
* The loop of `MatchOrders` is driven by fuel too.  On a book of orders the bound
  `len(BuyOrders) + len(SellOrders) + 1` is never exhausted.  On a book of pointers every
  pass that returns does so within this bound, and the loop does not end when the two
  queues come to have the same object, with a quantity other than `0`, at their heads.
* A run-time panic is a `Fault`.  The mutex only serialises calls and is not modelled.
* Of `1.go` the commands `switch`, `order` and `show` are embedded, as functions on the
  variables of `main` (`Session`).  `strconv.Atoi`, `strconv.ParseFloat` and
  `rand.Intn(1000)` are library calls: the parsers are parameters of the commands and the
  random value is an argument.  Printing is left out; a command reports its `Outcome`.
-/

namespace types

/-! ## Data model -/

/-- Two's-complement wrap-around of a Go `int` (64 bits). -/
def wrapInt (x : Int) : Int := (x + 2 ^ 63) % 2 ^ 64 - 2 ^ 63

/-- The values a Go `int` can hold. -/
def IsInt (x : Int) : Prop := -(2 ^ 63) ≤ x ∧ x < 2 ^ 63

instance (x : Int) : Decidable (IsInt x) := by unfold IsInt; infer_instance

/-- Go `type Order struct`. -/
structure Order where
  ID : Int
  TraderID : Int
  Price : ℚ
  Quantity : Int
  IsBuy : Bool
  Stock : String
deriving DecidableEq

/-- Go `type Transaction struct`. -/
structure Transaction where
  BuyOrderID : Int
  SellOrderID : Int
  Price : ℚ
  Quantity : Int
  Stock : String
deriving DecidableEq

/-- Go `type Trader struct` (without the unused `Strategy` callback). -/
structure Trader where
  ID : Int
  Cash : ℚ
  Portfolio : Option (String → Int)

/-- Go `map[int]*Trader`. -/
abbrev Traders := Int → Option Trader

/-- Go `type PriorityQueue []*Order`. -/
abbrev PriorityQueue := List Order

/-- Go `type OrderBook struct` (without the mutex). -/
structure OrderBook where
  BuyOrders : PriorityQueue
  SellOrders : PriorityQueue
deriving DecidableEq

/-- The run-time failures of the package: dereferencing the nil `*Trader` of an absent map
key, writing to a nil `Portfolio` map, `heap.Pop` on an empty queue, and exhausted loop
fuel.  On a book of orders the last one is an artefact of the embedding, shown below never
to occur; on a book of pointers it stands for a loop that does not end. -/
inductive Fault where
  | nilTrader
  | nilMap
  | emptyHeap
  | fuel
deriving DecidableEq

/-! ## `PriorityQueue` as `heap.Interface` -/

/-- Go `func (pq PriorityQueue) Len() int`. -/
def PriorityQueue.Len (pq : PriorityQueue) : Nat := pq.length

/-- Go `func (pq PriorityQueue) Less(i, j int) bool`.  Every call site in `container/heap`
passes indices below `Len`; an index outside the slice (a panic in Go) gives `false`. -/
def PriorityQueue.Less (pq : PriorityQueue) (i j : Nat) : Bool :=
  match pq[i]?, pq[j]? with
  | some a, some b =>
    if a.IsBuy then decide (a.Price > b.Price) else decide (a.Price < b.Price)
  | _, _ => false

/-- Go `func (pq PriorityQueue) Swap(i, j int)`. -/
def PriorityQueue.Swap (pq : PriorityQueue) (i j : Nat) : PriorityQueue :=
  match pq[i]?, pq[j]? with
  | some a, some b => (pq.set i b).set j a
  | _, _ => pq

/-- Go `func (pq *PriorityQueue) Push(x interface{})`: append. -/
def PriorityQueue.Push (pq : PriorityQueue) (x : Order) : PriorityQueue := pq ++ [x]

/-- Go `func (pq *PriorityQueue) Pop() interface{}`: remove and return the last element. -/
def PriorityQueue.Pop (pq : PriorityQueue) : Option (Order × PriorityQueue) :=
  match pq.getLast? with
  | some item => some (item, pq.dropLast)
  | none => none

/-! ## `container/heap` -/

/-- The loop of `heap.up`: `i := (j-1)/2; if i == j || !h.Less(j, i) break; h.Swap(i, j); j = i`. -/
def upLoop : Nat → PriorityQueue → Nat → PriorityQueue
  | 0, pq, _ => pq
  | fuel + 1, pq, j =>
    let i := (j - 1) / 2
    if i = j ∨ !pq.Less j i then pq
    else upLoop fuel (pq.Swap i j) i

/-- Go `heap.up(h, j)`. -/
def heapUp (pq : PriorityQueue) (j : Nat) : PriorityQueue := upLoop (j + 1) pq j

/-- The child that `heap.down` compares with slot `i`:
`j := j1; if j2 := j1 + 1; j2 < n && h.Less(j2, j1) { j = j2 }` with `j1 := 2*i + 1`. -/
def downChild (pq : PriorityQueue) (i n : Nat) : Nat :=
  if 2 * i + 2 < n ∧ pq.Less (2 * i + 2) (2 * i + 1) then 2 * i + 2 else 2 * i + 1

/-- The loop of `heap.down` on the first `n` slots, from index `i`:
`j1 := 2*i + 1; if j1 >= n break; (choose j); if !h.Less(j, i) break; h.Swap(i, j); i = j`.
The test `j1 < 0` of the source catches integer overflow and has no counterpart on `Nat`. -/
def downLoop : Nat → PriorityQueue → Nat → Nat → PriorityQueue
  | 0, pq, _, _ => pq
  | fuel + 1, pq, i, n =>
    if 2 * i + 1 ≥ n then pq
    else if !pq.Less (downChild pq i n) i then pq
    else downLoop fuel (pq.Swap i (downChild pq i n)) (downChild pq i n) n

/-- Go `heap.down(h, i0, n)` (its boolean result is not used by `heap.Pop`). -/
def heapDown (pq : PriorityQueue) (i0 n : Nat) : PriorityQueue := downLoop n pq i0 n

/-- Go `heap.Push(h, x)`: `h.Push(x); up(h, h.Len()-1)`. -/
def heapPush (pq : PriorityQueue) (x : Order) : PriorityQueue :=
  let pq1 := pq.Push x
  heapUp pq1 (pq1.Len - 1)

/-- Go `heap.Pop(h)`: `n := h.Len() - 1; h.Swap(0, n); down(h, 0, n); return h.Pop()`.
On an empty queue `Swap(0, -1)` panics. -/
def heapPop (pq : PriorityQueue) : Option (Order × PriorityQueue) :=
  if pq.Len = 0 then none
  else
    let n := pq.Len - 1
    (heapDown (pq.Swap 0 n) 0 n).Pop

/-! ## The order book -/

/-- Go `func NewOrderBook() *OrderBook`. -/
def NewOrderBook : OrderBook := { BuyOrders := [], SellOrders := [] }

/-- Go `func (ob *OrderBook) AddOrder(order *Order)`. -/
def OrderBook.AddOrder (ob : OrderBook) (order : Order) : OrderBook :=
  if order.IsBuy then { ob with BuyOrders := heapPush ob.BuyOrders order }
  else { ob with SellOrders := heapPush ob.SellOrders order }

/-- Go `func min(a, b int) int`. -/
def min (a b : Int) : Int := if a < b then a else b

/-- Go `func max(a, b int) int`. -/
def max (a b : Int) : Int := if a > b then a else b

/-- The state of one `MatchOrders` call: the book, the traders and the local slice
`transactions`. -/
structure MatchState where
  ob : OrderBook
  traders : Traders
  transactions : List Transaction

/-- What one trip through the `for` loop of `MatchOrders` does. -/
inductive Step where
  | exit : Step
  | next : MatchState → Step
  | fault : Fault → Step

/-- The conditional `heap.Pop` that ends an iteration: `if o.Quantity == 0 { heap.Pop(&q) }`. -/
def popIfFilled (o : Order) (q : PriorityQueue) : Option PriorityQueue :=
  if o.Quantity = 0 then (heapPop q).map Prod.snd else some q

/-- The transaction appended at lines 102-108. -/
def trade (buyOrder sellOrder : Order) : Transaction :=
  { BuyOrderID := buyOrder.ID
    SellOrderID := sellOrder.ID
    Price := sellOrder.Price
    Quantity := min buyOrder.Quantity sellOrder.Quantity
    Stock := buyOrder.Stock }

/-- The update `order.Quantity -= quantity` of lines 111-112. -/
def fill (order : Order) (quantity : Int) : Order :=
  { order with Quantity := wrapInt (order.Quantity - quantity) }

/-- Lines 114-116, the buyer's side of a trade:
`traders[buyOrder.TraderID].Portfolio[buyOrder.Stock] += quantity` and
`traders[buyOrder.TraderID].Cash += float64(quantity)*buyOrder.Price - float64(quantity)*sellOrder.Price`. -/
def creditBuyer (traders : Traders) (buyOrder sellOrder : Order) (quantity : Int) :
    Except Fault Traders :=
  match traders buyOrder.TraderID with
  | none => .error .nilTrader
  | some buyer =>
    match buyer.Portfolio with
    | none => .error .nilMap
    | some held =>
      let buyer1 : Trader := { buyer with
        Portfolio := some (fun k =>
          if k = buyOrder.Stock then wrapInt (held k + quantity) else held k) }
      let buyer2 : Trader := { buyer1 with
        Cash := buyer1.Cash
          + ((quantity : ℚ) * buyOrder.Price - (quantity : ℚ) * sellOrder.Price) }
      .ok (fun k => if k = buyOrder.TraderID then some buyer2 else traders k)

/-- Line 117, the seller's side of a trade:
`traders[sellOrder.TraderID].Cash += float64(quantity) * sellOrder.Price`. -/
def creditSeller (traders : Traders) (sellOrder : Order) (quantity : Int) :
    Except Fault Traders :=
  match traders sellOrder.TraderID with
  | none => .error .nilTrader
  | some seller =>
    let seller1 : Trader := { seller with
      Cash := seller.Cash + (quantity : ℚ) * sellOrder.Price }
    .ok (fun k => if k = sellOrder.TraderID then some seller1 else traders k)

/-- Lines 114-117: the buyer is credited first, then the seller. -/
def settle (traders : Traders) (buyOrder sellOrder : Order) (quantity : Int) :
    Except Fault Traders :=
  match creditBuyer traders buyOrder sellOrder quantity with
  | .error f => .error f
  | .ok traders1 => creditSeller traders1 sellOrder quantity

/-- One iteration of the loop of `MatchOrders` (lines 96-128): the loop condition, the
crossing test, the emitted transaction, the updates through the two head pointers and the
traders map, and the two conditional pops. -/
def matchIter (s : MatchState) : Step :=
  match s.ob.BuyOrders, s.ob.SellOrders with
  | buyOrder :: buys, sellOrder :: sells =>
    if buyOrder.Price ≥ sellOrder.Price ∧ buyOrder.Stock = sellOrder.Stock then
      let quantity := min buyOrder.Quantity sellOrder.Quantity
      let transactions := s.transactions ++ [trade buyOrder sellOrder]
      let buyOrder1 := fill buyOrder quantity
      let sellOrder1 := fill sellOrder quantity
      match settle s.traders buyOrder sellOrder quantity with
      | .error f => .fault f
      | .ok traders1 =>
        match popIfFilled buyOrder1 (buyOrder1 :: buys),
            popIfFilled sellOrder1 (sellOrder1 :: sells) with
        | some buys1, some sells1 =>
          .next {
            ob := { BuyOrders := buys1, SellOrders := sells1 }
            traders := traders1
            transactions := transactions }
        | _, _ => .fault .emptyHeap
    else .exit
  | _, _ => .exit

/-- The `for` loop of `MatchOrders`, at most `fuel` iterations. -/
def matchLoop : Nat → MatchState → Except Fault MatchState
  | 0, _ => .error .fuel
  | fuel + 1, s =>
    match matchIter s with
    | .exit => .ok s
    | .next s1 => matchLoop fuel s1
    | .fault f => .error f

/-- Go `func (ob *OrderBook) MatchOrders(traders map[int]*Trader) []Transaction`.  The
result carries the book and the traders as the call leaves them and the returned slice.
Every iteration that does not leave the loop pops a queue (`matchLoop_enough`), so the
loop runs at most `len(BuyOrders) + len(SellOrders)` times. -/
def OrderBook.MatchOrders (ob : OrderBook) (traders : Traders) : Except Fault MatchState :=
  matchLoop (ob.BuyOrders.length + ob.SellOrders.length + 1)
    { ob := ob, traders := traders, transactions := [] }

/-! ## Specification vocabulary -/

/-- The heap key of an order on the side `b`: `Less` puts the smaller key nearer the root,
so a buy order is keyed by the negated price and a sell order by the price. -/
def prio (b : Bool) (o : Order) : ℚ := if b then -o.Price else o.Price

/-- The key stored at index `i` (`0` outside the queue). -/
def keyAt (b : Bool) (pq : PriorityQueue) (i : Nat) : ℚ :=
  match pq[i]? with
  | some o => prio b o
  | none => 0

/-- Every order of the queue is on side `b` (`true`: buy). -/
def SideOf (b : Bool) (pq : PriorityQueue) : Prop := ∀ o ∈ pq, o.IsBuy = b

/-- The heap condition on the first `n` slots: no slot beats its parent `(c-1)/2`. -/
def HeapUpTo (b : Bool) (pq : PriorityQueue) (n : Nat) : Prop :=
  ∀ c, 0 < c → c < n → keyAt b pq ((c - 1) / 2) ≤ keyAt b pq c

/-- The heap condition on the whole queue. -/
def IsHeap (b : Bool) (pq : PriorityQueue) : Prop := HeapUpTo b pq pq.length

/-- The invariant of `heap.up` at index `j`: only the edge from `j` to its parent may be
out of order, and the children of `j` respect the parent of `j`. -/
def UpInv (b : Bool) (pq : PriorityQueue) (j : Nat) : Prop :=
  (∀ c, 0 < c → c < pq.length → c ≠ j → keyAt b pq ((c - 1) / 2) ≤ keyAt b pq c) ∧
  (∀ c, 0 < c → c < pq.length → (c - 1) / 2 = j → 0 < j →
    keyAt b pq ((j - 1) / 2) ≤ keyAt b pq c)

/-- The invariant of `heap.down` at index `i` on the first `n` slots: only the edges from
`i` to its children may be out of order, and the children of `i` respect the parent of `i`. -/
def DownInv (b : Bool) (pq : PriorityQueue) (i n : Nat) : Prop :=
  (∀ c, 0 < c → c < n → (c - 1) / 2 ≠ i → keyAt b pq ((c - 1) / 2) ≤ keyAt b pq c) ∧
  (∀ c, 0 < c → c < n → (c - 1) / 2 = i → 0 < i →
    keyAt b pq ((i - 1) / 2) ≤ keyAt b pq c)

/-- A book whose two queues are heaps of buy orders and of sell orders. -/
structure WellFormed (ob : OrderBook) : Prop where
  buySide : SideOf true ob.BuyOrders
  sellSide : SideOf false ob.SellOrders
  buyHeap : IsHeap true ob.BuyOrders
  sellHeap : IsHeap false ob.SellOrders

/-- The books built from `NewOrderBook` by `AddOrder` calls with orders satisfying `P` and
by `MatchOrders` calls that return. -/
inductive Reachable (P : Order → Prop) : OrderBook → Prop where
  | new : Reachable P NewOrderBook
  | add (ob : OrderBook) (o : Order) : Reachable P ob → P o → Reachable P (ob.AddOrder o)
  | matched (ob : OrderBook) (traders : Traders) (s : MatchState) :
      Reachable P ob → ob.MatchOrders traders = .ok s → Reachable P s.ob

/-- How an iteration of `MatchOrders` leaves a queue whose head has become `o1` and whose
other slots are `rest`: the head is popped when its quantity is `0`, and stays otherwise. -/
def QueueAfter (o1 : Order) (rest q : PriorityQueue) : Prop :=
  (o1.Quantity = 0 ∧ heapPop (o1 :: rest) = some (o1, q) ∧ q.Perm rest) ∨
  (o1.Quantity ≠ 0 ∧ q = o1 :: rest)

/-- The states a `MatchOrders` pass goes through: `Iterates s0 s` when `s` is reached from
`s0` by some number of loop iterations. -/
inductive Iterates (s0 : MatchState) : MatchState → Prop where
  | start : Iterates s0 s0
  | step (s s1 : MatchState) : Iterates s0 s → matchIter s = .next s1 → Iterates s0 s1

/-- A positive quantity that a Go `int` can hold. -/
def PosQty (o : Order) : Prop := 0 < o.Quantity ∧ o.Quantity < 2 ^ 63

instance (o : Order) : Decidable (PosQty o) := by unfold PosQty; infer_instance

/-- The cash of trader `k` (`none` when `k` is not in the map). -/
def cashOf (traders : Traders) (k : Int) : Option ℚ := (traders k).map (fun t => t.Cash)

/-- What trader `k` holds of `stock` (`none` when `k` is not in the map or its `Portfolio`
is nil). -/
def heldOf (traders : Traders) (k : Int) (stock : String) : Option Int :=
  (traders k).bind (fun t => t.Portfolio.map (fun held => held stock))

/-- The traders that a pass on the book will touch can be settled: the trader of every
buy order is in the map with a non-nil `Portfolio`, the trader of every sell order is in
the map. -/
def TradersReady (traders : Traders) (ob : OrderBook) : Prop :=
  (∀ o ∈ ob.BuyOrders, (heldOf traders o.TraderID o.Stock).isSome = true) ∧
  (∀ o ∈ ob.SellOrders, (cashOf traders o.TraderID).isSome = true)

/-- What the traders with keys in `K` hold of `stock`, summed (a nil `Portfolio` and an
absent key read as `0`). -/
def holdings (traders : Traders) (K : Finset Int) (stock : String) : Int :=
  ∑ k ∈ K, (heldOf traders k stock).getD 0

/-- The sum of the quantities of the orders of a queue. -/
def restingTotal (pq : PriorityQueue) : Int := (pq.map (fun o => o.Quantity)).sum

/-- The cash of the traders with keys in `K`, summed. -/
def cashTotal (traders : Traders) (K : Finset Int) : ℚ :=
  ∑ k ∈ K, (cashOf traders k).getD 0

/-- The cash reserved by the orders of a queue: the sum of `Quantity * Price`. -/
def reservedCash (pq : PriorityQueue) : ℚ :=
  (pq.map (fun o => (o.Quantity : ℚ) * o.Price)).sum

/-! ## Scenarios -/

/-- A buy order of trader `1` for `q` shares of AAPL at limit `p`. -/
def buyAt (id q : Int) (p : ℚ) : Order :=
  { ID := id, TraderID := 1, Price := p, Quantity := q, IsBuy := true, Stock := "AAPL" }

/-- A sell order of trader `2` for `q` shares of AAPL at limit `p`. -/
def sellAt (id q : Int) (p : ℚ) : Order :=
  { ID := id, TraderID := 2, Price := p, Quantity := q, IsBuy := false, Stock := "AAPL" }

/-- The traders map that `main` builds (`1.go`, lines 26-30). -/
def mainTraders : Traders := fun k =>
  if k = 1 then some { ID := 1, Cash := 1000, Portfolio := some (fun st =>
    if st = "AAPL" then 10 else if st = "GOOG" then 5 else 0) }
  else if k = 2 then some { ID := 2, Cash := 1500, Portfolio := some (fun st =>
    if st = "AAPL" then 7 else if st = "AMZN" then 8 else 0) }
  else if k = 3 then some { ID := 3, Cash := 800, Portfolio := some (fun st =>
    if st = "GOOG" then 6 else if st = "AMZN" then 4 else 0) }
  else none

/-- Buy 5@52 and Sell 10@50, a scenario of the spec. -/
def pairBook : OrderBook := { BuyOrders := [buyAt 1 5 52], SellOrders := [sellAt 2 10 50] }

/-- Sell 10@60 submitted first, then Buy 10@55, a scenario of the spec. -/
def gapBook : OrderBook := (NewOrderBook.AddOrder (sellAt 1 10 60)).AddOrder (buyAt 2 10 55)

/-- Traders `1` and `2` as in `main`, but trader `1` was built without a `Portfolio`
(`&Trader{ID: 1, Cash: 1000}`), so that its map is nil. -/
def bareTraders : Traders := fun k =>
  if k = 1 then some { ID := 1, Cash := 1000, Portfolio := none }
  else if k = 2 then some { ID := 2, Cash := 1500, Portfolio := some (fun st =>
    if st = "AAPL" then 7 else if st = "AMZN" then 8 else 0) }
  else none

/-- The empty traders map. -/
def noTraders : Traders := fun _ => none

/-- Traders `1` and `2` as in `main`, but trader `1` holds `2^63 - 1` shares of AAPL,
the largest Go `int`. -/
def richTraders : Traders := fun k =>
  if k = 1 then some { ID := 1, Cash := 1000, Portfolio := some (fun st =>
    if st = "AAPL" then 9223372036854775807 else 0) }
  else if k = 2 then some { ID := 2, Cash := 1500, Portfolio := some (fun st =>
    if st = "AAPL" then 7 else if st = "AMZN" then 8 else 0) }
  else none

/-- Buys A, B, C of 1@50 submitted in that order, then a sell of 3@50. -/
def fifoBook : OrderBook :=
  (((NewOrderBook.AddOrder (buyAt 1 1 50)).AddOrder (buyAt 2 1 50)).AddOrder
    (buyAt 3 1 50)).AddOrder (sellAt 4 3 50)

/-! ## The command loop of `main` (`1.go`) -/

/-- The variables of `main` that the commands read and write: the map from stock symbol
to order book, the traders map and the trader selected by `switch` (`0`: none). -/
structure Session where
  StockOrderBooks : String → Option OrderBook
  traders : Traders
  currentTraderID : Int

/-- The messages with which a command gives up (`fmt.Println(...)` followed by
`continue`). -/
inductive Message where
  | switchFirst
  | usage
  | invalidTraderID
  | invalidQuantityOrPrice
  | invalidQuantity
  | invalidPrice
deriving DecidableEq

/-- The run-time panics of the command loop: a nil `*Trader`, a write to a nil
`Portfolio` map, and a method call on the nil `*OrderBook` of an unknown stock. -/
inductive Crash where
  | nilTrader
  | nilMap
  | nilOrderBook
deriving DecidableEq

/-- How a command ends: with a message and no effect, with the order it added, with
nothing to report, or in a panic. -/
inductive Outcome where
  | rejected (message : Message)
  | added (order : Order)
  | done
  | crashed (crash : Crash)
deriving DecidableEq

/-- The state in which `main` enters its command loop (lines 17-30 and 55): an empty book
for each of AAPL, GOOG and AMZN, the three traders, no trader selected. -/
def startSession : Session :=
  { StockOrderBooks := fun stock =>
      if stock = "AAPL" ∨ stock = "GOOG" ∨ stock = "AMZN" then some NewOrderBook else none
    traders := mainTraders
    currentTraderID := 0 }

/-- The command `switch` (lines 80-91).  `atoi` stands for `strconv.Atoi` (`none`: it
returned an error). -/
def switchCommand (atoi : String → Option Int) (s : Session) (args : List String) :
    Session × Outcome :=
  if args.length < 2 then (s, .rejected .usage)
  else
    match atoi (args.getD 1 "") with
    | none => (s, .rejected .invalidTraderID)
    | some id =>
      match s.traders id with
      | none => (s, .rejected .invalidTraderID)
      | some _ => ({ s with currentTraderID := id }, .done)

/-- Lines 110-117 of the command `order`: a sell order takes its shares out of the
portfolio of the current trader.  Reading a nil map yields `0`, writing to it panics. -/
def escrowShares (traders : Traders) (cur : Int) (stock : String) (quantity : Int) :
    Except Outcome Traders :=
  match traders cur with
  | none => .error (.crashed .nilTrader)
  | some t =>
    if (t.Portfolio.map (fun held => held stock)).getD 0 < quantity then
      .error (.rejected .invalidQuantity)
    else
      match t.Portfolio with
      | none => .error (.crashed .nilMap)
      | some held =>
        .ok (fun k => if k = cur then
          some { t with Portfolio := some (fun st =>
            if st = stock then wrapInt (held st - quantity) else held st) }
          else traders k)

/-- Lines 118-124 of the command `order`: a buy order takes `quantity * price` out of the
cash of the current trader. -/
def escrowCash (traders : Traders) (cur : Int) (quantity : Int) (price : ℚ) :
    Except Outcome Traders :=
  match traders cur with
  | none => .error (.crashed .nilTrader)
  | some t =>
    if t.Cash < (quantity : ℚ) * price then .error (.rejected .invalidPrice)
    else .ok (fun k => if k = cur then
      some { t with Cash := t.Cash - (quantity : ℚ) * price } else traders k)

/-- The command `order` (lines 93-134).  `atoi` and `parseFloat` stand for `strconv.Atoi`
and `strconv.ParseFloat` (`none`: an error was returned), `draw` for the value that
`rand.Intn(1000)` returns.  The state that comes with a panic is the one the panic found. -/
def orderCommand (atoi : String → Option Int) (parseFloat : String → Option ℚ)
    (s : Session) (args : List String) (draw : Int) : Session × Outcome :=
  if s.currentTraderID = 0 then (s, .rejected .switchFirst)
  else if args.length < 5 then (s, .rejected .usage)
  else
    let isBuy := decide (args.getD 1 "" = "buy")
    match atoi (args.getD 2 ""), parseFloat (args.getD 4 "") with
    | some quantity, some price =>
      let stock := args.getD 3 ""
      match (if !isBuy then escrowShares s.traders s.currentTraderID stock quantity
          else .ok s.traders) with
      | .error out => (s, out)
      | .ok traders1 =>
        match (if isBuy then escrowCash traders1 s.currentTraderID quantity price
            else .ok traders1) with
        | .error out => ({ s with traders := traders1 }, out)
        | .ok traders2 =>
          let order : Order :=
            { ID := draw
              TraderID := s.currentTraderID
              Price := price
              Quantity := quantity
              IsBuy := isBuy
              Stock := stock }
          match s.StockOrderBooks stock with
          | none => ({ s with traders := traders2 }, .crashed .nilOrderBook)
          | some ob =>
            ({ s with
                traders := traders2
                StockOrderBooks := fun k =>
                  if k = stock then some (ob.AddOrder order) else s.StockOrderBooks k },
              .added order)
    | _, _ => (s, .rejected .invalidQuantityOrPrice)

/-- The rows that the command `show` prints for one book (lines 140-153): row `i` shows
`BuyOrders[i]` and `SellOrders[i]`, each when the queue is that long, for `i` below the
larger of the two lengths. -/
def showBook (val : OrderBook) : List (Option Order × Option Order) :=
  (List.range (Int.toNat (max (val.BuyOrders.length : Int) (val.SellOrders.length : Int)))).map
    (fun i => (val.BuyOrders[i]?, val.SellOrders[i]?))

/-- The command `show` (lines 136-154) for the books of the stocks `keys`, in the order in
which `range` visits the map; it assigns to nothing. -/
def showCommand (s : Session) (keys : List String) :
    Session × List (String × List (Option Order × Option Order)) :=
  (s, keys.filterMap (fun key => (s.StockOrderBooks key).map (fun val => (key, showBook val))))

/-! ## Scenarios of the command loop -/

/-- The results of `strconv.Atoi` on the arguments used below. -/
def demoAtoi : String → Option Int := fun a =>
  if a = "1" then some 1 else if a = "5" then some 5 else if a = "-5" then some (-5)
  else none

/-- The results of `strconv.ParseFloat` on the arguments used below. -/
def demoParseFloat : String → Option ℚ := fun a =>
  if a = "10" then some 10 else if a = "40" then some 40 else if a = "45" then some 45
  else if a = "50" then some 50 else none

/-- The session after the command `switch 1`. -/
def traderOneSession : Session := (switchCommand demoAtoi startSession ["switch", "1"]).1

/-- Buys at 50, 40 and 45 submitted in that order. -/
def shownBook : OrderBook :=
  ((NewOrderBook.AddOrder (buyAt 1 1 50)).AddOrder (buyAt 2 1 40)).AddOrder (buyAt 3 1 45)

/-- The session after `switch 1` and the commands `order buy 1 AAPL 50`,
`order buy 1 AAPL 40` and `order buy 1 AAPL 45`, whose orders drew the IDs 1, 2 and 3. -/
def shownSession : Session :=
  (orderCommand demoAtoi demoParseFloat
    (orderCommand demoAtoi demoParseFloat
      (orderCommand demoAtoi demoParseFloat traderOneSession
        ["order", "buy", "1", "AAPL", "50"] 1).1
      ["order", "buy", "1", "AAPL", "40"] 2).1
    ["order", "buy", "1", "AAPL", "45"] 3).1

/-! ## `container/heap` on a slice of any element type -/

/-- `Swap(i, j)` on a slice of any element type: `h[i], h[j] = h[j], h[i]`. -/
def swapOf {α : Type} (h : List α) (i j : Nat) : List α :=
  match h[i]?, h[j]? with
  | some a, some b => (h.set i b).set j a
  | _, _ => h

/-- `Less(i, j)` for a comparison `less` of the elements (`false` outside the slice). -/
def lessOf {α : Type} (less : α → α → Bool) (h : List α) (i j : Nat) : Bool :=
  match h[i]?, h[j]? with
  | some a, some b => less a b
  | _, _ => false

/-- The loop of `heap.up`, as `upLoop`, for any element type. -/
def upLoopOf {α : Type} (less : α → α → Bool) : Nat → List α → Nat → List α
  | 0, h, _ => h
  | fuel + 1, h, j =>
    let i := (j - 1) / 2
    if i = j ∨ !lessOf less h j i then h
    else upLoopOf less fuel (swapOf h i j) i

/-- The child that `heap.down` compares with slot `i`, as `downChild`. -/
def downChildOf {α : Type} (less : α → α → Bool) (h : List α) (i n : Nat) : Nat :=
  if 2 * i + 2 < n ∧ lessOf less h (2 * i + 2) (2 * i + 1) then 2 * i + 2 else 2 * i + 1

/-- The loop of `heap.down`, as `downLoop`, for any element type. -/
def downLoopOf {α : Type} (less : α → α → Bool) : Nat → List α → Nat → Nat → List α
  | 0, h, _, _ => h
  | fuel + 1, h, i, n =>
    if 2 * i + 1 ≥ n then h
    else if !lessOf less h (downChildOf less h i n) i then h
    else downLoopOf less fuel (swapOf h i (downChildOf less h i n)) (downChildOf less h i n) n

/-- Go `heap.Push(h, x)`: `h.Push(x); up(h, h.Len()-1)`, with `Push` appending. -/
def heapPushOf {α : Type} (less : α → α → Bool) (h : List α) (x : α) : List α :=
  let h1 := h ++ [x]
  upLoopOf less (h1.length - 1 + 1) h1 (h1.length - 1)

/-- Go `heap.Pop(h)`: `n := h.Len() - 1; h.Swap(0, n); down(h, 0, n); return h.Pop()`, with
`Pop` removing the last element. -/
def heapPopOf {α : Type} (less : α → α → Bool) (h : List α) : Option (α × List α) :=
  if h.length = 0 then none
  else
    let n := h.length - 1
    let h1 := downLoopOf less n (swapOf h 0 n) 0 n
    match h1.getLast? with
    | some item => some (item, h1.dropLast)
    | none => none

/-- The body of `Less`: `if pq[i].IsBuy { return pq[i].Price > pq[j].Price }` and
`return pq[i].Price < pq[j].Price`, for the two orders `a = pq[i]` and `b = pq[j]`. -/
def orderLess (a b : Order) : Bool :=
  if a.IsBuy then decide (a.Price > b.Price) else decide (a.Price < b.Price)

/-! ## The book as slices of pointers -/

/-- The `Order` objects in memory, by address. -/
abbrev Objects := Nat → Order

/-- Go `type PriorityQueue []*Order` with the pointers as addresses: two slots may hold the
same pointer. -/
abbrev PtrQueue := List Nat

/-- Go `type OrderBook struct` (without the mutex), its queues holding pointers. -/
structure PtrBook where
  BuyOrders : PtrQueue
  SellOrders : PtrQueue
deriving DecidableEq

/-- `Less(i, j)` read through the pointers `p = pq[i]` and `q = pq[j]`. -/
def ptrLess (objs : Objects) (p q : Nat) : Bool := orderLess (objs p) (objs q)

/-- Go `func (ob *OrderBook) AddOrder(order *Order)`, `order` being a pointer. -/
def PtrBook.AddOrder (objs : Objects) (ob : PtrBook) (order : Nat) : PtrBook :=
  if (objs order).IsBuy then
    { ob with BuyOrders := heapPushOf (ptrLess objs) ob.BuyOrders order }
  else { ob with SellOrders := heapPushOf (ptrLess objs) ob.SellOrders order }

/-- The state of one `MatchOrders` call on a book of pointers: the objects, the book, the
traders and the local slice `transactions`. -/
structure PtrState where
  objs : Objects
  ob : PtrBook
  traders : Traders
  transactions : List Transaction

/-- What one trip through the `for` loop of `MatchOrders` does to a `PtrState`. -/
inductive PtrStep where
  | exit : PtrStep
  | next : PtrState → PtrStep
  | fault : Fault → PtrStep

/-- The update `order.Quantity -= quantity` through the pointer `order`: it is seen through
every slot that holds this pointer. -/
def fillAt (objs : Objects) (order : Nat) (quantity : Int) : Objects :=
  fun x => if x = order then fill (objs x) quantity else objs x

/-- The conditional `heap.Pop` that ends an iteration, the quantity read through the
pointer: `if order.Quantity == 0 { heap.Pop(&q) }`. -/
def popIfFilledAt (objs : Objects) (order : Nat) (q : PtrQueue) : Option PtrQueue :=
  if (objs order).Quantity = 0 then (heapPopOf (ptrLess objs) q).map Prod.snd else some q

/-- One iteration of the loop of `MatchOrders` (lines 96-128) on a book of pointers: the
transaction is built from the two head objects, then both quantities are updated through
the head pointers, the traders are settled and the queues popped, each reading the objects
as the updates left them. -/
def matchIterAt (s : PtrState) : PtrStep :=
  match s.ob.BuyOrders, s.ob.SellOrders with
  | buyOrder :: buys, sellOrder :: sells =>
    if (s.objs buyOrder).Price ≥ (s.objs sellOrder).Price
        ∧ (s.objs buyOrder).Stock = (s.objs sellOrder).Stock then
      let quantity := min (s.objs buyOrder).Quantity (s.objs sellOrder).Quantity
      let transactions := s.transactions ++ [trade (s.objs buyOrder) (s.objs sellOrder)]
      let objs1 := fillAt s.objs buyOrder quantity
      let objs2 := fillAt objs1 sellOrder quantity
      match settle s.traders (objs2 buyOrder) (objs2 sellOrder) quantity with
      | .error f => .fault f
      | .ok traders1 =>
        match popIfFilledAt objs2 buyOrder (buyOrder :: buys),
            popIfFilledAt objs2 sellOrder (sellOrder :: sells) with
        | some buys1, some sells1 =>
          .next {
            objs := objs2
            ob := { BuyOrders := buys1, SellOrders := sells1 }
            traders := traders1
            transactions := transactions }
        | _, _ => .fault .emptyHeap
    else .exit
  | _, _ => .exit

/-- The `for` loop of `MatchOrders` on a book of pointers, at most `fuel` iterations. -/
def matchLoopAt : Nat → PtrState → Except Fault PtrState
  | 0, _ => .error .fuel
  | fuel + 1, s =>
    match matchIterAt s with
    | .exit => .ok s
    | .next s1 => matchLoopAt fuel s1
    | .fault f => .error f

/-- Go `func (ob *OrderBook) MatchOrders(traders map[int]*Trader) []Transaction` on a book
of pointers.  A pass that returns makes at most `len(BuyOrders) + len(SellOrders)` trips
(`matchLoopAt_enough`); the fault `fuel` stands for a loop that does not end, which happens
when the two queues come to hold the same object at their heads. -/
def PtrBook.MatchOrders (objs : Objects) (ob : PtrBook) (traders : Traders) :
    Except Fault PtrState :=
  matchLoopAt (ob.BuyOrders.length + ob.SellOrders.length + 1)
    { objs := objs, ob := ob, traders := traders, transactions := [] }

/-- Go `func NewOrderBook() *OrderBook`, for a book of pointers. -/
def NewPtrBook : PtrBook := { BuyOrders := [], SellOrders := [] }

/-! ## Specification vocabulary for books of pointers -/

/-- The orders that the slots of a book of pointers point to. -/
def PtrBook.view (objs : Objects) (ob : PtrBook) : OrderBook :=
  { BuyOrders := ob.BuyOrders.map objs, SellOrders := ob.SellOrders.map objs }

/-- A `PtrState` with every slot replaced by the order it points to. -/
def PtrState.view (s : PtrState) : MatchState :=
  { ob := s.ob.view s.objs, traders := s.traders, transactions := s.transactions }

/-- How an iteration leaves a queue of pointers whose head is `p` and whose other slots
are `rest`: the head slot is popped when the quantity of its object is `0`, and stays
otherwise. -/
def QueueAfterAt (objs : Objects) (p : Nat) (rest q : PtrQueue) : Prop :=
  ((objs p).Quantity = 0 ∧ heapPopOf (ptrLess objs) (p :: rest) = some (p, q) ∧ q.Perm rest) ∨
  ((objs p).Quantity ≠ 0 ∧ q = p :: rest)

/-- The two queues have the same pointer at their heads, and the quantity of its object
does not come to `0` by being subtracted from itself twice. -/
def Stuck (s : PtrState) : Prop :=
  ∃ x bt st, s.ob.BuyOrders = x :: bt ∧ s.ob.SellOrders = x :: st
    ∧ wrapInt (-(s.objs x).Quantity) ≠ 0

/-- The states a `MatchOrders` pass on a book of pointers goes through. -/
inductive IteratesAt (s0 : PtrState) : PtrState → Prop where
  | start : IteratesAt s0 s0
  | step (s s1 : PtrState) : IteratesAt s0 s → matchIterAt s = .next s1 → IteratesAt s0 s1

/-- The books of pointers built from `NewPtrBook` by `AddOrder` calls that each submit an
`Order` object not yet in the book and satisfying `P`, and by `MatchOrders` calls that
return; in between, the program may write to any object that is not in the book. -/
inductive ReachableAt (P : Order → Prop) : Objects → PtrBook → Prop where
  | new (objs : Objects) : ReachableAt P objs NewPtrBook
  | add (objs : Objects) (ob : PtrBook) (order : Nat) : ReachableAt P objs ob →
      order ∉ ob.BuyOrders ++ ob.SellOrders → P (objs order) →
      ReachableAt P objs (ob.AddOrder objs order)
  | matched (objs : Objects) (ob : PtrBook) (traders : Traders) (r : PtrState) :
      ReachableAt P objs ob → ob.MatchOrders objs traders = .ok r → ReachableAt P r.objs r.ob
  | other (objs objs1 : Objects) (ob : PtrBook) : ReachableAt P objs ob →
      (∀ x ∈ ob.BuyOrders ++ ob.SellOrders, objs1 x = objs x) → ReachableAt P objs1 ob

/-- One trip through the loop of `MatchOrders`: the pointers found at the heads of the two
queues, and the transaction emitted against their objects. -/
structure Trip where
  buyOrder : Nat
  sellOrder : Nat
  transaction : Transaction

/-- The trips that the loop makes from the state `s`, first to last (at most `fuel`). -/
def tripsOf : Nat → PtrState → List Trip
  | 0, _ => []
  | fuel + 1, s =>
    match matchIterAt s, s.ob.BuyOrders, s.ob.SellOrders with
    | .next s1, buyOrder :: _, sellOrder :: _ =>
      { buyOrder := buyOrder
        sellOrder := sellOrder
        transaction := trade (s.objs buyOrder) (s.objs sellOrder) } :: tripsOf fuel s1
    | _, _, _ => []

/-- The trips of a `MatchOrders` call. -/
def PtrBook.trips (objs : Objects) (ob : PtrBook) (traders : Traders) : List Trip :=
  tripsOf (ob.BuyOrders.length + ob.SellOrders.length + 1)
    { objs := objs, ob := ob, traders := traders, transactions := [] }

/-- The sum of the `Quantity` fields of the transactions emitted against the object at
address `x`: those of the trips that found `x` at the head of `BuyOrders`, and those of the
trips that found it at the head of `SellOrders`. -/
def executedAt (trips : List Trip) (x : Nat) : Int :=
  ((trips.filter (fun t => t.buyOrder = x)).map (fun t => t.transaction.Quantity)).sum
    + ((trips.filter (fun t => t.sellOrder = x)).map (fun t => t.transaction.Quantity)).sum

/-- Every object of the book is among the objects `U`, and these hold quantities from `0`
to the largest Go `int`. -/
def GoodAt (U : Nat → Prop) (s : PtrState) : Prop :=
  (∀ x ∈ s.ob.BuyOrders ++ s.ob.SellOrders, U x) ∧
  ∀ x, U x → 0 ≤ (s.objs x).Quantity ∧ (s.objs x).Quantity < 2 ^ 63

/-! ## `Less` on `float64` prices -/

/-- A Go `float64` as far as its comparisons go: a number, or NaN, which
`strconv.ParseFloat` returns for the input `NaN`. -/
inductive Float64 where
  | num (x : ℚ)
  | nan
deriving DecidableEq

/-- Go `x > y` on `float64`: `false` when either operand is NaN. -/
def Float64.gt : Float64 → Float64 → Bool
  | .num x, .num y => decide (x > y)
  | _, _ => false

/-- Go `x < y` on `float64`: `false` when either operand is NaN. -/
def Float64.lt : Float64 → Float64 → Bool
  | .num x, .num y => decide (x < y)
  | _, _ => false

/-- Go `type Order struct`, the price being a `float64` that may be NaN. -/
structure FloatOrder where
  ID : Int
  TraderID : Int
  Price : Float64
  Quantity : Int
  IsBuy : Bool
  Stock : String
deriving DecidableEq

/-- The body of `Less` on `float64` prices: `if pq[i].IsBuy { return pq[i].Price >
pq[j].Price }` and `return pq[i].Price < pq[j].Price`. -/
def floatLess (a b : FloatOrder) : Bool :=
  if a.IsBuy then a.Price.gt b.Price else a.Price.lt b.Price

/-- Go `type OrderBook struct` (without the mutex) for orders with `float64` prices. -/
structure FloatBook where
  BuyOrders : List FloatOrder
  SellOrders : List FloatOrder
deriving DecidableEq

/-- Go `func (ob *OrderBook) AddOrder(order *Order)` for orders with `float64` prices. -/
def FloatBook.AddOrder (ob : FloatBook) (order : FloatOrder) : FloatBook :=
  if order.IsBuy then { ob with BuyOrders := heapPushOf floatLess ob.BuyOrders order }
  else { ob with SellOrders := heapPushOf floatLess ob.SellOrders order }

/-- A buy order of trader `1` for one share of AAPL at the `float64` price `p`. -/
def floatBuy (id : Int) (p : Float64) : FloatOrder :=
  { ID := id, TraderID := 1, Price := p, Quantity := 1, IsBuy := true, Stock := "AAPL" }

/-- Buys at 50, NaN, 60 and 70 submitted in that order to an empty book. -/
def nanBook : FloatBook :=
  (((FloatBook.AddOrder { BuyOrders := [], SellOrders := [] } (floatBuy 1 (.num 50))).AddOrder
    (floatBuy 2 .nan)).AddOrder (floatBuy 3 (.num 60))).AddOrder (floatBuy 4 (.num 70))

/-! ## Scenarios on books of pointers -/

/-- The object at address `0` is a buy of 5@52 by trader 1, every other object a sell of
10@50 by trader 2. -/
def twiceObjs : Objects := fun x => if x = 0 then buyAt 1 5 52 else sellAt 2 10 50

/-- The buy object at address `0` submitted twice, then the sell object at address `1`. -/
def twiceBook : PtrBook :=
  ((NewPtrBook.AddOrder twiceObjs 0).AddOrder twiceObjs 0).AddOrder twiceObjs 1

/-- The object at address `0` is a buy of 5@52 by trader 1, every other object a sell of
5@50 by trader 2. -/
def sameObjs : Objects := fun x => if x = 0 then buyAt 1 5 52 else sellAt 2 5 50

/-- The buy object at address `0` submitted twice, then the sell object at address `1`. -/
def sameBook : PtrBook :=
  ((NewPtrBook.AddOrder sameObjs 0).AddOrder sameObjs 0).AddOrder sameObjs 1

/-- The object at address `0` is a sell of 10@50 by trader 2, every other object a buy of
10@52 by trader 1. -/
def soldObjs : Objects := fun x => if x = 0 then sellAt 2 10 50 else buyAt 1 10 52

/-- The sell object at address `0` submitted twice, then the buy object at address `1`. -/
def soldBook : PtrBook :=
  ((NewPtrBook.AddOrder soldObjs 0).AddOrder soldObjs 0).AddOrder soldObjs 1

/-- The object at address `0` is a buy of 5@52 by trader 1, every other object a sell of
10@50 by trader 2; the buy object is submitted, then the sell object at address `1`. -/
def pairPtrBook : PtrBook := (NewPtrBook.AddOrder twiceObjs 0).AddOrder twiceObjs 1

/-- The object at address `0` is a buy of `2^62` at 1 by trader 1, every other object a
sell of `-2^62` at 1 by trader 2. -/
def wrapObjs : Objects := fun x =>
  if x = 0 then buyAt 1 4611686018427387904 1 else sellAt 2 (-4611686018427387904) 1

/-- The buy object at address `0` and the sell object at address `1`, each submitted
once. -/
def wrapPtrBook : PtrBook := (NewPtrBook.AddOrder wrapObjs 0).AddOrder wrapObjs 1

/-- The object at address `0` as it is when first submitted: a buy of 5@50 by trader 1. -/
def flipObjsBefore : Objects := fun _ => buyAt 1 5 50

/-- The objects after the caller has set `IsBuy` of the object at address `0` (a public
field) to `false`. -/
def flipObjs : Objects := fun _ => { buyAt 1 5 50 with IsBuy := false }

/-- The object at address `0` submitted as a buy and, after the caller has changed its
`IsBuy`, as a sell: both queues hold it. -/
def flipBook : PtrBook := (NewPtrBook.AddOrder flipObjsBefore 0).AddOrder flipObjs 0

/-- The object at address `0` is a buy of `-3` shares at 52 by trader 1, every other
object a sell of 0 shares at 50 by trader 2; each is submitted once. -/
def oddObjs : Objects := fun x => if x = 0 then buyAt 1 (-3) 52 else sellAt 2 0 50

/-- The buy object at address `0` and the sell object at address `1` of `oddObjs`, each
submitted once. -/
def oddBook : PtrBook := (NewPtrBook.AddOrder oddObjs 0).AddOrder oddObjs 1

/-! ## `Swap` -/

theorem length_Swap (pq : PriorityQueue) (i j : Nat) : (pq.Swap i j).length = pq.length := by
  unfold PriorityQueue.Swap
  split <;> simp

theorem getElem?_Swap (pq : PriorityQueue) (i j k : Nat) (hi : i < pq.length)
    (hj : j < pq.length) :
    (pq.Swap i j)[k]? = if k = j then pq[i]? else if k = i then pq[j]? else pq[k]? := by
  unfold PriorityQueue.Swap
  rw [List.getElem?_eq_getElem hi, List.getElem?_eq_getElem hj]
  simp only [List.getElem?_set, List.length_set]
  by_cases h1 : k = j
  · subst h1; simp [hj]
  · by_cases h2 : k = i
    · subst h2
      have h3 : ¬ j = k := fun h => h1 h.symm
      simp [hi, h1, h3]
    · simp [h1, h2, Ne.symm h1, Ne.symm h2]

theorem Swap_perm (pq : PriorityQueue) (i j : Nat) : (pq.Swap i j).Perm pq := by
  unfold PriorityQueue.Swap
  cases hi : pq[i]? with
  | none => simp
  | some a =>
    cases hj : pq[j]? with
    | none => simp
    | some b =>
      obtain ⟨hil, rfl⟩ := List.getElem?_eq_some.mp hi
      obtain ⟨hjl, rfl⟩ := List.getElem?_eq_some.mp hj
      simp only
      rw [List.perm_iff_count]
      intro c
      rw [List.count_set _ _ _ _ (by simpa using hjl), List.count_set _ _ _ _ hil]
      have h1 := List.boole_getElem_le_countP (· == c) pq i hil
      have h2 := List.boole_getElem_le_countP (· == c) pq j hjl
      simp only [List.getElem_set]
      by_cases hij : i = j
      · subst hij
        simp only [↓reduceIte, List.count_eq_countP] at *
        split_ifs at * <;> omega
      · simp only [hij, ↓reduceIte, List.count_eq_countP] at *
        split_ifs at * <;> omega

theorem keyAt_Swap (b : Bool) (pq : PriorityQueue) (i j k : Nat) (hi : i < pq.length)
    (hj : j < pq.length) :
    keyAt b (pq.Swap i j) k
      = if k = j then keyAt b pq i else if k = i then keyAt b pq j else keyAt b pq k := by
  unfold keyAt
  rw [getElem?_Swap pq i j k hi hj]
  split_ifs <;> rfl

theorem sideOf_of_perm {b : Bool} {p q : PriorityQueue} (h : p.Perm q) (hq : SideOf b q) :
    SideOf b p := fun o ho => hq o (h.subset ho)

theorem Less_eq_keyAt (b : Bool) (pq : PriorityQueue) (hs : SideOf b pq) (i j : Nat)
    (hi : i < pq.length) (hj : j < pq.length) :
    pq.Less i j = decide (keyAt b pq i < keyAt b pq j) := by
  unfold PriorityQueue.Less keyAt prio
  rw [List.getElem?_eq_getElem hi, List.getElem?_eq_getElem hj]
  have h1 : pq[i].IsBuy = b := hs _ (List.getElem_mem hi)
  have h2 : pq[j].IsBuy = b := hs _ (List.getElem_mem hj)
  cases b <;> simp [h1]

/-! ## `heap.up` and `heap.Push` -/

theorem upLoop_length : ∀ (fuel : Nat) (pq : PriorityQueue) (j : Nat),
    (upLoop fuel pq j).length = pq.length
  | 0, _, _ => rfl
  | fuel + 1, pq, j => by
    unfold upLoop
    simp only
    split
    · rfl
    · rw [upLoop_length fuel, length_Swap]

theorem upLoop_perm : ∀ (fuel : Nat) (pq : PriorityQueue) (j : Nat),
    (upLoop fuel pq j).Perm pq
  | 0, _, _ => List.Perm.refl _
  | fuel + 1, pq, j => by
    unfold upLoop
    simp only
    split
    · exact List.Perm.refl _
    · exact (upLoop_perm fuel _ _).trans (Swap_perm pq _ j)

theorem parent_lt {j : Nat} (h : 0 < j) : (j - 1) / 2 < j := by omega

/-- The fuel `j + 1` that `heapUp` gives its loop is enough: any two amounts above `j`
give the same result, so the loop always ends by one of its `break`s. -/
theorem upLoop_fuel : ∀ (f1 f2 : Nat) (pq : PriorityQueue) (j : Nat),
    j < f1 → j < f2 → upLoop f1 pq j = upLoop f2 pq j
  | 0, _, _, _, h, _ => absurd h (Nat.not_lt_zero _)
  | _ + 1, 0, _, _, _, h => absurd h (Nat.not_lt_zero _)
  | f1 + 1, f2 + 1, pq, j, h1, h2 => by
    unfold upLoop
    simp only
    split
    · rfl
    · rename_i hc
      have hne : (j - 1) / 2 ≠ j := fun h => hc (Or.inl h)
      exact upLoop_fuel f1 f2 _ _ (by omega) (by omega)

theorem upLoop_heap (b : Bool) : ∀ (fuel : Nat) (pq : PriorityQueue) (j : Nat),
    SideOf b pq → j < fuel → j < pq.length → UpInv b pq j → IsHeap b (upLoop fuel pq j)
  | 0, _, _, _, hf, _, _ => absurd hf (Nat.not_lt_zero _)
  | fuel + 1, pq, j, hs, hf, hj, hinv => by
    unfold upLoop
    simp only
    have hi : (j - 1) / 2 < pq.length := by omega
    rw [Less_eq_keyAt b pq hs j _ hj hi]
    obtain ⟨h1, h2⟩ := hinv
    split
    · rename_i hc
      intro c hc0 hcn
      by_cases hcj : c = j
      · subst hcj
        rcases hc with hc | hc
        · omega
        · simpa using hc
      · exact h1 c hc0 hcn hcj
    · rename_i hc
      have hj0 : (j - 1) / 2 ≠ j := fun h => hc (Or.inl h)
      have hlt : keyAt b pq j < keyAt b pq ((j - 1) / 2) := by
        by_contra hn
        exact hc (Or.inr (by simpa using hn))
      have hjpos : 0 < j := by omega
      have hpj : (j - 1) / 2 < j := parent_lt hjpos
      apply upLoop_heap b fuel _ _ (sideOf_of_perm (Swap_perm _ _ _) hs) (by omega)
        (by rw [length_Swap]; exact hi)
      constructor
      · intro c hc0 hcn hci
        rw [length_Swap] at hcn
        rw [keyAt_Swap b pq _ _ _ hi hj, keyAt_Swap b pq _ _ _ hi hj]
        have hpc : (c - 1) / 2 < c := parent_lt hc0
        by_cases hcj : c = j
        · subst hcj
          simp only [↓reduceIte, hj0]
          exact le_of_lt hlt
        · simp only [hcj, hci, ↓reduceIte]
          by_cases hp1 : (c - 1) / 2 = j
          · simp only [hp1, ↓reduceIte]
            have := h2 c hc0 hcn hp1 hjpos
            exact this
          · simp only [hp1, ↓reduceIte]
            by_cases hp2 : (c - 1) / 2 = (j - 1) / 2
            · simp only [hp2, ↓reduceIte]
              have := h1 c hc0 hcn hcj
              rw [hp2] at this
              exact le_trans (le_of_lt hlt) this
            · simp only [hp2, ↓reduceIte]
              exact h1 c hc0 hcn hcj
      · intro c hc0 hcn hpc hi0
        rw [length_Swap] at hcn
        rw [keyAt_Swap b pq _ _ _ hi hj, keyAt_Swap b pq _ _ _ hi hj]
        have hpi : ((j - 1) / 2 - 1) / 2 < (j - 1) / 2 := parent_lt hi0
        have e1 : ((j - 1) / 2 - 1) / 2 ≠ j := by omega
        have e2 : ((j - 1) / 2 - 1) / 2 ≠ (j - 1) / 2 := by omega
        have hci : c ≠ (j - 1) / 2 := by omega
        have hgp := h1 ((j - 1) / 2) hi0 hi hj0
        simp only [e1, e2, hci, ↓reduceIte]
        by_cases hcj : c = j
        · simp only [hcj, ↓reduceIte]
          exact hgp
        · simp only [hcj, ↓reduceIte]
          have := h1 c hc0 hcn hcj
          rw [hpc] at this
          exact le_trans hgp this

theorem keyAt_append_left (b : Bool) (pq : PriorityQueue) (x : Order) (k : Nat)
    (hk : k < pq.length) : keyAt b (pq ++ [x]) k = keyAt b pq k := by
  unfold keyAt
  rw [List.getElem?_append_left hk]

theorem heapPush_length (pq : PriorityQueue) (x : Order) :
    (heapPush pq x).length = pq.length + 1 := by
  simp [heapPush, heapUp, upLoop_length, PriorityQueue.Push]

theorem heapPush_perm (pq : PriorityQueue) (x : Order) : (heapPush pq x).Perm (x :: pq) := by
  unfold heapPush heapUp PriorityQueue.Push
  exact (upLoop_perm _ _ _).trans (List.perm_append_singleton x pq)

theorem heapPush_side (b : Bool) (pq : PriorityQueue) (x : Order) (hs : SideOf b pq)
    (hx : x.IsBuy = b) : SideOf b (heapPush pq x) := by
  apply sideOf_of_perm (heapPush_perm pq x)
  intro o ho
  rcases List.mem_cons.mp ho with rfl | h
  · exact hx
  · exact hs o h

theorem heapPush_heap (b : Bool) (pq : PriorityQueue) (x : Order) (hs : SideOf b pq)
    (hx : x.IsBuy = b) (hh : IsHeap b pq) : IsHeap b (heapPush pq x) := by
  unfold heapPush heapUp PriorityQueue.Push PriorityQueue.Len
  simp only [List.length_append, List.length_singleton, Nat.add_sub_cancel]
  have hs1 : SideOf b (pq ++ [x]) := by
    intro o ho
    rcases List.mem_append.mp ho with h | h
    · exact hs o h
    · rw [List.mem_singleton.mp h]; exact hx
  apply upLoop_heap b _ _ _ hs1 (by omega) (by simp)
  constructor
  · intro c hc0 hcn hcj
    simp only [List.length_append, List.length_singleton] at hcn
    have hc : c < pq.length := by omega
    have hp : (c - 1) / 2 < pq.length := by omega
    rw [keyAt_append_left b pq x c hc, keyAt_append_left b pq x _ hp]
    exact hh c hc0 hc
  · intro c hc0 hcn hpc _
    simp only [List.length_append, List.length_singleton] at hcn
    omega

/-! ## `heap.down` and `heap.Pop` -/

theorem downLoop_succ (fuel : Nat) (pq : PriorityQueue) (i n : Nat) :
    downLoop (fuel + 1) pq i n
      = if 2 * i + 1 ≥ n then pq
        else if !pq.Less (downChild pq i n) i then pq
        else downLoop fuel (pq.Swap i (downChild pq i n)) (downChild pq i n) n := rfl

theorem downChild_cases (pq : PriorityQueue) (i n : Nat) :
    downChild pq i n = 2 * i + 1 ∨ (downChild pq i n = 2 * i + 2 ∧ 2 * i + 2 < n) := by
  unfold downChild
  split
  · rename_i h; exact Or.inr ⟨rfl, h.1⟩
  · exact Or.inl rfl

theorem downLoop_length : ∀ (fuel : Nat) (pq : PriorityQueue) (i n : Nat),
    (downLoop fuel pq i n).length = pq.length
  | 0, _, _, _ => rfl
  | fuel + 1, pq, i, n => by
    rw [downLoop_succ]
    split
    · rfl
    · split
      · rfl
      · rw [downLoop_length fuel, length_Swap]

theorem downLoop_perm : ∀ (fuel : Nat) (pq : PriorityQueue) (i n : Nat),
    (downLoop fuel pq i n).Perm pq
  | 0, _, _, _ => List.Perm.refl _
  | fuel + 1, pq, i, n => by
    rw [downLoop_succ]
    split
    · exact List.Perm.refl _
    · split
      · exact List.Perm.refl _
      · exact (downLoop_perm fuel _ _ _).trans (Swap_perm pq i _)

/-- Running `heap.down` on the first `n` slots leaves the slots from `n` on alone. -/
theorem downLoop_getElem?_ge : ∀ (fuel : Nat) (pq : PriorityQueue) (i n k : Nat),
    n ≤ pq.length → n ≤ k → (downLoop fuel pq i n)[k]? = pq[k]?
  | 0, _, _, _, _, _, _ => rfl
  | fuel + 1, pq, i, n, k, hn, hk => by
    rw [downLoop_succ]
    split
    · rfl
    · rename_i h1
      split
      · rfl
      · have hi : i < pq.length := by omega
        have hc := downChild_cases pq i n
        have hcn : downChild pq i n < n := by omega
        rw [downLoop_getElem?_ge fuel _ _ n k (by rw [length_Swap]; exact hn) hk,
          getElem?_Swap pq i _ k hi (by omega)]
        have e1 : k ≠ downChild pq i n := by omega
        have e2 : k ≠ i := by omega
        simp [e1, e2]

/-- The fuel `n` that `heapDown` gives its loop is enough: any two amounts of at least
`n - i` give the same result. -/
theorem downLoop_fuel : ∀ (f1 f2 : Nat) (pq : PriorityQueue) (i n : Nat),
    n ≤ i + f1 → n ≤ i + f2 → downLoop f1 pq i n = downLoop f2 pq i n
  | 0, 0, _, _, _, _, _ => rfl
  | 0, f2 + 1, pq, i, n, h1, _ => by
    rw [downLoop_succ, if_pos (by omega)]
    rfl
  | f1 + 1, 0, pq, i, n, _, h2 => by
    rw [downLoop_succ, if_pos (by omega)]
    rfl
  | f1 + 1, f2 + 1, pq, i, n, h1, h2 => by
    rw [downLoop_succ, downLoop_succ]
    split
    · rfl
    · split
      · rfl
      · have hc := downChild_cases pq i n
        exact downLoop_fuel f1 f2 _ _ n (by omega) (by omega)

/-- The child chosen by `heap.down` carries the least key among the children of `i`. -/
theorem downChild_min (b : Bool) (pq : PriorityQueue) (hs : SideOf b pq) (i n : Nat)
    (hn : n ≤ pq.length) (c : Nat) (hc0 : 0 < c) (hcn : c < n) (hpc : (c - 1) / 2 = i) :
    keyAt b pq (downChild pq i n) ≤ keyAt b pq c := by
  have hc : c = 2 * i + 1 ∨ c = 2 * i + 2 := by omega
  unfold downChild
  split
  · rename_i h
    rw [Less_eq_keyAt b pq hs _ _ (by omega) (by omega)] at h
    have h2 := h.2
    simp only [decide_eq_true_eq] at h2
    rcases hc with rfl | rfl
    · exact le_of_lt h2
    · exact le_refl _
  · rename_i h
    rcases hc with rfl | rfl
    · exact le_refl _
    · have h3 : ¬ pq.Less (2 * i + 2) (2 * i + 1) = true := fun h4 => h ⟨hcn, h4⟩
      rw [Less_eq_keyAt b pq hs _ _ (by omega) (by omega)] at h3
      simpa using h3

theorem downLoop_heap (b : Bool) : ∀ (fuel : Nat) (pq : PriorityQueue) (i n : Nat),
    SideOf b pq → n ≤ i + fuel → n ≤ pq.length → DownInv b pq i n →
    HeapUpTo b (downLoop fuel pq i n) n
  | 0, pq, i, n, _, hf, _, hinv => by
    intro c hc0 hcn
    have hp : (c - 1) / 2 < c := parent_lt hc0
    exact hinv.1 c hc0 hcn (by omega)
  | fuel + 1, pq, i, n, hs, hf, hn, hinv => by
    rw [downLoop_succ]
    obtain ⟨h1, h2⟩ := hinv
    split
    · rename_i hge
      intro c hc0 hcn
      exact h1 c hc0 hcn (by omega)
    · rename_i hlt
      have hcases := downChild_cases pq i n
      have hjn : downChild pq i n < n := by omega
      have hji : i < downChild pq i n := by omega
      have hpj : (downChild pq i n - 1) / 2 = i := by omega
      have hil : i < pq.length := by omega
      have hjl : downChild pq i n < pq.length := by omega
      have hmin := downChild_min b pq hs i n hn
      rw [Less_eq_keyAt b pq hs _ _ hjl hil]
      generalize downChild pq i n = j at *
      split
      · rename_i hle
        have hle1 : keyAt b pq i ≤ keyAt b pq j := by simpa using hle
        intro c hc0 hcn
        by_cases hpc : (c - 1) / 2 = i
        · rw [hpc]
          exact le_trans hle1 (hmin c hc0 hcn hpc)
        · exact h1 c hc0 hcn hpc
      · rename_i hnle
        have hlt1 : keyAt b pq j < keyAt b pq i := by simpa using hnle
        apply downLoop_heap b fuel _ _ _ (sideOf_of_perm (Swap_perm _ _ _) hs) (by omega)
          (by rw [length_Swap]; exact hn)
        constructor
        · intro c hc0 hcn hpc
          rw [keyAt_Swap b pq _ _ _ hil hjl, keyAt_Swap b pq _ _ _ hil hjl]
          have hp : (c - 1) / 2 < c := parent_lt hc0
          simp only [hpc, ↓reduceIte]
          by_cases hcj : c = j
          · subst hcj
            simp only [hpj, ↓reduceIte]
            exact le_of_lt hlt1
          · simp only [hcj, ↓reduceIte]
            by_cases hci : c = i
            · subst hci
              have e1 : (c - 1) / 2 ≠ c := by omega
              simp only [e1, ↓reduceIte]
              exact h2 j (by omega) hjn hpj hc0
            · simp only [hci, ↓reduceIte]
              by_cases hpi : (c - 1) / 2 = i
              · simp only [hpi, ↓reduceIte]
                exact hmin c hc0 hcn hpi
              · simp only [hpi, ↓reduceIte]
                exact h1 c hc0 hcn hpi
        · intro c hc0 hcn hpc hj0
          rw [keyAt_Swap b pq _ _ _ hil hjl, keyAt_Swap b pq _ _ _ hil hjl]
          have e1 : (j - 1) / 2 ≠ j := by omega
          have e2 : c ≠ j := by omega
          have e3 : c ≠ i := by omega
          have e4 : i ≠ j := by omega
          simp only [e1, e2, e3, e4, hpj, ↓reduceIte]
          have h3 := h1 c hc0 hcn (by omega)
          rw [hpc] at h3
          exact h3

/-- The effect of `heap.Pop` on a non-empty queue: it returns the head, and what stays is a
rearrangement of the other orders. -/
theorem heapPop_cons (h : Order) (t : PriorityQueue) :
    ∃ rest, heapPop (h :: t) = some (h, rest) ∧ rest.Perm t
      ∧ heapDown (PriorityQueue.Swap (h :: t) 0 t.length) 0 t.length = rest ++ [h] := by
  have hlen : (h :: t).length = t.length + 1 := rfl
  have hl2 : (heapDown (PriorityQueue.Swap (h :: t) 0 t.length) 0 t.length).length = t.length + 1 := by
    unfold heapDown
    rw [downLoop_length, length_Swap, hlen]
  have hlast : (heapDown (PriorityQueue.Swap (h :: t) 0 t.length) 0 t.length).getLast? = some h := by
    rw [List.getLast?_eq_getElem?, hl2]
    unfold heapDown
    simp only [Nat.add_sub_cancel]
    rw [downLoop_getElem?_ge _ _ _ _ _ (by rw [length_Swap, hlen]; omega) (le_refl _),
      getElem?_Swap _ _ _ _ (by rw [hlen]; omega) (by rw [hlen]; omega)]
    simp
  have happ := List.dropLast_append_getLast? h (by simpa using hlast)
  refine ⟨(heapDown (PriorityQueue.Swap (h :: t) 0 t.length) 0 t.length).dropLast, ?_, ?_, happ.symm⟩
  · unfold heapPop PriorityQueue.Len PriorityQueue.Pop
    simp only [hlen, Nat.add_sub_cancel]
    rw [hlast]
    simp
  · have hp : (heapDown (PriorityQueue.Swap (h :: t) 0 t.length) 0 t.length).Perm (h :: t) :=
      (downLoop_perm _ _ _ _).trans (Swap_perm _ _ _)
    rw [← happ] at hp
    exact ((List.perm_append_singleton h _).symm.trans hp).cons_inv

theorem heapPop_heap (b : Bool) (h : Order) (t rest : PriorityQueue)
    (hs : SideOf b (h :: t)) (hh : IsHeap b (h :: t))
    (hpop : heapPop (h :: t) = some (h, rest)) : IsHeap b rest := by
  obtain ⟨rest1, h1, hperm, happ⟩ := heapPop_cons h t
  rw [h1] at hpop
  have e : rest1 = rest := by
    have := Option.some.inj hpop
    exact (Prod.mk.inj this).2
  subst e
  have hlen : (h :: t).length = t.length + 1 := rfl
  have hrl : rest1.length = t.length := hperm.length_eq
  have hup : HeapUpTo b (heapDown (PriorityQueue.Swap (h :: t) 0 t.length) 0 t.length) t.length := by
    unfold heapDown
    apply downLoop_heap b _ _ _ _ (sideOf_of_perm (Swap_perm _ _ _) hs) (by omega)
      (by rw [length_Swap, hlen]; omega)
    constructor
    · intro c hc0 hcn hpc
      have hp : (c - 1) / 2 < c := parent_lt hc0
      rw [keyAt_Swap b _ _ _ _ (by rw [hlen]; omega) (by rw [hlen]; omega),
        keyAt_Swap b _ _ _ _ (by rw [hlen]; omega) (by rw [hlen]; omega)]
      have e1 : c ≠ t.length := by omega
      have e2 : c ≠ 0 := by omega
      have e3 : (c - 1) / 2 ≠ t.length := by omega
      simp only [e1, e2, e3, hpc, ↓reduceIte]
      exact hh c hc0 (by rw [hlen]; omega)
    · intro c _ _ _ h0
      omega
  rw [happ] at hup
  intro c hc0 hcn
  have hp : (c - 1) / 2 < c := parent_lt hc0
  have := hup c hc0 (by omega)
  rw [keyAt_append_left b rest1 h c hcn, keyAt_append_left b rest1 h _ (by omega)] at this
  exact this

/-! ## One iteration of `MatchOrders` -/

theorem popIfFilled_cons (o1 : Order) (rest : PriorityQueue) :
    ∃ q, popIfFilled o1 (o1 :: rest) = some q ∧ QueueAfter o1 rest q := by
  unfold popIfFilled QueueAfter
  by_cases h0 : o1.Quantity = 0
  · obtain ⟨q, h1, h2, _⟩ := heapPop_cons o1 rest
    exact ⟨q, by simp [h0, h1], Or.inl ⟨h0, h1, h2⟩⟩
  · exact ⟨o1 :: rest, by simp [h0], Or.inr ⟨h0, rfl⟩⟩

/-- An iteration that goes on to the next one: the heads cross, the traders are settled,
one transaction is appended, and each queue is left as `QueueAfter` says. -/
theorem matchIter_next {s s1 : MatchState} (h : matchIter s = .next s1) :
    ∃ b bt a st, s.ob.BuyOrders = b :: bt ∧ s.ob.SellOrders = a :: st
      ∧ a.Price ≤ b.Price ∧ b.Stock = a.Stock
      ∧ settle s.traders b a (min b.Quantity a.Quantity) = .ok s1.traders
      ∧ s1.transactions = s.transactions ++ [trade b a]
      ∧ QueueAfter (fill b (min b.Quantity a.Quantity)) bt s1.ob.BuyOrders
      ∧ QueueAfter (fill a (min b.Quantity a.Quantity)) st s1.ob.SellOrders := by
  unfold matchIter at h
  split at h
  · rename_i b bt a st hb ha
    split at h
    · rename_i hc
      simp only at h
      split at h
      · exact absurd h (by simp)
      · rename_i tr1 hset
        obtain ⟨q1, hq1, hQ1⟩ := popIfFilled_cons (fill b (min b.Quantity a.Quantity)) bt
        obtain ⟨q2, hq2, hQ2⟩ := popIfFilled_cons (fill a (min b.Quantity a.Quantity)) st
        rw [hq1, hq2] at h
        simp only [Step.next.injEq] at h
        subst h
        exact ⟨b, bt, a, st, hb, ha, hc.1, hc.2, hset, rfl, hQ1, hQ2⟩
    · exact absurd h (by simp)
  · exact absurd h (by simp)

/-- An iteration leaves the loop exactly when a queue is empty or the heads do not cross. -/
theorem matchIter_exit_iff (s : MatchState) :
    matchIter s = .exit ↔
      ∀ b bt a st, s.ob.BuyOrders = b :: bt → s.ob.SellOrders = a :: st →
        ¬ (a.Price ≤ b.Price ∧ b.Stock = a.Stock) := by
  unfold matchIter
  split
  · rename_i b bt a st hb ha
    split
    · rename_i hc
      simp only
      constructor
      · intro h
        exfalso
        split at h
        · exact absurd h (by simp)
        · obtain ⟨q1, hq1, _⟩ := popIfFilled_cons (fill b (min b.Quantity a.Quantity)) bt
          obtain ⟨q2, hq2, _⟩ := popIfFilled_cons (fill a (min b.Quantity a.Quantity)) st
          rw [hq1, hq2] at h
          exact absurd h (by simp)
      · intro h
        exact absurd hc (h b bt a st hb ha)
    · rename_i hc
      simp only [true_iff]
      intro b1 bt1 a1 st1 hb1 ha1
      rw [hb] at hb1
      rw [ha] at ha1
      obtain ⟨rfl, rfl⟩ := List.cons.inj hb1
      obtain ⟨rfl, rfl⟩ := List.cons.inj ha1
      exact hc
  · rename_i hne
    simp only [true_iff]
    intro b bt a st hb ha
    exact absurd ha (hne b bt a st hb)

/-- An iteration can only fail while settling the traders of crossing heads. -/
theorem matchIter_fault {s : MatchState} {f : Fault} (h : matchIter s = .fault f) :
    ∃ b bt a st, s.ob.BuyOrders = b :: bt ∧ s.ob.SellOrders = a :: st
      ∧ a.Price ≤ b.Price ∧ b.Stock = a.Stock
      ∧ settle s.traders b a (min b.Quantity a.Quantity) = .error f := by
  unfold matchIter at h
  split at h
  · rename_i b bt a st hb ha
    split at h
    · rename_i hc
      simp only at h
      split at h
      · rename_i f1 hset
        simp only [Step.fault.injEq] at h
        subst h
        exact ⟨b, bt, a, st, hb, ha, hc.1, hc.2, hset⟩
      · obtain ⟨q1, hq1, _⟩ := popIfFilled_cons (fill b (min b.Quantity a.Quantity)) bt
        obtain ⟨q2, hq2, _⟩ := popIfFilled_cons (fill a (min b.Quantity a.Quantity)) st
        rw [hq1, hq2] at h
        exact absurd h (by simp)
    · exact absurd h (by simp)
  · exact absurd h (by simp)

theorem wrapInt_zero : wrapInt 0 = 0 := by decide

theorem wrapInt_of_isInt {x : Int} (h : IsInt x) : wrapInt x = x := by
  unfold wrapInt
  unfold IsInt at h
  omega

theorem min_eq_min (a b : Int) : min a b = Min.min a b := by
  unfold min
  split <;> omega

/-- Of the two heads, the one with the smaller quantity is left with quantity `0`. -/
theorem fill_min_zero (b a : Order) :
    (fill b (min b.Quantity a.Quantity)).Quantity = 0
      ∨ (fill a (min b.Quantity a.Quantity)).Quantity = 0 := by
  unfold fill min
  split
  · left; simp [wrapInt_zero]
  · right; simp [wrapInt_zero]

theorem queueAfter_length_le {o1 : Order} {rest q : PriorityQueue} (h : QueueAfter o1 rest q) :
    q.length ≤ rest.length + 1 := by
  rcases h with ⟨_, _, hp⟩ | ⟨_, rfl⟩
  · rw [hp.length_eq]; omega
  · simp

theorem queueAfter_length_of_zero {o1 : Order} {rest q : PriorityQueue}
    (h : QueueAfter o1 rest q) (h0 : o1.Quantity = 0) : q.length = rest.length := by
  rcases h with ⟨_, _, hp⟩ | ⟨hn, _⟩
  · exact hp.length_eq
  · exact absurd h0 hn

/-- Every iteration that goes on pops at least one queue. -/
theorem matchIter_next_length {s s1 : MatchState} (h : matchIter s = .next s1) :
    s1.ob.BuyOrders.length + s1.ob.SellOrders.length
      < s.ob.BuyOrders.length + s.ob.SellOrders.length := by
  obtain ⟨b, bt, a, st, hb, ha, _, _, _, _, hQ1, hQ2⟩ := matchIter_next h
  rw [hb, ha]
  simp only [List.length_cons]
  have l1 := queueAfter_length_le hQ1
  have l2 := queueAfter_length_le hQ2
  rcases fill_min_zero b a with h0 | h0
  · have := queueAfter_length_of_zero hQ1 h0
    omega
  · have := queueAfter_length_of_zero hQ2 h0
    omega

/-! ## The loop of `MatchOrders` -/

/-- With more fuel than orders in the book the loop never runs out of fuel. -/
theorem matchLoop_enough : ∀ (fuel : Nat) (s : MatchState),
    s.ob.BuyOrders.length + s.ob.SellOrders.length < fuel → matchLoop fuel s ≠ .error .fuel
  | 0, _, h => absurd h (Nat.not_lt_zero _)
  | fuel + 1, s, h => by
    unfold matchLoop
    split
    · simp
    · rename_i s1 hs1
      have := matchIter_next_length hs1
      exact matchLoop_enough fuel s1 (by omega)
    · rename_i f hf
      obtain ⟨b, bt, a, st, _, _, _, _, hset⟩ := matchIter_fault hf
      intro hc
      simp only [Except.error.injEq] at hc
      subst hc
      unfold settle at hset
      split at hset
      · rename_i f1 h1
        simp only [Except.error.injEq] at hset
        subst hset
        unfold creditBuyer at h1
        split at h1
        · simp at h1
        · split at h1 <;> simp at h1
      · unfold creditSeller at hset
        split at hset <;> simp at hset

/-- A result other than exhausted fuel does not depend on the amount of fuel. -/
theorem matchLoop_mono : ∀ (fuel k : Nat) (s : MatchState) (r : Except Fault MatchState),
    matchLoop fuel s = r → r ≠ .error .fuel → matchLoop (fuel + k) s = r
  | 0, _, _, _, h, hr => by
    unfold matchLoop at h
    exact absurd h.symm hr
  | fuel + 1, k, s, r, h, hr => by
    rw [Nat.add_right_comm]
    unfold matchLoop at h ⊢
    split
    · rename_i he
      rw [he] at h
      exact h
    · rename_i s1 he
      rw [he] at h
      exact matchLoop_mono fuel k s1 r h hr
    · rename_i f he
      rw [he] at h
      exact h

/-- Loop invariants: what every iteration preserves holds of the state the loop returns,
and that state is one on which the loop condition or the crossing test fails. -/
theorem matchLoop_ok (Inv : MatchState → Prop)
    (hstep : ∀ s s1, Inv s → matchIter s = .next s1 → Inv s1) :
    ∀ (fuel : Nat) (s r : MatchState), Inv s → matchLoop fuel s = .ok r →
      Inv r ∧ matchIter r = .exit
  | 0, _, _, _, h => by
    unfold matchLoop at h
    exact absurd h (by simp)
  | fuel + 1, s, r, hi, h => by
    unfold matchLoop at h
    split at h
    · rename_i he
      simp only [Except.ok.injEq] at h
      subst h
      exact ⟨hi, he⟩
    · rename_i s1 he
      exact matchLoop_ok Inv hstep fuel s1 r (hstep s s1 hi he) h
    · exact absurd h (by simp)

/-! ## Heap order of the book -/

theorem keyAt_cons_congr (b : Bool) (x y : Order) (t : PriorityQueue)
    (h : prio b x = prio b y) (k : Nat) : keyAt b (x :: t) k = keyAt b (y :: t) k := by
  cases k with
  | zero => simpa [keyAt] using h
  | succ k => simp [keyAt]

theorem prio_fill (b : Bool) (o : Order) (q : Int) : prio b (fill o q) = prio b o := rfl

theorem isHeap_fill {b : Bool} {h : Order} {t : PriorityQueue} (hh : IsHeap b (h :: t))
    (q : Int) : IsHeap b (fill h q :: t) := by
  intro c hc0 hcn
  rw [keyAt_cons_congr b _ h t (prio_fill b h q), keyAt_cons_congr b _ h t (prio_fill b h q)]
  exact hh c hc0 hcn

theorem sideOf_fill {b : Bool} {h : Order} {t : PriorityQueue} (hs : SideOf b (h :: t))
    (q : Int) : SideOf b (fill h q :: t) := by
  intro o ho
  rcases List.mem_cons.mp ho with rfl | ho
  · exact hs h (List.mem_cons_self _ _)
  · exact hs o (List.mem_cons_of_mem _ ho)

theorem queueAfter_wellFormed {b : Bool} {h : Order} {t q1 : PriorityQueue} {q : Int}
    (hs : SideOf b (h :: t)) (hh : IsHeap b (h :: t)) (hq : QueueAfter (fill h q) t q1) :
    SideOf b q1 ∧ IsHeap b q1 := by
  rcases hq with ⟨_, hpop, hperm⟩ | ⟨_, rfl⟩
  · refine ⟨?_, heapPop_heap b _ t q1 (sideOf_fill hs q) (isHeap_fill hh q) hpop⟩
    intro o ho
    exact hs o (List.mem_cons_of_mem _ (hperm.subset ho))
  · exact ⟨sideOf_fill hs q, isHeap_fill hh q⟩

/-- In a heap the root carries the least key. -/
theorem isHeap_root_le {b : Bool} {pq : PriorityQueue} (hh : IsHeap b pq) :
    ∀ k, k < pq.length → keyAt b pq 0 ≤ keyAt b pq k := by
  intro k
  induction k using Nat.strong_induction_on with
  | _ k ih =>
    intro hk
    by_cases h0 : k = 0
    · subst h0; exact le_refl _
    · have hp : (k - 1) / 2 < k := parent_lt (by omega)
      exact le_trans (ih _ hp (by omega)) (hh k (by omega) hk)

theorem isHeap_head_le {b : Bool} {h : Order} {t : PriorityQueue} (hh : IsHeap b (h :: t))
    (o : Order) (ho : o ∈ h :: t) : prio b h ≤ prio b o := by
  obtain ⟨k, hk, rfl⟩ := List.getElem_of_mem ho
  have := isHeap_root_le hh k hk
  unfold keyAt at this
  rw [List.getElem?_eq_getElem hk] at this
  simpa using this

theorem wellFormed_new : WellFormed NewOrderBook :=
  ⟨fun _ h => absurd h (List.not_mem_nil _), fun _ h => absurd h (List.not_mem_nil _),
    fun _ _ h => absurd h (Nat.not_lt_zero _), fun _ _ h => absurd h (Nat.not_lt_zero _)⟩

theorem wellFormed_addOrder {ob : OrderBook} (h : WellFormed ob) (o : Order) :
    WellFormed (ob.AddOrder o) := by
  unfold OrderBook.AddOrder
  cases hb : o.IsBuy with
  | true =>
    simp only [↓reduceIte]
    exact ⟨heapPush_side true _ o h.buySide hb, h.sellSide,
      heapPush_heap true _ o h.buySide hb h.buyHeap, h.sellHeap⟩
  | false =>
    simp only [Bool.false_eq_true, ↓reduceIte]
    exact ⟨h.buySide, heapPush_side false _ o h.sellSide hb, h.buyHeap,
      heapPush_heap false _ o h.sellSide hb h.sellHeap⟩

theorem wellFormed_matchIter {s s1 : MatchState} (h : WellFormed s.ob)
    (hn : matchIter s = .next s1) : WellFormed s1.ob := by
  obtain ⟨b, bt, a, st, hb, ha, _, _, _, _, hQ1, hQ2⟩ := matchIter_next hn
  obtain ⟨h1, h2, h3, h4⟩ := h
  rw [hb] at h1 h3
  rw [ha] at h2 h4
  have w1 := queueAfter_wellFormed h1 h3 hQ1
  have w2 := queueAfter_wellFormed h2 h4 hQ2
  exact ⟨w1.1, w2.1, w1.2, w2.2⟩

theorem wellFormed_matchOrders {ob : OrderBook} (h : WellFormed ob) {traders : Traders}
    {s : MatchState} (hm : ob.MatchOrders traders = .ok s) : WellFormed s.ob :=
  (matchLoop_ok (fun s => WellFormed s.ob) (fun _ _ hw hn => wellFormed_matchIter hw hn) _ _ _ h hm).1

theorem reachable_wellFormed {P : Order → Prop} {ob : OrderBook} (h : Reachable P ob) :
    WellFormed ob := by
  induction h with
  | new => exact wellFormed_new
  | add ob o _ _ ih => exact wellFormed_addOrder ih o
  | matched ob traders s _ hm ih => exact wellFormed_matchOrders ih hm

theorem reachable_mono {P Q : Order → Prop} (hPQ : ∀ o, P o → Q o) {ob : OrderBook}
    (h : Reachable P ob) : Reachable Q ob := by
  induction h with
  | new => exact Reachable.new
  | add ob o _ hp ih => exact Reachable.add ob o ih (hPQ o hp)
  | matched ob traders s _ hm ih => exact Reachable.matched ob traders s ih hm

/-! ## Which orders a book holds -/

theorem queueAfter_mem {o1 : Order} {rest q : PriorityQueue} (h : QueueAfter o1 rest q)
    (o : Order) (ho : o ∈ q) : o = o1 ∨ o ∈ rest := by
  rcases h with ⟨_, _, hp⟩ | ⟨_, rfl⟩
  · exact Or.inr (hp.subset ho)
  · exact List.mem_cons.mp ho

/-- A property of orders that `order.Quantity -= quantity` cannot break is kept, on each
side, by an iteration of `MatchOrders`. -/
theorem matchIter_next_forall (Q : Order → Prop) (hQ : ∀ o q, Q o → Q (fill o q))
    {s s1 : MatchState} (hn : matchIter s = .next s1) :
    ((∀ o ∈ s.ob.BuyOrders, Q o) → ∀ o ∈ s1.ob.BuyOrders, Q o) ∧
    ((∀ o ∈ s.ob.SellOrders, Q o) → ∀ o ∈ s1.ob.SellOrders, Q o) := by
  obtain ⟨b, bt, a, st, hb, ha, _, _, _, _, hQ1, hQ2⟩ := matchIter_next hn
  rw [hb, ha]
  constructor
  · intro h o ho
    rcases queueAfter_mem hQ1 o ho with rfl | hm
    · exact hQ _ _ (h b (List.mem_cons_self _ _))
    · exact h o (List.mem_cons_of_mem _ hm)
  · intro h o ho
    rcases queueAfter_mem hQ2 o ho with rfl | hm
    · exact hQ _ _ (h a (List.mem_cons_self _ _))
    · exact h o (List.mem_cons_of_mem _ hm)

theorem matchOrders_forall (Q : Order → Prop) (hQ : ∀ o q, Q o → Q (fill o q))
    {ob : OrderBook} {traders : Traders} {s : MatchState}
    (hm : ob.MatchOrders traders = .ok s)
    (h : (∀ o ∈ ob.BuyOrders, Q o) ∧ (∀ o ∈ ob.SellOrders, Q o)) :
    (∀ o ∈ s.ob.BuyOrders, Q o) ∧ (∀ o ∈ s.ob.SellOrders, Q o) :=
  (matchLoop_ok (fun s => (∀ o ∈ s.ob.BuyOrders, Q o) ∧ (∀ o ∈ s.ob.SellOrders, Q o))
    (fun _ _ hi hn =>
      ⟨(matchIter_next_forall Q hQ hn).1 hi.1, (matchIter_next_forall Q hQ hn).2 hi.2⟩)
    _ _ _ h hm).1

theorem addOrder_forall (Q : Order → Prop) (ob : OrderBook) (o : Order) (ho : Q o)
    (h : (∀ o ∈ ob.BuyOrders, Q o) ∧ (∀ o ∈ ob.SellOrders, Q o)) :
    (∀ x ∈ (ob.AddOrder o).BuyOrders, Q x) ∧ (∀ x ∈ (ob.AddOrder o).SellOrders, Q x) := by
  unfold OrderBook.AddOrder
  split
  · refine ⟨?_, h.2⟩
    intro x hx
    rcases List.mem_cons.mp ((heapPush_perm _ _).subset hx) with rfl | hx
    · exact ho
    · exact h.1 x hx
  · refine ⟨h.1, ?_⟩
    intro x hx
    rcases List.mem_cons.mp ((heapPush_perm _ _).subset hx) with rfl | hx
    · exact ho
    · exact h.2 x hx

theorem reachable_forall_orders {P : Order → Prop} (Q : Order → Prop)
    (hPQ : ∀ o, P o → Q o) (hQ : ∀ o q, Q o → Q (fill o q)) {ob : OrderBook}
    (h : Reachable P ob) : (∀ o ∈ ob.BuyOrders, Q o) ∧ (∀ o ∈ ob.SellOrders, Q o) := by
  induction h with
  | new => exact ⟨fun _ h => absurd h (List.not_mem_nil _),
      fun _ h => absurd h (List.not_mem_nil _)⟩
  | add ob o _ hp ih => exact addOrder_forall Q ob o (hPQ o hp) ih
  | matched ob traders s _ hm ih => exact matchOrders_forall Q hQ hm ih

/-- `MatchOrders` never runs out of the fuel it gives its loop. -/
theorem matchOrders_ne_fuel (ob : OrderBook) (traders : Traders) :
    ob.MatchOrders traders ≠ .error .fuel :=
  matchLoop_enough _ _ (Nat.lt_succ_self _)

theorem iterates_wellFormed {s0 s : MatchState} (h : Iterates s0 s)
    (h0 : WellFormed s0.ob) : WellFormed s.ob := by
  induction h with
  | start => exact h0
  | step s s1 _ hn ih => exact wellFormed_matchIter ih hn

/-! ## Quantities -/

/-- With positive quantities the subtraction of the traded quantity does not wrap. -/
theorem fill_min_quantity (b a : Order) (hb : PosQty b) (ha : PosQty a) :
    (fill b (min b.Quantity a.Quantity)).Quantity = b.Quantity - min b.Quantity a.Quantity
    ∧ (fill a (min b.Quantity a.Quantity)).Quantity = a.Quantity - min b.Quantity a.Quantity
    ∧ 0 < min b.Quantity a.Quantity
    ∧ min b.Quantity a.Quantity ≤ b.Quantity ∧ min b.Quantity a.Quantity ≤ a.Quantity := by
  unfold PosQty at hb ha
  have h1 : min b.Quantity a.Quantity ≤ b.Quantity := by unfold min; split <;> omega
  have h2 : min b.Quantity a.Quantity ≤ a.Quantity := by unfold min; split <;> omega
  have h3 : 0 < min b.Quantity a.Quantity := by unfold min; split <;> omega
  refine ⟨?_, ?_, h3, h1, h2⟩
  · exact wrapInt_of_isInt ⟨by omega, by omega⟩
  · exact wrapInt_of_isInt ⟨by omega, by omega⟩

theorem queueAfter_posQty {o1 : Order} {rest q : PriorityQueue} (h : QueueAfter o1 rest q)
    (h1 : 0 ≤ o1.Quantity ∧ o1.Quantity < 2 ^ 63) (hrest : ∀ o ∈ rest, PosQty o) :
    ∀ o ∈ q, PosQty o := by
  intro o ho
  rcases h with ⟨_, _, hp⟩ | ⟨hne, rfl⟩
  · exact hrest o (hp.subset ho)
  · rcases List.mem_cons.mp ho with rfl | hm
    · exact ⟨by omega, h1.2⟩
    · exact hrest o hm

/-- An iteration keeps every resting quantity positive. -/
theorem matchIter_next_posQty {s s1 : MatchState} (hn : matchIter s = .next s1)
    (h : (∀ o ∈ s.ob.BuyOrders, PosQty o) ∧ (∀ o ∈ s.ob.SellOrders, PosQty o)) :
    (∀ o ∈ s1.ob.BuyOrders, PosQty o) ∧ (∀ o ∈ s1.ob.SellOrders, PosQty o) := by
  obtain ⟨b, bt, a, st, hb, ha, _, _, _, _, hQ1, hQ2⟩ := matchIter_next hn
  rw [hb, ha] at h
  have pb := h.1 b (List.mem_cons_self _ _)
  have pa := h.2 a (List.mem_cons_self _ _)
  obtain ⟨e1, e2, _, l1, l2⟩ := fill_min_quantity b a pb pa
  constructor
  · refine queueAfter_posQty hQ1 ?_ (fun o ho => h.1 o (List.mem_cons_of_mem _ ho))
    rw [e1]
    exact ⟨by omega, by have := pb.2; omega⟩
  · refine queueAfter_posQty hQ2 ?_ (fun o ho => h.2 o (List.mem_cons_of_mem _ ho))
    rw [e2]
    exact ⟨by omega, by have := pa.2; omega⟩

theorem matchOrders_posQty {ob : OrderBook} {traders : Traders} {s : MatchState}
    (hm : ob.MatchOrders traders = .ok s)
    (h : (∀ o ∈ ob.BuyOrders, PosQty o) ∧ (∀ o ∈ ob.SellOrders, PosQty o)) :
    (∀ o ∈ s.ob.BuyOrders, PosQty o) ∧ (∀ o ∈ s.ob.SellOrders, PosQty o) :=
  (matchLoop_ok
    (fun s => (∀ o ∈ s.ob.BuyOrders, PosQty o) ∧ (∀ o ∈ s.ob.SellOrders, PosQty o))
    (fun _ _ hi hn => matchIter_next_posQty hn hi) _ _ _ h hm).1

theorem reachable_posQty {ob : OrderBook} (hr : Reachable PosQty ob) :
    (∀ o ∈ ob.BuyOrders, PosQty o) ∧ (∀ o ∈ ob.SellOrders, PosQty o) := by
  induction hr with
  | new => exact ⟨fun _ h => absurd h (List.not_mem_nil _),
      fun _ h => absurd h (List.not_mem_nil _)⟩
  | add ob o _ hp ih => exact addOrder_forall PosQty ob o hp ih
  | matched ob traders s _ hm ih => exact matchOrders_posQty hm ih

/-! ## Settling the traders -/

/-- The settlement succeeds when the buyer is in the map with a non-nil `Portfolio` and
the seller is in the map. -/
theorem settle_ok (traders : Traders) (b a : Order) (q : Int) (buyer seller : Trader)
    (held : String → Int) (h1 : traders b.TraderID = some buyer)
    (h2 : buyer.Portfolio = some held) (h3 : traders a.TraderID = some seller) :
    ∃ traders1, settle traders b a q = .ok traders1 := by
  unfold settle creditBuyer
  rw [h1]
  simp only [h2]
  unfold creditSeller
  by_cases e : a.TraderID = b.TraderID
  · simp [e]
  · simp [e, h3]

theorem queueAfter_nil {o1 : Order} {q : PriorityQueue} (h : QueueAfter o1 [] q) :
    (o1.Quantity = 0 → q = []) ∧ (o1.Quantity ≠ 0 → q = [o1]) := by
  rcases h with ⟨h0, _, hp⟩ | ⟨hne, rfl⟩
  · exact ⟨fun _ => List.perm_nil.mp hp, fun hn => absurd h0 hn⟩
  · exact ⟨fun h0 => absurd h0 hne, fun _ => rfl⟩

/-- What lines 114-117 do to the traders: the buyer's cash grows by
`quantity*buyPrice - quantity*sellPrice`, the seller's by `quantity*sellPrice`, the
buyer's holding of the stock by `quantity`; every other entry is the same object with the
same contents. -/
theorem settle_effect {traders traders1 : Traders} {b a : Order} {q : Int}
    (h : settle traders b a q = .ok traders1) :
    (∀ k, cashOf traders1 k = (cashOf traders k).map (fun c =>
      c + (if k = b.TraderID then (q : ℚ) * b.Price - (q : ℚ) * a.Price else 0)
        + (if k = a.TraderID then (q : ℚ) * a.Price else 0))) ∧
    (∀ k stock, heldOf traders1 k stock = (heldOf traders k stock).map (fun x =>
      if k = b.TraderID ∧ stock = b.Stock then wrapInt (x + q) else x)) ∧
    (∀ k, k ≠ b.TraderID → k ≠ a.TraderID → traders1 k = traders k) := by
  unfold settle at h
  split at h
  · exact absurd h (by simp)
  · rename_i tr1 hcb
    unfold creditBuyer at hcb
    split at hcb
    · exact absurd hcb (by simp)
    · rename_i buyer hbuyer
      split at hcb
      · exact absurd hcb (by simp)
      · rename_i held hheld
        simp only [Except.ok.injEq] at hcb
        subst hcb
        unfold creditSeller at h
        split at h
        · exact absurd h (by simp)
        · rename_i seller hseller
          simp only [Except.ok.injEq] at h
          subst h
          refine ⟨?_, ?_, ?_⟩
          · intro k
            by_cases hka : k = a.TraderID
            · by_cases hab : a.TraderID = b.TraderID
              · subst hka
                simp only [hab, ↓reduceIte, Option.some.injEq] at hseller
                subst hseller
                simp [cashOf, hab, hbuyer]
              · subst hka
                simp only [hab, ↓reduceIte] at hseller
                simp [cashOf, hab, hseller]
            · by_cases hkb : k = b.TraderID
              · subst hkb
                simp [cashOf, hka, hbuyer]
              · simp [cashOf, hka, hkb]
                rfl
          · intro k stock
            by_cases hka : k = a.TraderID
            · by_cases hab : a.TraderID = b.TraderID
              · subst hka
                simp only [hab, ↓reduceIte, Option.some.injEq] at hseller
                subst hseller
                simp [heldOf, hab, hbuyer, hheld]
              · subst hka
                simp only [hab, ↓reduceIte] at hseller
                simp [heldOf, hab, hseller]
                rfl
            · by_cases hkb : k = b.TraderID
              · subst hkb
                simp [heldOf, hka, hbuyer, hheld]
              · simp [heldOf, hka, hkb]
          · intro k hkb hka
            simp [hka, hkb]

/-- The loop returns its starting state or a state with more transactions. -/
theorem matchLoop_transactions : ∀ (fuel : Nat) (s r : MatchState),
    matchLoop fuel s = .ok r → r = s ∨ s.transactions.length < r.transactions.length
  | 0, _, _, h => by
    unfold matchLoop at h
    exact absurd h (by simp)
  | fuel + 1, s, r, h => by
    unfold matchLoop at h
    split at h
    · simp only [Except.ok.injEq] at h
      exact Or.inl h.symm
    · rename_i s1 hn
      obtain ⟨_, _, _, _, _, _, _, _, _, htx, _, _⟩ := matchIter_next hn
      have hl : s1.transactions.length = s.transactions.length + 1 := by
        rw [htx]; simp
      rcases matchLoop_transactions fuel s1 r h with rfl | hlt
      · exact Or.inr (by omega)
      · exact Or.inr (by omega)
    · exact absurd h (by simp)

theorem matchIter_ready {s : MatchState} (h : TradersReady s.traders s.ob) :
    matchIter s = .exit ∨
      ∃ s1, matchIter s = .next s1 ∧ TradersReady s1.traders s1.ob := by
  cases hm : matchIter s with
  | exit => exact Or.inl rfl
  | fault f =>
    exfalso
    obtain ⟨b, bt, a, st, hb, ha, _, _, hf⟩ := matchIter_fault hm
    have h1 := h.1 b (by rw [hb]; exact List.mem_cons_self _ _)
    have h2 := h.2 a (by rw [ha]; exact List.mem_cons_self _ _)
    unfold heldOf at h1
    unfold cashOf at h2
    cases hbuyer : s.traders b.TraderID with
    | none => rw [hbuyer] at h1; simp at h1
    | some buyer =>
      cases hheld : buyer.Portfolio with
      | none => rw [hbuyer] at h1; simp [hheld] at h1
      | some held =>
        cases hseller : s.traders a.TraderID with
        | none => rw [hseller] at h2; simp at h2
        | some seller =>
          obtain ⟨tr1, hok⟩ := settle_ok s.traders b a (min b.Quantity a.Quantity) buyer
            seller held hbuyer hheld hseller
          rw [hok] at hf
          exact absurd hf (by simp)
  | next s1 =>
    refine Or.inr ⟨s1, rfl, ?_⟩
    obtain ⟨b, bt, a, st, hb, ha, _, _, hset, _, hQ1, hQ2⟩ := matchIter_next hm
    have he := settle_effect hset
    have hf1 := (matchIter_next_forall
      (fun o => (heldOf s.traders o.TraderID o.Stock).isSome = true) (fun _ _ hx => hx) hm).1 h.1
    have hf2 := (matchIter_next_forall
      (fun o => (cashOf s.traders o.TraderID).isSome = true) (fun _ _ hx => hx) hm).2 h.2
    constructor
    · intro o ho
      rw [he.2.1]
      simpa using hf1 o ho
    · intro o ho
      rw [he.1]
      simpa using hf2 o ho

theorem matchLoop_returns : ∀ (fuel : Nat) (s : MatchState),
    s.ob.BuyOrders.length + s.ob.SellOrders.length < fuel → TradersReady s.traders s.ob →
    ∃ r, matchLoop fuel s = .ok r
  | 0, _, h, _ => absurd h (Nat.not_lt_zero _)
  | fuel + 1, s, h, hr => by
    unfold matchLoop
    rcases matchIter_ready hr with he | ⟨s1, hn, hr1⟩
    · rw [he]
      exact ⟨s, rfl⟩
    · rw [hn]
      have := matchIter_next_length hn
      exact matchLoop_returns fuel s1 (by omega) hr1

/-- `MatchOrders` returns whenever the traders of the resting orders can be settled. -/
theorem matchOrders_returns (ob : OrderBook) (traders : Traders)
    (h : TradersReady traders ob) : ∃ s, ob.MatchOrders traders = .ok s :=
  matchLoop_returns _ _ (Nat.lt_succ_self _) h

theorem iterates_posQty {s0 s : MatchState} (h : Iterates s0 s)
    (h0 : (∀ o ∈ s0.ob.BuyOrders, PosQty o) ∧ (∀ o ∈ s0.ob.SellOrders, PosQty o)) :
    (∀ o ∈ s.ob.BuyOrders, PosQty o) ∧ (∀ o ∈ s.ob.SellOrders, PosQty o) := by
  induction h with
  | start => exact h0
  | step s s1 _ hn ih => exact matchIter_next_posQty hn ih

/-! ## Failures -/

/-- The settlement fails only on a nil `*Trader` or a nil `Portfolio` map. -/
theorem settle_error {traders : Traders} {b a : Order} {q : Int} {f : Fault}
    (h : settle traders b a q = .error f) : f = .nilTrader ∨ f = .nilMap := by
  unfold settle at h
  split at h
  · rename_i f1 hcb
    simp only [Except.error.injEq] at h
    subst h
    unfold creditBuyer at hcb
    split at hcb
    · simp only [Except.error.injEq] at hcb
      exact Or.inl hcb.symm
    · split at hcb
      · simp only [Except.error.injEq] at hcb
        exact Or.inr hcb.symm
      · exact absurd hcb (by simp)
  · unfold creditSeller at h
    split at h
    · simp only [Except.error.injEq] at h
      exact Or.inl h.symm
    · exact absurd h (by simp)

/-! ## Conservation of shares and cash -/

/-- A settlement that succeeds found the buyer with a non-nil `Portfolio` and the seller
in the map. -/
theorem settle_present {traders traders1 : Traders} {b a : Order} {q : Int}
    (h : settle traders b a q = .ok traders1) :
    (∀ stock, ∃ x, heldOf traders b.TraderID stock = some x) ∧
    (∃ c, cashOf traders b.TraderID = some c) ∧ (∃ c, cashOf traders a.TraderID = some c) := by
  unfold settle at h
  split at h
  · exact absurd h (by simp)
  · rename_i tr1 hcb
    unfold creditBuyer at hcb
    split at hcb
    · exact absurd hcb (by simp)
    · rename_i buyer hbuyer
      split at hcb
      · exact absurd hcb (by simp)
      · rename_i held hheld
        simp only [Except.ok.injEq] at hcb
        subst hcb
        unfold creditSeller at h
        split at h
        · exact absurd h (by simp)
        · rename_i seller hseller
          refine ⟨fun stock => ⟨held stock, by simp [heldOf, hbuyer, hheld]⟩,
            ⟨buyer.Cash, by simp [cashOf, hbuyer]⟩, ?_⟩
          by_cases hab : a.TraderID = b.TraderID
          · exact ⟨buyer.Cash, by simp [cashOf, hab, hbuyer]⟩
          · simp only [hab, ↓reduceIte] at hseller
            exact ⟨seller.Cash, by simp [cashOf, hseller]⟩

/-- The holdings after a settlement, entry by entry. -/
theorem settle_held {traders traders1 : Traders} {b a : Order} {q : Int}
    (h : settle traders b a q = .ok traders1) (k : Int) (stock : String) :
    (heldOf traders1 k stock).getD 0
      = (heldOf traders k stock).getD 0
        + (if k = b.TraderID then
            (if stock = b.Stock then
              wrapInt ((heldOf traders b.TraderID b.Stock).getD 0 + q)
                - (heldOf traders b.TraderID b.Stock).getD 0
            else 0)
          else 0) := by
  rw [(settle_effect h).2.1 k stock]
  by_cases hk : k = b.TraderID
  · subst hk
    by_cases hs : stock = b.Stock
    · subst hs
      obtain ⟨x, hx⟩ := (settle_present h).1 b.Stock
      simp [hx]
    · cases heldOf traders b.TraderID stock <;> simp [hs]
  · cases heldOf traders k stock <;> simp [hk]

/-- The cash after a settlement, entry by entry. -/
theorem settle_cash {traders traders1 : Traders} {b a : Order} {q : Int}
    (h : settle traders b a q = .ok traders1) (k : Int) :
    (cashOf traders1 k).getD 0
      = (cashOf traders k).getD 0
        + (if k = b.TraderID then (q : ℚ) * b.Price - (q : ℚ) * a.Price else 0)
        + (if k = a.TraderID then (q : ℚ) * a.Price else 0) := by
  rw [(settle_effect h).1 k]
  obtain ⟨_, ⟨c1, h1⟩, ⟨c2, h2⟩⟩ := settle_present h
  cases hc : cashOf traders k with
  | none =>
    have e1 : k ≠ b.TraderID := fun e => by rw [e, h1] at hc; exact absurd hc (by simp)
    have e2 : k ≠ a.TraderID := fun e => by rw [e, h2] at hc; exact absurd hc (by simp)
    simp [e1, e2]
  | some c => simp

theorem holdings_settle {traders traders1 : Traders} {b a : Order} {q : Int}
    (h : settle traders b a q = .ok traders1) (K : Finset Int) (hb : b.TraderID ∈ K) :
    holdings traders1 K b.Stock
      = holdings traders K b.Stock
        + (wrapInt ((heldOf traders b.TraderID b.Stock).getD 0 + q)
            - (heldOf traders b.TraderID b.Stock).getD 0) := by
  unfold holdings
  simp only [settle_held h, ↓reduceIte]
  rw [Finset.sum_add_distrib, Finset.sum_ite_eq' K b.TraderID, if_pos hb]

theorem cashTotal_settle {traders traders1 : Traders} {b a : Order} {q : Int}
    (h : settle traders b a q = .ok traders1) (K : Finset Int) (hb : b.TraderID ∈ K)
    (ha : a.TraderID ∈ K) :
    cashTotal traders1 K = cashTotal traders K + (q : ℚ) * b.Price := by
  unfold cashTotal
  simp only [settle_cash h]
  rw [Finset.sum_add_distrib, Finset.sum_add_distrib, Finset.sum_ite_eq' K b.TraderID,
    Finset.sum_ite_eq' K a.TraderID, if_pos hb, if_pos ha]
  ring

theorem wrapInt_modEq (x : Int) : wrapInt x ≡ x [ZMOD 2 ^ 64] := by
  unfold Int.ModEq wrapInt
  omega

theorem restingTotal_cons (o : Order) (t : PriorityQueue) :
    restingTotal (o :: t) = o.Quantity + restingTotal t := by
  simp [restingTotal]

theorem restingTotal_nonneg (pq : PriorityQueue) (h : ∀ o ∈ pq, PosQty o) :
    0 ≤ restingTotal pq := by
  induction pq with
  | nil => simp [restingTotal]
  | cons o t ih =>
    rw [restingTotal_cons]
    have h1 := (h o (List.mem_cons_self _ _)).1
    have h2 := ih (fun x hx => h x (List.mem_cons_of_mem _ hx))
    omega

theorem queueAfter_restingTotal {o1 : Order} {rest q : PriorityQueue}
    (h : QueueAfter o1 rest q) : restingTotal q = o1.Quantity + restingTotal rest := by
  rcases h with ⟨h0, _, hp⟩ | ⟨_, rfl⟩
  · rw [h0, zero_add]
    exact (hp.map _).sum_eq
  · exact restingTotal_cons _ _

theorem reservedCash_cons (o : Order) (t : PriorityQueue) :
    reservedCash (o :: t) = (o.Quantity : ℚ) * o.Price + reservedCash t := by
  simp [reservedCash]

theorem queueAfter_reservedCash {o1 : Order} {rest q : PriorityQueue}
    (h : QueueAfter o1 rest q) :
    reservedCash q = (o1.Quantity : ℚ) * o1.Price + reservedCash rest := by
  rcases h with ⟨h0, _, hp⟩ | ⟨_, rfl⟩
  · rw [h0]
    simp only [Int.cast_zero, zero_mul, zero_add]
    exact (hp.map _).sum_eq
  · exact reservedCash_cons _ _

/-- What one iteration does to the shares of the stock of its head buy order: the two
wrapped results take the place of the exact ones. -/
theorem matchIter_next_shares {s s1 : MatchState} (hn : matchIter s = .next s1)
    (K : Finset Int) (hK : ∀ o ∈ s.ob.BuyOrders, o.TraderID ∈ K) :
    ∃ b bt a st, s.ob.BuyOrders = b :: bt ∧ s.ob.SellOrders = a :: st ∧
      holdings s1.traders K b.Stock + restingTotal s1.ob.SellOrders
        = holdings s.traders K b.Stock + restingTotal s.ob.SellOrders
          + (wrapInt ((heldOf s.traders b.TraderID b.Stock).getD 0
                + min b.Quantity a.Quantity)
              - ((heldOf s.traders b.TraderID b.Stock).getD 0 + min b.Quantity a.Quantity))
          + (wrapInt (a.Quantity - min b.Quantity a.Quantity)
              - (a.Quantity - min b.Quantity a.Quantity)) := by
  obtain ⟨b, bt, a, st, hb, ha, _, _, hset, _, _, hQ2⟩ := matchIter_next hn
  refine ⟨b, bt, a, st, hb, ha, ?_⟩
  rw [holdings_settle hset K (hK b (by rw [hb]; exact List.mem_cons_self _ _)),
    queueAfter_restingTotal hQ2, ha, restingTotal_cons]
  have e : (fill a (min b.Quantity a.Quantity)).Quantity
      = wrapInt (a.Quantity - min b.Quantity a.Quantity) := rfl
  rw [e]
  ring

/-- An iteration leaves the holdings of every stock other than that of its head buy order
as they are. -/
theorem matchIter_next_other_stock {s s1 : MatchState} (hn : matchIter s = .next s1)
    (stock : String) (hst : ∀ o ∈ s.ob.BuyOrders, o.Stock = stock) (k : Int)
    (other : String) (ho : other ≠ stock) :
    heldOf s1.traders k other = heldOf s.traders k other := by
  obtain ⟨b, bt, a, st, hb, _, _, _, hset, _, _, _⟩ := matchIter_next hn
  have hbs : b.Stock = stock := hst b (by rw [hb]; exact List.mem_cons_self _ _)
  rw [(settle_effect hset).2.1 k other]
  have hne : ¬ (k = b.TraderID ∧ other = b.Stock) := fun h => ho (h.2.trans hbs)
  simp only [hne, ↓reduceIte]
  cases heldOf s.traders k other <;> rfl

/-- The invariant behind the exact conservation of shares: positive quantities,
non-negative holdings, and an unchanged total that a Go `int` can hold. -/
theorem matchIter_next_shares_exact {s s1 : MatchState} (hn : matchIter s = .next s1)
    (stock : String) (K : Finset Int) (T : Int) (hT : T < 2 ^ 63)
    (h : (∀ o ∈ s.ob.BuyOrders, o.Stock = stock) ∧ (∀ o ∈ s.ob.BuyOrders, o.TraderID ∈ K)
      ∧ ((∀ o ∈ s.ob.BuyOrders, PosQty o) ∧ (∀ o ∈ s.ob.SellOrders, PosQty o))
      ∧ (∀ k ∈ K, 0 ≤ (heldOf s.traders k stock).getD 0)
      ∧ holdings s.traders K stock + restingTotal s.ob.SellOrders = T) :
    (∀ o ∈ s1.ob.BuyOrders, o.Stock = stock) ∧ (∀ o ∈ s1.ob.BuyOrders, o.TraderID ∈ K)
      ∧ ((∀ o ∈ s1.ob.BuyOrders, PosQty o) ∧ (∀ o ∈ s1.ob.SellOrders, PosQty o))
      ∧ (∀ k ∈ K, 0 ≤ (heldOf s1.traders k stock).getD 0)
      ∧ holdings s1.traders K stock + restingTotal s1.ob.SellOrders = T := by
  obtain ⟨hst, hK, hpos, hnn, hsum⟩ := h
  obtain ⟨b, bt, a, st, hb, ha, _, _, hset, _, _, _⟩ := matchIter_next hn
  obtain ⟨b1, bt1, a1, st1, hb1, ha1, heq⟩ := matchIter_next_shares hn K hK
  rw [hb] at hb1
  rw [ha] at ha1
  obtain ⟨rfl, rfl⟩ := List.cons.inj hb1
  obtain ⟨rfl, rfl⟩ := List.cons.inj ha1
  have hbm : b ∈ s.ob.BuyOrders := by rw [hb]; exact List.mem_cons_self _ _
  have hbs : b.Stock = stock := hst b hbm
  have hbK : b.TraderID ∈ K := hK b hbm
  have pb := hpos.1 b hbm
  have pa := hpos.2 a (by rw [ha]; exact List.mem_cons_self _ _)
  obtain ⟨_, e2, q0, _, l2⟩ := fill_min_quantity b a pb pa
  have w2 : wrapInt (a.Quantity - min b.Quantity a.Quantity)
      = a.Quantity - min b.Quantity a.Quantity := e2
  rw [hbs] at heq
  have hh0 := hnn b.TraderID hbK
  have hle : (heldOf s.traders b.TraderID stock).getD 0 ≤ holdings s.traders K stock :=
    Finset.single_le_sum (f := fun k => (heldOf s.traders k stock).getD 0)
      (fun k hk => hnn k hk) hbK
  have hrest : 0 ≤ restingTotal st :=
    restingTotal_nonneg st (fun o ho => hpos.2 o (by rw [ha]; exact List.mem_cons_of_mem _ ho))
  have hra : restingTotal s.ob.SellOrders = a.Quantity + restingTotal st := by
    rw [ha, restingTotal_cons]
  have w1 : wrapInt ((heldOf s.traders b.TraderID stock).getD 0 + min b.Quantity a.Quantity)
      = (heldOf s.traders b.TraderID stock).getD 0 + min b.Quantity a.Quantity :=
    wrapInt_of_isInt ⟨by omega, by omega⟩
  refine ⟨(matchIter_next_forall (fun o => o.Stock = stock) (fun _ _ hx => hx) hn).1 hst,
    (matchIter_next_forall (fun o => o.TraderID ∈ K) (fun _ _ hx => hx) hn).1 hK,
    matchIter_next_posQty hn hpos, ?_, ?_⟩
  · intro k hk
    rw [settle_held hset k stock, hbs]
    have := hnn k hk
    split
    · simp only [↓reduceIte]
      rw [w1]
      omega
    · omega
  · rw [heq, w1, w2]
    omega

/-- An iteration in which the subtraction from the head buy order does not wrap moves
cash from the reservation of that order to the two traders and creates none. -/
theorem matchIter_next_cash {s s1 : MatchState} (hn : matchIter s = .next s1)
    (K : Finset Int)
    (hK : (∀ o ∈ s.ob.BuyOrders, o.TraderID ∈ K) ∧ (∀ o ∈ s.ob.SellOrders, o.TraderID ∈ K))
    (hw : ∀ b bt a st, s.ob.BuyOrders = b :: bt → s.ob.SellOrders = a :: st →
      wrapInt (b.Quantity - min b.Quantity a.Quantity)
        = b.Quantity - min b.Quantity a.Quantity) :
    cashTotal s1.traders K + reservedCash s1.ob.BuyOrders
      = cashTotal s.traders K + reservedCash s.ob.BuyOrders := by
  obtain ⟨b, bt, a, st, hb, ha, _, _, hset, _, hQ1, _⟩ := matchIter_next hn
  have hbm : b ∈ s.ob.BuyOrders := by rw [hb]; exact List.mem_cons_self _ _
  have ham : a ∈ s.ob.SellOrders := by rw [ha]; exact List.mem_cons_self _ _
  have e1 : (fill b (min b.Quantity a.Quantity)).Quantity
      = b.Quantity - min b.Quantity a.Quantity := hw b bt a st hb ha
  have ep : (fill b (min b.Quantity a.Quantity)).Price = b.Price := rfl
  rw [cashTotal_settle hset K (hK.1 b hbm) (hK.2 a ham), queueAfter_reservedCash hQ1, hb,
    reservedCash_cons, e1, ep]
  push_cast
  ring

theorem iterates_forall (Q : Order → Prop) (hQ : ∀ o q, Q o → Q (fill o q))
    {s0 s : MatchState} (h : Iterates s0 s)
    (h0 : (∀ o ∈ s0.ob.BuyOrders, Q o) ∧ (∀ o ∈ s0.ob.SellOrders, Q o)) :
    (∀ o ∈ s.ob.BuyOrders, Q o) ∧ (∀ o ∈ s.ob.SellOrders, Q o) := by
  induction h with
  | start => exact h0
  | step s s1 _ hn ih =>
    exact ⟨(matchIter_next_forall Q hQ hn).1 ih.1, (matchIter_next_forall Q hQ hn).2 ih.2⟩

/-- The loop-invariant rule with the history of the pass: the invariant may rely on the
state having been reached from the starting state. -/
theorem matchLoop_ok_from (s0 : MatchState) (Inv : MatchState → Prop)
    (hstep : ∀ s s1, Iterates s0 s → Inv s → matchIter s = .next s1 → Inv s1) :
    ∀ (fuel : Nat) (s r : MatchState), Iterates s0 s → Inv s → matchLoop fuel s = .ok r →
      Inv r
  | 0, _, _, _, _, h => by
    unfold matchLoop at h
    exact absurd h (by simp)
  | fuel + 1, s, r, hit, hi, h => by
    unfold matchLoop at h
    split at h
    · simp only [Except.ok.injEq] at h
      subst h
      exact hi
    · rename_i s1 he
      exact matchLoop_ok_from s0 Inv hstep fuel s1 r (Iterates.step s s1 hit he)
        (hstep s s1 hit hi he) h
    · exact absurd h (by simp)

/-! ## The commands `order` and `show` -/

theorem escrowShares_error {traders : Traders} {cur : Int} {stock : String} {q : Int}
    {out : Outcome} (h : escrowShares traders cur stock q = .error out) (o : Order) :
    out ≠ .added o := by
  unfold escrowShares at h
  split at h
  · simp only [Except.error.injEq] at h
    subst h
    simp
  · split at h
    · simp only [Except.error.injEq] at h
      subst h
      simp
    · split at h
      · simp only [Except.error.injEq] at h
        subst h
        simp
      · exact absurd h (by simp)

theorem escrowCash_error {traders : Traders} {cur : Int} {q : Int} {price : ℚ}
    {out : Outcome} (h : escrowCash traders cur q price = .error out) (o : Order) :
    out ≠ .added o := by
  unfold escrowCash at h
  split at h
  · simp only [Except.error.injEq] at h
    subst h
    simp
  · split at h
    · simp only [Except.error.injEq] at h
      subst h
      simp
    · exact absurd h (by simp)

/-- What the command `order` has done when it reports an added order. -/
theorem orderCommand_added {atoi : String → Option Int} {parseFloat : String → Option ℚ}
    {s s1 : Session} {args : List String} {draw : Int} {o : Order}
    (h : orderCommand atoi parseFloat s args draw = (s1, .added o)) :
    o.ID = draw ∧ o.TraderID = s.currentTraderID ∧
    atoi (args.getD 2 "") = some o.Quantity ∧ parseFloat (args.getD 4 "") = some o.Price ∧
    o.Stock = args.getD 3 "" ∧
    ∃ ob, s.StockOrderBooks o.Stock = some ob ∧
      s1.StockOrderBooks o.Stock = some (ob.AddOrder o) := by
  unfold orderCommand at h
  split at h
  · simp at h
  · split at h
    · simp at h
    · simp only at h
      split at h
      · rename_i quantity price hq hp
        split at h
        · rename_i out he
          simp only [Prod.mk.injEq] at h
          split at he
          · exact absurd h.2 (escrowShares_error he o)
          · exact absurd he (by simp)
        · rename_i traders1 _
          split at h
          · rename_i out he
            simp only [Prod.mk.injEq] at h
            split at he
            · exact absurd h.2 (escrowCash_error he o)
            · exact absurd he (by simp)
          · split at h
            · simp at h
            · rename_i ob hob
              simp only [Prod.mk.injEq, Outcome.added.injEq] at h
              obtain ⟨rfl, rfl⟩ := h
              exact ⟨rfl, rfl, hq, hp, rfl, ob, hob, by simp⟩
      · simp at h

/-- More than 1000 values in `[0, 1000)` cannot be pairwise different. -/
theorem ids_collide (l : List Order) (h : ∀ o ∈ l, 0 ≤ o.ID ∧ o.ID < 1000)
    (hl : 1000 < l.length) : ¬ (l.map (fun o => o.ID)).Nodup := by
  intro hnd
  have hsub : (l.map (fun o => o.ID)).toFinset ⊆ Finset.Ico (0 : Int) 1000 := by
    intro x hx
    rw [List.mem_toFinset, List.mem_map] at hx
    obtain ⟨o, ho, rfl⟩ := hx
    exact Finset.mem_Ico.mpr (h o ho)
  have hc := Finset.card_le_card hsub
  rw [List.toFinset_card_of_nodup hnd, Int.card_Ico, List.length_map] at hc
  simp at hc
  omega

/-! ## `container/heap` on a slice of any element type: lemmas -/

theorem swapOf_length {α : Type} (h : List α) (i j : Nat) :
    (swapOf h i j).length = h.length := by
  unfold swapOf
  split <;> simp

theorem swapOf_getElem? {α : Type} (h : List α) (i j k : Nat) (hi : i < h.length)
    (hj : j < h.length) :
    (swapOf h i j)[k]? = if k = j then h[i]? else if k = i then h[j]? else h[k]? := by
  unfold swapOf
  rw [List.getElem?_eq_getElem hi, List.getElem?_eq_getElem hj]
  simp only [List.getElem?_set, List.length_set]
  by_cases h1 : k = j
  · subst h1; simp [hj]
  · by_cases h2 : k = i
    · subst h2
      have h3 : ¬ j = k := fun h => h1 h.symm
      simp [hi, h1, h3]
    · simp [h1, h2, Ne.symm h1, Ne.symm h2]

theorem swapOf_perm {α : Type} [DecidableEq α] (h : List α) (i j : Nat) :
    (swapOf h i j).Perm h := by
  unfold swapOf
  cases hi : h[i]? with
  | none => simp
  | some a =>
    cases hj : h[j]? with
    | none => simp
    | some b =>
      obtain ⟨hil, rfl⟩ := List.getElem?_eq_some.mp hi
      obtain ⟨hjl, rfl⟩ := List.getElem?_eq_some.mp hj
      simp only
      rw [List.perm_iff_count]
      intro c
      rw [List.count_set _ _ _ _ (by simpa using hjl), List.count_set _ _ _ _ hil]
      have h1 := List.boole_getElem_le_countP (· == c) h i hil
      have h2 := List.boole_getElem_le_countP (· == c) h j hjl
      simp only [List.getElem_set]
      by_cases hij : i = j
      · subst hij
        simp only [↓reduceIte, List.count_eq_countP] at *
        split_ifs at * <;> omega
      · simp only [hij, ↓reduceIte, List.count_eq_countP] at *
        split_ifs at * <;> omega

theorem upLoopOf_perm {α : Type} [DecidableEq α] (less : α → α → Bool) :
    ∀ (fuel : Nat) (h : List α) (j : Nat), (upLoopOf less fuel h j).Perm h
  | 0, _, _ => List.Perm.refl _
  | fuel + 1, h, j => by
    unfold upLoopOf
    simp only
    split
    · exact List.Perm.refl _
    · exact (upLoopOf_perm less fuel _ _).trans (swapOf_perm h _ j)

theorem heapPushOf_perm {α : Type} [DecidableEq α] (less : α → α → Bool) (h : List α)
    (x : α) : (heapPushOf less h x).Perm (x :: h) := by
  unfold heapPushOf
  exact (upLoopOf_perm less _ _ _).trans (List.perm_append_singleton x h)

theorem downLoopOf_succ {α : Type} (less : α → α → Bool) (fuel : Nat) (h : List α)
    (i n : Nat) :
    downLoopOf less (fuel + 1) h i n
      = if 2 * i + 1 ≥ n then h
        else if !lessOf less h (downChildOf less h i n) i then h
        else downLoopOf less fuel (swapOf h i (downChildOf less h i n))
          (downChildOf less h i n) n := rfl

theorem downChildOf_cases {α : Type} (less : α → α → Bool) (h : List α) (i n : Nat) :
    downChildOf less h i n = 2 * i + 1
      ∨ (downChildOf less h i n = 2 * i + 2 ∧ 2 * i + 2 < n) := by
  unfold downChildOf
  split
  · rename_i hc; exact Or.inr ⟨rfl, hc.1⟩
  · exact Or.inl rfl

theorem downLoopOf_length {α : Type} (less : α → α → Bool) :
    ∀ (fuel : Nat) (h : List α) (i n : Nat), (downLoopOf less fuel h i n).length = h.length
  | 0, _, _, _ => rfl
  | fuel + 1, h, i, n => by
    rw [downLoopOf_succ]
    split
    · rfl
    · split
      · rfl
      · rw [downLoopOf_length less fuel, swapOf_length]

theorem downLoopOf_perm {α : Type} [DecidableEq α] (less : α → α → Bool) :
    ∀ (fuel : Nat) (h : List α) (i n : Nat), (downLoopOf less fuel h i n).Perm h
  | 0, _, _, _ => List.Perm.refl _
  | fuel + 1, h, i, n => by
    rw [downLoopOf_succ]
    split
    · exact List.Perm.refl _
    · split
      · exact List.Perm.refl _
      · exact (downLoopOf_perm less fuel _ _ _).trans (swapOf_perm h i _)

theorem downLoopOf_getElem?_ge {α : Type} (less : α → α → Bool) :
    ∀ (fuel : Nat) (h : List α) (i n k : Nat),
      n ≤ h.length → n ≤ k → (downLoopOf less fuel h i n)[k]? = h[k]?
  | 0, _, _, _, _, _, _ => rfl
  | fuel + 1, h, i, n, k, hn, hk => by
    rw [downLoopOf_succ]
    split
    · rfl
    · rename_i h1
      split
      · rfl
      · have hi : i < h.length := by omega
        have hc := downChildOf_cases less h i n
        have hcn : downChildOf less h i n < n := by omega
        rw [downLoopOf_getElem?_ge less fuel _ _ n k (by rw [swapOf_length]; exact hn) hk,
          swapOf_getElem? h i _ k hi (by omega)]
        have e1 : k ≠ downChildOf less h i n := by omega
        have e2 : k ≠ i := by omega
        simp [e1, e2]

/-- The fuel `j + 1` that `heapPushOf` gives the loop of `heap.up` is enough: any two
amounts above `j` give the same result. -/
theorem upLoopOf_fuel {α : Type} (less : α → α → Bool) :
    ∀ (f1 f2 : Nat) (h : List α) (j : Nat),
      j < f1 → j < f2 → upLoopOf less f1 h j = upLoopOf less f2 h j
  | 0, _, _, _, h1, _ => absurd h1 (Nat.not_lt_zero _)
  | _ + 1, 0, _, _, _, h2 => absurd h2 (Nat.not_lt_zero _)
  | f1 + 1, f2 + 1, h, j, h1, h2 => by
    unfold upLoopOf
    simp only
    split
    · rfl
    · rename_i hc
      have hne : (j - 1) / 2 ≠ j := fun e => hc (Or.inl e)
      exact upLoopOf_fuel less f1 f2 _ _ (by omega) (by omega)

/-- The fuel `n` that `heapPopOf` gives the loop of `heap.down` is enough: any two amounts
of at least `n - i` give the same result. -/
theorem downLoopOf_fuel {α : Type} (less : α → α → Bool) :
    ∀ (f1 f2 : Nat) (h : List α) (i n : Nat),
      n ≤ i + f1 → n ≤ i + f2 → downLoopOf less f1 h i n = downLoopOf less f2 h i n
  | 0, 0, _, _, _, _, _ => rfl
  | 0, f2 + 1, h, i, n, h1, _ => by
    rw [downLoopOf_succ, if_pos (by omega)]
    rfl
  | f1 + 1, 0, h, i, n, _, h2 => by
    rw [downLoopOf_succ, if_pos (by omega)]
    rfl
  | f1 + 1, f2 + 1, h, i, n, h1, h2 => by
    rw [downLoopOf_succ, downLoopOf_succ]
    split
    · rfl
    · split
      · rfl
      · have hc := downChildOf_cases less h i n
        exact downLoopOf_fuel less f1 f2 _ _ n (by omega) (by omega)

/-- The effect of `heap.Pop` on a non-empty slice: it returns the head, and what stays is a
rearrangement of the other elements. -/
theorem heapPopOf_cons {α : Type} [DecidableEq α] (less : α → α → Bool) (x : α)
    (t : List α) : ∃ rest, heapPopOf less (x :: t) = some (x, rest) ∧ rest.Perm t := by
  have hlen : (x :: t).length = t.length + 1 := rfl
  have hl2 : (downLoopOf less t.length (swapOf (x :: t) 0 t.length) 0 t.length).length
      = t.length + 1 := by
    rw [downLoopOf_length, swapOf_length, hlen]
  have hlast : (downLoopOf less t.length (swapOf (x :: t) 0 t.length) 0 t.length).getLast?
      = some x := by
    rw [List.getLast?_eq_getElem?, hl2]
    simp only [Nat.add_sub_cancel]
    rw [downLoopOf_getElem?_ge less _ _ _ _ _ (by rw [swapOf_length, hlen]; omega) (le_refl _),
      swapOf_getElem? _ _ _ _ (by rw [hlen]; omega) (by rw [hlen]; omega)]
    simp
  have happ := List.dropLast_append_getLast? x (by simpa using hlast)
  refine ⟨(downLoopOf less t.length (swapOf (x :: t) 0 t.length) 0 t.length).dropLast, ?_, ?_⟩
  · unfold heapPopOf
    simp only [hlen, Nat.add_sub_cancel]
    rw [hlast]
    simp
  · have hp : (downLoopOf less t.length (swapOf (x :: t) 0 t.length) 0 t.length).Perm (x :: t) :=
      (downLoopOf_perm less _ _ _ _).trans (swapOf_perm _ _ _)
    rw [← happ] at hp
    exact ((List.perm_append_singleton x _).symm.trans hp).cons_inv

/-! ## `container/heap` under a map of the elements -/

theorem swapOf_map {α β : Type} (f : α → β) (h : List α) (i j : Nat) :
    (swapOf h i j).map f = swapOf (h.map f) i j := by
  unfold swapOf
  simp only [List.getElem?_map]
  cases h[i]? <;> cases h[j]? <;> simp [List.map_set]

theorem lessOf_map {α β : Type} (f : α → β) (lessA : α → α → Bool) (lessB : β → β → Bool)
    (hf : ∀ a b, lessB (f a) (f b) = lessA a b) (h : List α) (i j : Nat) :
    lessOf lessB (h.map f) i j = lessOf lessA h i j := by
  unfold lessOf
  simp only [List.getElem?_map]
  cases h[i]? <;> cases h[j]? <;> simp [hf]

theorem upLoopOf_map {α β : Type} (f : α → β) (lessA : α → α → Bool) (lessB : β → β → Bool)
    (hf : ∀ a b, lessB (f a) (f b) = lessA a b) :
    ∀ (fuel : Nat) (h : List α) (j : Nat),
      (upLoopOf lessA fuel h j).map f = upLoopOf lessB fuel (h.map f) j
  | 0, _, _ => rfl
  | fuel + 1, h, j => by
    unfold upLoopOf
    simp only [lessOf_map f lessA lessB hf]
    split
    · rfl
    · rw [upLoopOf_map f lessA lessB hf fuel, swapOf_map]

theorem downChildOf_map {α β : Type} (f : α → β) (lessA : α → α → Bool)
    (lessB : β → β → Bool) (hf : ∀ a b, lessB (f a) (f b) = lessA a b) (h : List α)
    (i n : Nat) : downChildOf lessB (h.map f) i n = downChildOf lessA h i n := by
  unfold downChildOf
  rw [lessOf_map f lessA lessB hf]

theorem downLoopOf_map {α β : Type} (f : α → β) (lessA : α → α → Bool)
    (lessB : β → β → Bool) (hf : ∀ a b, lessB (f a) (f b) = lessA a b) :
    ∀ (fuel : Nat) (h : List α) (i n : Nat),
      (downLoopOf lessA fuel h i n).map f = downLoopOf lessB fuel (h.map f) i n
  | 0, _, _, _ => rfl
  | fuel + 1, h, i, n => by
    rw [downLoopOf_succ, downLoopOf_succ, downChildOf_map f lessA lessB hf,
      lessOf_map f lessA lessB hf]
    split
    · rfl
    · split
      · rfl
      · rw [downLoopOf_map f lessA lessB hf fuel, swapOf_map]

theorem heapPushOf_map {α β : Type} (f : α → β) (lessA : α → α → Bool)
    (lessB : β → β → Bool) (hf : ∀ a b, lessB (f a) (f b) = lessA a b) (h : List α) (x : α) :
    (heapPushOf lessA h x).map f = heapPushOf lessB (h.map f) (f x) := by
  unfold heapPushOf
  simp only [upLoopOf_map f lessA lessB hf, List.map_append, List.map_cons, List.map_nil,
    List.length_append, List.length_map, List.length_singleton]

theorem heapPopOf_map {α β : Type} (f : α → β) (lessA : α → α → Bool)
    (lessB : β → β → Bool) (hf : ∀ a b, lessB (f a) (f b) = lessA a b) (h : List α) :
    heapPopOf lessB (h.map f)
      = (heapPopOf lessA h).map (fun r => (f r.1, r.2.map f)) := by
  unfold heapPopOf
  simp only [List.length_map]
  split
  · rfl
  · simp only [← swapOf_map, ← downLoopOf_map f lessA lessB hf, List.getLast?_map]
    cases (downLoopOf lessA (h.length - 1) (swapOf h 0 (h.length - 1)) 0
      (h.length - 1)).getLast? <;> simp [List.map_dropLast]

/-! ## The heap of orders as an instance -/

theorem swap_eq_swapOf (pq : PriorityQueue) (i j : Nat) : pq.Swap i j = swapOf pq i j := by
  unfold PriorityQueue.Swap swapOf
  cases pq[i]? <;> cases pq[j]? <;> rfl

theorem less_eq_lessOf (pq : PriorityQueue) (i j : Nat) :
    pq.Less i j = lessOf orderLess pq i j := by
  unfold PriorityQueue.Less lessOf orderLess
  cases pq[i]? <;> cases pq[j]? <;> rfl

theorem upLoop_eq_upLoopOf : ∀ (fuel : Nat) (pq : PriorityQueue) (j : Nat),
    upLoop fuel pq j = upLoopOf orderLess fuel pq j
  | 0, _, _ => rfl
  | fuel + 1, pq, j => by
    unfold upLoop upLoopOf
    simp only [less_eq_lessOf, swap_eq_swapOf]
    split
    · rfl
    · exact upLoop_eq_upLoopOf fuel _ _

theorem downChild_eq_downChildOf (pq : PriorityQueue) (i n : Nat) :
    downChild pq i n = downChildOf orderLess pq i n := by
  unfold downChild downChildOf
  rw [less_eq_lessOf]

theorem downLoop_eq_downLoopOf : ∀ (fuel : Nat) (pq : PriorityQueue) (i n : Nat),
    downLoop fuel pq i n = downLoopOf orderLess fuel pq i n
  | 0, _, _, _ => rfl
  | fuel + 1, pq, i, n => by
    rw [downLoop_succ, downLoopOf_succ, downChild_eq_downChildOf, less_eq_lessOf,
      swap_eq_swapOf]
    split
    · rfl
    · split
      · rfl
      · exact downLoop_eq_downLoopOf fuel _ _ _

theorem heapPush_eq_heapPushOf (pq : PriorityQueue) (x : Order) :
    heapPush pq x = heapPushOf orderLess pq x := by
  unfold heapPush heapPushOf heapUp PriorityQueue.Push PriorityQueue.Len
  exact upLoop_eq_upLoopOf _ _ _

theorem heapPop_eq_heapPopOf (pq : PriorityQueue) : heapPop pq = heapPopOf orderLess pq := by
  unfold heapPop heapPopOf heapDown PriorityQueue.Pop PriorityQueue.Len
  simp only [downLoop_eq_downLoopOf, swap_eq_swapOf]
  split
  · rfl
  · generalize downLoopOf orderLess _ _ _ _ = l
    cases l.getLast? <;> rfl

/-! ## One iteration of `MatchOrders` on a book of pointers -/

theorem popIfFilledAt_cons (objs : Objects) (p : Nat) (rest : PtrQueue) :
    ∃ q, popIfFilledAt objs p (p :: rest) = some q ∧ QueueAfterAt objs p rest q := by
  unfold popIfFilledAt QueueAfterAt
  by_cases h0 : (objs p).Quantity = 0
  · obtain ⟨q, h1, h2⟩ := heapPopOf_cons (ptrLess objs) p rest
    exact ⟨q, by simp [h0, h1], Or.inl ⟨h0, h1, h2⟩⟩
  · exact ⟨p :: rest, by simp [h0], Or.inr ⟨h0, rfl⟩⟩

/-- An iteration that goes on to the next one: the heads cross, both quantities are
updated through the head pointers, the traders are settled, one transaction is appended,
and each queue is left as `QueueAfterAt` says. -/
theorem matchIterAt_next {s s1 : PtrState} (h : matchIterAt s = .next s1) :
    ∃ pb bt ps st, s.ob.BuyOrders = pb :: bt ∧ s.ob.SellOrders = ps :: st
      ∧ (s.objs ps).Price ≤ (s.objs pb).Price ∧ (s.objs pb).Stock = (s.objs ps).Stock
      ∧ s1.objs = fillAt (fillAt s.objs pb (min (s.objs pb).Quantity (s.objs ps).Quantity)) ps
          (min (s.objs pb).Quantity (s.objs ps).Quantity)
      ∧ settle s.traders (s.objs pb) (s.objs ps)
          (min (s.objs pb).Quantity (s.objs ps).Quantity) = .ok s1.traders
      ∧ s1.transactions = s.transactions ++ [trade (s.objs pb) (s.objs ps)]
      ∧ QueueAfterAt s1.objs pb bt s1.ob.BuyOrders
      ∧ QueueAfterAt s1.objs ps st s1.ob.SellOrders := by
  unfold matchIterAt at h
  split at h
  · rename_i pb bt ps st hb ha
    split at h
    · rename_i hc
      simp only at h
      split at h
      · exact absurd h (by simp)
      · rename_i tr1 hset
        obtain ⟨q1, hq1, hQ1⟩ := popIfFilledAt_cons
          (fillAt (fillAt s.objs pb (min (s.objs pb).Quantity (s.objs ps).Quantity)) ps
            (min (s.objs pb).Quantity (s.objs ps).Quantity)) pb bt
        obtain ⟨q2, hq2, hQ2⟩ := popIfFilledAt_cons
          (fillAt (fillAt s.objs pb (min (s.objs pb).Quantity (s.objs ps).Quantity)) ps
            (min (s.objs pb).Quantity (s.objs ps).Quantity)) ps st
        rw [hq1, hq2] at h
        simp only [PtrStep.next.injEq] at h
        subst h
        refine ⟨pb, bt, ps, st, hb, ha, hc.1, hc.2, rfl, ?_, rfl, hQ1, hQ2⟩
        rw [← hset]
        unfold fillAt fill settle creditBuyer creditSeller
        split_ifs <;> rfl
    · exact absurd h (by simp)
  · exact absurd h (by simp)

/-- An iteration leaves the loop exactly when a queue is empty or the heads do not cross. -/
theorem matchIterAt_exit_iff (s : PtrState) :
    matchIterAt s = .exit ↔
      ∀ pb bt ps st, s.ob.BuyOrders = pb :: bt → s.ob.SellOrders = ps :: st →
        ¬ ((s.objs ps).Price ≤ (s.objs pb).Price ∧ (s.objs pb).Stock = (s.objs ps).Stock) := by
  unfold matchIterAt
  split
  · rename_i pb bt ps st hb ha
    split
    · rename_i hc
      simp only
      constructor
      · intro h
        exfalso
        split at h
        · exact absurd h (by simp)
        · obtain ⟨q1, hq1, _⟩ := popIfFilledAt_cons
            (fillAt (fillAt s.objs pb (min (s.objs pb).Quantity (s.objs ps).Quantity)) ps
              (min (s.objs pb).Quantity (s.objs ps).Quantity)) pb bt
          obtain ⟨q2, hq2, _⟩ := popIfFilledAt_cons
            (fillAt (fillAt s.objs pb (min (s.objs pb).Quantity (s.objs ps).Quantity)) ps
              (min (s.objs pb).Quantity (s.objs ps).Quantity)) ps st
          rw [hq1, hq2] at h
          exact absurd h (by simp)
      · intro h
        exact absurd hc (h pb bt ps st hb ha)
    · rename_i hc
      simp only [true_iff]
      intro b1 bt1 a1 st1 hb1 ha1
      rw [hb] at hb1
      rw [ha] at ha1
      obtain ⟨rfl, rfl⟩ := List.cons.inj hb1
      obtain ⟨rfl, rfl⟩ := List.cons.inj ha1
      exact hc
  · rename_i hne
    simp only [true_iff]
    intro b bt a st hb ha
    exact absurd ha (hne b bt a st hb)

/-- An iteration can only fail while settling the traders of crossing heads. -/
theorem matchIterAt_fault {s : PtrState} {f : Fault} (h : matchIterAt s = .fault f) :
    ∃ pb bt ps st, s.ob.BuyOrders = pb :: bt ∧ s.ob.SellOrders = ps :: st
      ∧ (s.objs ps).Price ≤ (s.objs pb).Price ∧ (s.objs pb).Stock = (s.objs ps).Stock
      ∧ settle s.traders (s.objs pb) (s.objs ps)
          (min (s.objs pb).Quantity (s.objs ps).Quantity) = .error f := by
  unfold matchIterAt at h
  split at h
  · rename_i pb bt ps st hb ha
    split at h
    · rename_i hc
      simp only at h
      split at h
      · rename_i f1 hset
        simp only [PtrStep.fault.injEq] at h
        subst h
        refine ⟨pb, bt, ps, st, hb, ha, hc.1, hc.2, ?_⟩
        rw [← hset]
        unfold fillAt fill settle creditBuyer creditSeller
        split_ifs <;> rfl
      · obtain ⟨q1, hq1, _⟩ := popIfFilledAt_cons
          (fillAt (fillAt s.objs pb (min (s.objs pb).Quantity (s.objs ps).Quantity)) ps
            (min (s.objs pb).Quantity (s.objs ps).Quantity)) pb bt
        obtain ⟨q2, hq2, _⟩ := popIfFilledAt_cons
          (fillAt (fillAt s.objs pb (min (s.objs pb).Quantity (s.objs ps).Quantity)) ps
            (min (s.objs pb).Quantity (s.objs ps).Quantity)) ps st
        rw [hq1, hq2] at h
        exact absurd h (by simp)
    · exact absurd h (by simp)
  · exact absurd h (by simp)

/-- The quantity of every object after the two updates of an iteration. -/
theorem fillAt_fillAt_quantity (objs : Objects) (pb ps : Nat) (q : Int) (x : Nat) :
    (fillAt (fillAt objs pb q) ps q x).Quantity
      = if x = ps then
          wrapInt ((if x = pb then wrapInt ((objs x).Quantity - q) else (objs x).Quantity) - q)
        else if x = pb then wrapInt ((objs x).Quantity - q) else (objs x).Quantity := by
  unfold fillAt fill
  split_ifs <;> rfl

/-- The updates of an iteration change nothing but quantities. -/
theorem fillAt_fields (objs : Objects) (p : Nat) (q : Int) (x : Nat) :
    (fillAt objs p q x).ID = (objs x).ID ∧ (fillAt objs p q x).TraderID = (objs x).TraderID
      ∧ (fillAt objs p q x).Price = (objs x).Price ∧ (fillAt objs p q x).IsBuy = (objs x).IsBuy
      ∧ (fillAt objs p q x).Stock = (objs x).Stock := by
  unfold fillAt fill
  split_ifs <;> exact ⟨rfl, rfl, rfl, rfl, rfl⟩

theorem queueAfterAt_length_le {objs : Objects} {p : Nat} {rest q : PtrQueue}
    (h : QueueAfterAt objs p rest q) : q.length ≤ rest.length + 1 := by
  rcases h with ⟨_, _, hp⟩ | ⟨_, rfl⟩
  · rw [hp.length_eq]; omega
  · simp

theorem queueAfterAt_subset {objs : Objects} {p : Nat} {rest q : PtrQueue}
    (h : QueueAfterAt objs p rest q) : ∀ x ∈ q, x ∈ p :: rest := by
  intro x hx
  rcases h with ⟨_, _, hp⟩ | ⟨_, rfl⟩
  · exact List.mem_cons_of_mem _ (hp.subset hx)
  · exact hx

/-! ## The same object at both heads -/

/-- A stuck state stays stuck: the iteration leaves both heads in place, with the quantity
of their object negated. -/
theorem stuck_next {s s1 : PtrState} (hs : Stuck s) (h : matchIterAt s = .next s1) :
    Stuck s1 := by
  obtain ⟨x, bt0, st0, hb0, ha0, hx⟩ := hs
  obtain ⟨pb, bt, ps, st, hb, ha, _, _, hobjs, _, _, hQ1, hQ2⟩ := matchIterAt_next h
  rw [hb0] at hb
  rw [ha0] at ha
  obtain ⟨rfl, rfl⟩ := List.cons.inj hb
  obtain ⟨rfl, rfl⟩ := List.cons.inj ha
  have hq : (s1.objs x).Quantity = wrapInt (-(s.objs x).Quantity) := by
    rw [hobjs, fillAt_fillAt_quantity]
    simp only [↓reduceIte]
    unfold min
    simp only [lt_self_iff_false, ↓reduceIte, sub_self, wrapInt_zero, zero_sub]
  have hne : (s1.objs x).Quantity ≠ 0 := by rw [hq]; exact hx
  have h1 : s1.ob.BuyOrders = x :: bt0 := by
    rcases hQ1 with ⟨h0, _⟩ | ⟨_, e⟩
    · exact absurd h0 hne
    · exact e
  have h2 : s1.ob.SellOrders = x :: st0 := by
    rcases hQ2 with ⟨h0, _⟩ | ⟨_, e⟩
    · exact absurd h0 hne
    · exact e
  refine ⟨x, bt0, st0, h1, h2, ?_⟩
  rw [hq]
  unfold wrapInt at hx ⊢
  omega

theorem stuck_not_exit {s : PtrState} (hs : Stuck s) : matchIterAt s ≠ .exit := by
  obtain ⟨x, bt0, st0, hb0, ha0, _⟩ := hs
  intro h
  rw [matchIterAt_exit_iff] at h
  exact h x bt0 x st0 hb0 ha0 ⟨le_refl _, rfl⟩

/-- A pass that has come to a stuck state does not return. -/
theorem stuck_never_returns : ∀ (fuel : Nat) (s r : PtrState), Stuck s →
    matchLoopAt fuel s ≠ .ok r
  | 0, _, _, _ => by
    unfold matchLoopAt
    simp
  | fuel + 1, s, r, hs => by
    unfold matchLoopAt
    split
    · rename_i he
      exact absurd he (stuck_not_exit hs)
    · rename_i s1 he
      exact stuck_never_returns fuel s1 r (stuck_next hs he)
    · simp

/-- An iteration that goes on pops a queue or leaves the pass stuck. -/
theorem matchIterAt_next_length {s s1 : PtrState} (h : matchIterAt s = .next s1) :
    s1.ob.BuyOrders.length + s1.ob.SellOrders.length
      < s.ob.BuyOrders.length + s.ob.SellOrders.length ∨ Stuck s1 := by
  obtain ⟨pb, bt, ps, st, hb, ha, _, _, hobjs, _, _, hQ1, hQ2⟩ := matchIterAt_next h
  have l1 := queueAfterAt_length_le hQ1
  have l2 := queueAfterAt_length_le hQ2
  rw [hb, ha]
  simp only [List.length_cons]
  rcases hQ1 with ⟨_, _, hp1⟩ | ⟨hn1, e1⟩
  · left
    rw [hp1.length_eq]
    omega
  · rcases hQ2 with ⟨_, _, hp2⟩ | ⟨hn2, e2⟩
    · left
      rw [hp2.length_eq]
      omega
    · right
      rw [hobjs, fillAt_fillAt_quantity] at hn1 hn2
      simp only [↓reduceIte] at hn2
      by_cases hps : pb = ps
      · subst hps
        simp only [↓reduceIte] at hn2
        refine ⟨pb, bt, st, e1, e2, ?_⟩
        rw [hobjs, fillAt_fillAt_quantity]
        simp only [↓reduceIte]
        unfold wrapInt at hn2 ⊢
        omega
      · exfalso
        have hsp : ¬ ps = pb := fun e => hps e.symm
        simp only [hps, hsp, ↓reduceIte] at hn1 hn2
        unfold min at hn1 hn2
        by_cases hlt : (s.objs pb).Quantity < (s.objs ps).Quantity
        · simp [hlt, wrapInt_zero] at hn1
        · simp [hlt, wrapInt_zero] at hn2

/-! ## The loop of `MatchOrders` on a book of pointers -/

/-- A result other than exhausted fuel does not depend on the amount of fuel. -/
theorem matchLoopAt_mono : ∀ (fuel k : Nat) (s : PtrState) (r : Except Fault PtrState),
    matchLoopAt fuel s = r → r ≠ .error .fuel → matchLoopAt (fuel + k) s = r
  | 0, _, _, _, h, hr => by
    unfold matchLoopAt at h
    exact absurd h.symm hr
  | fuel + 1, k, s, r, h, hr => by
    rw [Nat.add_right_comm]
    unfold matchLoopAt at h ⊢
    split
    · rename_i he
      rw [he] at h
      exact h
    · rename_i s1 he
      rw [he] at h
      exact matchLoopAt_mono fuel k s1 r h hr
    · rename_i f he
      rw [he] at h
      exact h

/-- A pass that returns has made no more trips than the book has slots: it returns with
one unit of fuel more than that. -/
theorem matchLoopAt_enough : ∀ (fuel : Nat) (s r : PtrState), matchLoopAt fuel s = .ok r →
    matchLoopAt (s.ob.BuyOrders.length + s.ob.SellOrders.length + 1) s = .ok r
  | 0, _, _, h => by
    unfold matchLoopAt at h
    exact absurd h (by simp)
  | fuel + 1, s, r, h => by
    unfold matchLoopAt at h ⊢
    split at h
    · exact h
    · rename_i s1 he
      rcases matchIterAt_next_length he with hlt | hst
      · have ih := matchLoopAt_enough fuel s1 r h
        have := matchLoopAt_mono _
          (s.ob.BuyOrders.length + s.ob.SellOrders.length
            - (s1.ob.BuyOrders.length + s1.ob.SellOrders.length + 1)) s1 _ ih (by simp)
        rw [← this]
        congr 1
        omega
      · exact absurd h (stuck_never_returns fuel s1 r hst)
    · exact absurd h (by simp)

/-! ## Conservation of quantity, object by object -/

theorem tripsOf_exit (fuel : Nat) {s : PtrState} (h : matchIterAt s = .exit) :
    tripsOf fuel s = [] := by
  cases fuel with
  | zero => rfl
  | succ n =>
    unfold tripsOf
    rw [h]

theorem tripsOf_next (fuel : Nat) {s s1 : PtrState} {pb ps : Nat} {bt st : PtrQueue}
    (h : matchIterAt s = .next s1) (hb : s.ob.BuyOrders = pb :: bt)
    (ha : s.ob.SellOrders = ps :: st) :
    tripsOf (fuel + 1) s
      = { buyOrder := pb, sellOrder := ps, transaction := trade (s.objs pb) (s.objs ps) }
        :: tripsOf fuel s1 := by
  conv_lhs => unfold tripsOf
  rw [h, hb, ha]

theorem executedAt_nil (x : Nat) : executedAt [] x = 0 := rfl

theorem executedAt_cons (t : Trip) (trips : List Trip) (x : Nat) :
    executedAt (t :: trips) x
      = (if t.buyOrder = x then t.transaction.Quantity else 0)
        + (if t.sellOrder = x then t.transaction.Quantity else 0) + executedAt trips x := by
  unfold executedAt
  simp only [List.filter_cons]
  by_cases h1 : t.buyOrder = x <;> by_cases h2 : t.sellOrder = x <;>
    simp [h1, h2] <;> ring

theorem executedAt_nonneg (trips : List Trip) (h : ∀ t ∈ trips, 0 ≤ t.transaction.Quantity)
    (x : Nat) : 0 ≤ executedAt trips x := by
  induction trips with
  | nil => simp [executedAt_nil]
  | cons t rest ih =>
    rw [executedAt_cons]
    have h1 := h t (List.mem_cons_self _ _)
    have h2 := ih (fun u hu => h u (List.mem_cons_of_mem _ hu))
    split_ifs <;> omega

/-- One iteration of a pass that returns, on a book whose objects hold quantities from `0`
on: the traded quantity is not negative, it is taken once from the object at the head of
`BuyOrders` and once from the object at the head of `SellOrders`, without wrap-around, and
no other object changes. -/
theorem matchIterAt_next_good {U : Nat → Prop} {s s1 : PtrState} (hg : GoodAt U s)
    (hn : matchIterAt s = .next s1) (hns : ¬ Stuck s1) :
    ∃ pb bt ps st, s.ob.BuyOrders = pb :: bt ∧ s.ob.SellOrders = ps :: st
      ∧ GoodAt U s1
      ∧ 0 ≤ (trade (s.objs pb) (s.objs ps)).Quantity
      ∧ (∀ x, (s1.objs x).Quantity = (s.objs x).Quantity
          - (if pb = x then (trade (s.objs pb) (s.objs ps)).Quantity else 0)
          - (if ps = x then (trade (s.objs pb) (s.objs ps)).Quantity else 0))
      ∧ (∀ x, (s1.objs x).ID = (s.objs x).ID)
      ∧ QueueAfterAt s1.objs pb bt s1.ob.BuyOrders
      ∧ QueueAfterAt s1.objs ps st s1.ob.SellOrders := by
  obtain ⟨pb, bt, ps, st, hb, ha, _, _, hobjs, _, _, hQ1, hQ2⟩ := matchIterAt_next hn
  have hUb : U pb := hg.1 pb (by rw [hb]; simp)
  have hUs : U ps := hg.1 ps (by rw [ha]; simp)
  have hb1 := hg.2 pb hUb
  have hs1 := hg.2 ps hUs
  have htq : (trade (s.objs pb) (s.objs ps)).Quantity
      = Min.min (s.objs pb).Quantity (s.objs ps).Quantity := min_eq_min _ _
  have hmq : min (s.objs pb).Quantity (s.objs ps).Quantity
      = Min.min (s.objs pb).Quantity (s.objs ps).Quantity := min_eq_min _ _
  have hqty : ∀ x, (s1.objs x).Quantity = (s.objs x).Quantity
      - (if pb = x then (trade (s.objs pb) (s.objs ps)).Quantity else 0)
      - (if ps = x then (trade (s.objs pb) (s.objs ps)).Quantity else 0) := by
    intro x
    rw [hobjs, fillAt_fillAt_quantity, htq, hmq]
    by_cases hps : pb = ps
    · subst hps
      by_cases hx : x = pb
      · subst hx
        simp only [↓reduceIte, min_self, sub_self, wrapInt_zero, zero_sub]
        by_cases h0 : (s.objs x).Quantity = 0
        · rw [h0]; decide
        · exfalso
          apply hns
          have hq : (s1.objs x).Quantity = wrapInt (-(s.objs x).Quantity) := by
            rw [hobjs, fillAt_fillAt_quantity, hmq]
            simp only [↓reduceIte, min_self, sub_self, wrapInt_zero, zero_sub]
          have hne : (s1.objs x).Quantity ≠ 0 := by
            rw [hq]
            unfold wrapInt
            omega
          have e1 : s1.ob.BuyOrders = x :: bt := by
            rcases hQ1 with ⟨h0, _⟩ | ⟨_, e⟩
            · exact absurd h0 hne
            · exact e
          have e2 : s1.ob.SellOrders = x :: st := by
            rcases hQ2 with ⟨h0, _⟩ | ⟨_, e⟩
            · exact absurd h0 hne
            · exact e
          refine ⟨x, bt, st, e1, e2, ?_⟩
          rw [hq]
          unfold wrapInt
          omega
      · have hx2 : ¬ pb = x := fun e => hx e.symm
        simp only [hx, hx2, ↓reduceIte, sub_zero]
    · have hsp : ¬ ps = pb := fun e => hps e.symm
      by_cases hx1 : x = pb
      · subst hx1
        simp only [hps, ↓reduceIte, sub_zero]
        unfold wrapInt
        omega
      · by_cases hx2 : x = ps
        · subst hx2
          simp only [hx1, hps, ↓reduceIte, sub_zero]
          unfold wrapInt
          omega
        · have hx3 : ¬ pb = x := fun e => hx1 e.symm
          have hx4 : ¬ ps = x := fun e => hx2 e.symm
          simp only [hx1, hx2, hx3, hx4, ↓reduceIte, sub_zero]
  have hq0 : 0 ≤ (trade (s.objs pb) (s.objs ps)).Quantity := by rw [htq]; omega
  refine ⟨pb, bt, ps, st, hb, ha, ⟨?_, ?_⟩, hq0, hqty, ?_, hQ1, hQ2⟩
  · intro x hx
    apply hg.1 x
    rcases List.mem_append.mp hx with h | h
    · rw [hb]; exact List.mem_append_left _ (queueAfterAt_subset hQ1 x h)
    · rw [ha]; exact List.mem_append_right _ (queueAfterAt_subset hQ2 x h)
  · intro x hU
    have hx := hg.2 x hU
    have hqx := hqty x
    rw [htq] at hqx
    by_cases hps : pb = ps
    · subst hps
      by_cases hxp : pb = x
      · subst hxp
        simp only [↓reduceIte, min_self] at hqx
        by_cases h0 : (s.objs pb).Quantity = 0
        · omega
        · exfalso
          have hne : (s1.objs pb).Quantity ≠ 0 := by omega
          apply hns
          have e1 : s1.ob.BuyOrders = pb :: bt := by
            rcases hQ1 with ⟨h0, _⟩ | ⟨_, e⟩
            · exact absurd h0 hne
            · exact e
          have e2 : s1.ob.SellOrders = pb :: st := by
            rcases hQ2 with ⟨h0, _⟩ | ⟨_, e⟩
            · exact absurd h0 hne
            · exact e
          refine ⟨pb, bt, st, e1, e2, ?_⟩
          rw [hqx]
          unfold wrapInt
          omega
      · simp only [hxp, ↓reduceIte, sub_zero] at hqx
        omega
    · by_cases hx1 : pb = x
      · subst hx1
        have hsp : ¬ ps = pb := fun e => hps e.symm
        simp only [hsp, ↓reduceIte, sub_zero] at hqx
        omega
      · by_cases hx2 : ps = x
        · subst hx2
          simp only [hx1, ↓reduceIte, sub_zero] at hqx
          omega
        · simp only [hx1, hx2, ↓reduceIte, sub_zero] at hqx
          omega
  · intro x
    rw [hobjs]
    exact ((fillAt_fields _ ps _ x).1).trans (fillAt_fields _ pb _ x).1

theorem queueAfterAt_count {objs : Objects} {p : Nat} {rest q : PtrQueue}
    (h : QueueAfterAt objs p rest q) (x : Nat) :
    q.count x ≤ (p :: rest).count x ∧
      (q.count x < (p :: rest).count x → x = p ∧ (objs p).Quantity = 0) := by
  rcases h with ⟨h0, _, hp⟩ | ⟨_, rfl⟩
  · rw [hp.count_eq, List.count_cons]
    constructor
    · omega
    · intro hlt
      by_cases hx : p = x
      · exact ⟨hx.symm, h0⟩
      · simp [hx] at hlt
  · exact ⟨le_refl _, fun hlt => absurd hlt (lt_irrefl _)⟩

/-- What a pass that returns has done, on a book whose objects hold quantities from `0`
on. -/
theorem matchLoopAt_conserves (U : Nat → Prop) : ∀ (fuel : Nat) (s r : PtrState),
    GoodAt U s → matchLoopAt fuel s = .ok r →
    GoodAt U r ∧ matchIterAt r = .exit
    ∧ r.transactions = s.transactions ++ (tripsOf fuel s).map (fun t => t.transaction)
    ∧ (∀ t ∈ tripsOf fuel s, 0 ≤ t.transaction.Quantity
        ∧ t.buyOrder ∈ s.ob.BuyOrders ∧ t.sellOrder ∈ s.ob.SellOrders
        ∧ t.transaction.BuyOrderID = (s.objs t.buyOrder).ID
        ∧ t.transaction.SellOrderID = (s.objs t.sellOrder).ID)
    ∧ (∀ x, executedAt (tripsOf fuel s) x + (r.objs x).Quantity = (s.objs x).Quantity)
    ∧ (∀ x, r.ob.BuyOrders.count x ≤ s.ob.BuyOrders.count x
        ∧ r.ob.SellOrders.count x ≤ s.ob.SellOrders.count x)
    ∧ (∀ x, r.ob.BuyOrders.count x < s.ob.BuyOrders.count x
        ∨ r.ob.SellOrders.count x < s.ob.SellOrders.count x → (r.objs x).Quantity = 0)
  | 0, _, _, _, h => by
    unfold matchLoopAt at h
    exact absurd h (by simp)
  | fuel + 1, s, r, hg, h => by
    unfold matchLoopAt at h
    cases hm : matchIterAt s with
    | exit =>
      rw [hm] at h
      simp only [Except.ok.injEq] at h
      subst h
      rw [tripsOf_exit _ hm]
      refine ⟨hg, hm, by simp, ?_, ?_, ?_, ?_⟩
      · intro t ht
        exact absurd ht (List.not_mem_nil _)
      · intro x
        simp [executedAt_nil]
      · intro x
        exact ⟨le_refl _, le_refl _⟩
      · intro x hx
        rcases hx with hx | hx <;> exact absurd hx (lt_irrefl _)
    | fault f =>
      rw [hm] at h
      exact absurd h (by simp)
    | next s1 =>
      rw [hm] at h
      simp only at h
      have hns : ¬ Stuck s1 := fun hst => stuck_never_returns fuel s1 r hst h
      obtain ⟨pb, bt, ps, st, hb, ha, hg1, hq0, hqty, hid, hQ1, hQ2⟩ :=
        matchIterAt_next_good hg hm hns
      obtain ⟨_, _, _, _, hb', ha', _, _, _, _, htx, _, _⟩ := matchIterAt_next hm
      rw [hb] at hb'
      rw [ha] at ha'
      obtain ⟨rfl, rfl⟩ := List.cons.inj hb'
      obtain ⟨rfl, rfl⟩ := List.cons.inj ha'
      obtain ⟨hgr, hex, htr, htrip, hcons, hcnt, hzero⟩ :=
        matchLoopAt_conserves U fuel s1 r hg1 h
      rw [tripsOf_next fuel hm hb ha]
      have c1 := fun x => queueAfterAt_count hQ1 x
      have c2 := fun x => queueAfterAt_count hQ2 x
      refine ⟨hgr, hex, ?_, ?_, ?_, ?_, ?_⟩
      · rw [htr, htx]
        simp
      · intro t ht
        rcases List.mem_cons.mp ht with rfl | ht1
        · refine ⟨hq0, ?_, ?_, rfl, rfl⟩
          · rw [hb]; simp
          · rw [ha]; simp
        · obtain ⟨t1, t2, t3, t4, t5⟩ := htrip t ht1
          refine ⟨t1, ?_, ?_, ?_, ?_⟩
          · rw [hb]; exact queueAfterAt_subset hQ1 _ t2
          · rw [ha]; exact queueAfterAt_subset hQ2 _ t3
          · rw [t4, hid]
          · rw [t5, hid]
      · intro x
        rw [executedAt_cons]
        have := hcons x
        have := hqty x
        simp only at *
        omega
      · intro x
        have h1 := (c1 x).1
        have h2 := (c2 x).1
        rw [← hb] at h1
        rw [← ha] at h2
        exact ⟨le_trans (hcnt x).1 h1, le_trans (hcnt x).2 h2⟩
      · intro x hx
        by_cases hlt : r.ob.BuyOrders.count x < s1.ob.BuyOrders.count x
            ∨ r.ob.SellOrders.count x < s1.ob.SellOrders.count x
        · exact hzero x hlt
        · have hx0 : U x ∧ (s1.objs x).Quantity = 0 := by
            rcases hx with hx | hx
            · have : s1.ob.BuyOrders.count x < (pb :: bt).count x := by
                rw [← hb]
                have := (hcnt x).1
                omega
              obtain ⟨e, h0⟩ := (c1 x).2 this
              subst e
              exact ⟨hg.1 x (by rw [hb]; simp), h0⟩
            · have : s1.ob.SellOrders.count x < (ps :: st).count x := by
                rw [← ha]
                have := (hcnt x).2
                omega
              obtain ⟨e, h0⟩ := (c2 x).2 this
              subst e
              exact ⟨hg.1 x (by rw [ha]; simp), h0⟩
          have e1 := hcons x
          have e2 := executedAt_nonneg (tripsOf fuel s1) (fun t ht => (htrip t ht).1) x
          have e3 := (hgr.2 x hx0.1).1
          omega

/-! ## When a pass on a book of pointers returns -/

theorem matchIterAt_ready {s : PtrState} (h : TradersReady s.traders (s.ob.view s.objs)) :
    matchIterAt s = .exit ∨
      ∃ s1, matchIterAt s = .next s1 ∧ TradersReady s1.traders (s1.ob.view s1.objs) := by
  cases hm : matchIterAt s with
  | exit => exact Or.inl rfl
  | fault f =>
    exfalso
    obtain ⟨pb, bt, ps, st, hb, ha, _, _, hf⟩ := matchIterAt_fault hm
    have h1 := h.1 (s.objs pb) (by simp [PtrBook.view, hb])
    have h2 := h.2 (s.objs ps) (by simp [PtrBook.view, ha])
    unfold heldOf at h1
    unfold cashOf at h2
    cases hbuyer : s.traders (s.objs pb).TraderID with
    | none => rw [hbuyer] at h1; simp at h1
    | some buyer =>
      cases hheld : buyer.Portfolio with
      | none => rw [hbuyer] at h1; simp [hheld] at h1
      | some held =>
        cases hseller : s.traders (s.objs ps).TraderID with
        | none => rw [hseller] at h2; simp at h2
        | some seller =>
          obtain ⟨tr1, hok⟩ := settle_ok s.traders (s.objs pb) (s.objs ps)
            (min (s.objs pb).Quantity (s.objs ps).Quantity) buyer seller held hbuyer hheld
            hseller
          rw [hok] at hf
          exact absurd hf (by simp)
  | next s1 =>
    refine Or.inr ⟨s1, rfl, ?_⟩
    obtain ⟨pb, bt, ps, st, hb, ha, _, _, hobjs, hset, _, hQ1, hQ2⟩ := matchIterAt_next hm
    have he := settle_effect hset
    have hfld : ∀ x, (s1.objs x).TraderID = (s.objs x).TraderID
        ∧ (s1.objs x).Stock = (s.objs x).Stock := by
      intro x
      rw [hobjs]
      have f1 := fillAt_fields (fillAt s.objs pb (min (s.objs pb).Quantity (s.objs ps).Quantity))
        ps (min (s.objs pb).Quantity (s.objs ps).Quantity) x
      have f2 := fillAt_fields s.objs pb (min (s.objs pb).Quantity (s.objs ps).Quantity) x
      exact ⟨f1.2.1.trans f2.2.1, f1.2.2.2.2.trans f2.2.2.2.2⟩
    constructor
    · intro o ho
      simp only [PtrBook.view, List.mem_map] at ho
      obtain ⟨x, hx, rfl⟩ := ho
      have hx1 : x ∈ s.ob.BuyOrders := by rw [hb]; exact queueAfterAt_subset hQ1 x hx
      have h1 := h.1 (s.objs x) (by simp only [PtrBook.view, List.mem_map]; exact ⟨x, hx1, rfl⟩)
      rw [(hfld x).1, (hfld x).2, he.2.1]
      simpa using h1
    · intro o ho
      simp only [PtrBook.view, List.mem_map] at ho
      obtain ⟨x, hx, rfl⟩ := ho
      have hx1 : x ∈ s.ob.SellOrders := by rw [ha]; exact queueAfterAt_subset hQ2 x hx
      have h2 := h.2 (s.objs x) (by simp only [PtrBook.view, List.mem_map]; exact ⟨x, hx1, rfl⟩)
      rw [(hfld x).1, he.1]
      simpa using h2

/-- An iteration keeps the two queues without a common object when they had none. -/
theorem matchIterAt_next_disjoint {s s1 : PtrState} (hn : matchIterAt s = .next s1)
    (hd : ∀ x ∈ s.ob.BuyOrders, x ∉ s.ob.SellOrders) :
    (∀ x ∈ s1.ob.BuyOrders, x ∉ s1.ob.SellOrders) ∧ ¬ Stuck s1 := by
  obtain ⟨pb, bt, ps, st, hb, ha, _, _, _, _, _, hQ1, hQ2⟩ := matchIterAt_next hn
  have hd1 : ∀ x ∈ s1.ob.BuyOrders, x ∉ s1.ob.SellOrders := by
    intro x hx hx2
    refine hd x ?_ ?_
    · rw [hb]; exact queueAfterAt_subset hQ1 x hx
    · rw [ha]; exact queueAfterAt_subset hQ2 x hx2
  refine ⟨hd1, ?_⟩
  rintro ⟨x, bt1, st1, e1, e2, _⟩
  exact hd1 x (by rw [e1]; simp) (by rw [e2]; simp)

theorem matchLoopAt_returns : ∀ (fuel : Nat) (s : PtrState),
    s.ob.BuyOrders.length + s.ob.SellOrders.length < fuel →
    TradersReady s.traders (s.ob.view s.objs) → (∀ x ∈ s.ob.BuyOrders, x ∉ s.ob.SellOrders) →
    ∃ r, matchLoopAt fuel s = .ok r
  | 0, _, h, _, _ => absurd h (Nat.not_lt_zero _)
  | fuel + 1, s, h, hr, hd => by
    unfold matchLoopAt
    rcases matchIterAt_ready hr with he | ⟨s1, hn, hr1⟩
    · rw [he]
      exact ⟨s, rfl⟩
    · rw [hn]
      have hd1 := matchIterAt_next_disjoint hn hd
      rcases matchIterAt_next_length hn with hlt | hst
      · exact matchLoopAt_returns fuel s1 (by omega) hr1 hd1.1
      · exact absurd hst hd1.2

/-! ## Books of pointers and books of orders -/

/-- `AddOrder` on a book of pointers is `AddOrder` on the orders pointed to. -/
theorem addOrder_view (objs : Objects) (ob : PtrBook) (order : Nat) :
    (ob.AddOrder objs order).view objs = (ob.view objs).AddOrder (objs order) := by
  unfold PtrBook.AddOrder OrderBook.AddOrder PtrBook.view
  split
  · simp only [heapPush_eq_heapPushOf]
    rw [heapPushOf_map objs (ptrLess objs) orderLess (fun _ _ => rfl)]
  · simp only [heapPush_eq_heapPushOf]
    rw [heapPushOf_map objs (ptrLess objs) orderLess (fun _ _ => rfl)]

theorem view_congr {objs objs1 : Objects} {ob : PtrBook}
    (h : ∀ x ∈ ob.BuyOrders ++ ob.SellOrders, objs1 x = objs x) :
    ob.view objs1 = ob.view objs := by
  unfold PtrBook.view
  congr 1
  · exact List.map_congr_left (fun x hx => h x (List.mem_append_left _ hx))
  · exact List.map_congr_left (fun x hx => h x (List.mem_append_right _ hx))

/-- How a queue of distinct pointers is left by an iteration, seen as the orders pointed
to. -/
theorem queueAfterAt_view {objs : Objects} {p : Nat} {rest q : PtrQueue} {v : PriorityQueue}
    (h : QueueAfterAt objs p rest q) (hv : QueueAfter (objs p) (rest.map objs) v) :
    v = q.map objs := by
  rcases h with ⟨h0, hpop, _⟩ | ⟨hne, rfl⟩
  · rcases hv with ⟨_, hpv, _⟩ | ⟨hnv, _⟩
    · rw [heapPop_eq_heapPopOf] at hpv
      have hm := heapPopOf_map objs (ptrLess objs) orderLess (fun _ _ => rfl) (p :: rest)
      rw [hpop] at hm
      simp only [List.map_cons, Option.map_some'] at hm
      rw [hm] at hpv
      simp only [Option.some.injEq, Prod.mk.injEq, true_and] at hpv
      exact hpv.symm
    · exact absurd h0 hnv
  · rcases hv with ⟨h0, _, _⟩ | ⟨_, e⟩
    · exact absurd h0 hne
    · rw [e]
      rfl

theorem queueAfterAt_nodup {objs : Objects} {p : Nat} {rest q : PtrQueue}
    (h : QueueAfterAt objs p rest q) (hnd : (p :: rest).Nodup) : q.Nodup := by
  rcases h with ⟨_, _, hp⟩ | ⟨_, rfl⟩
  · exact hp.nodup_iff.mpr (List.nodup_cons.mp hnd).2
  · exact hnd

/-- On a book whose slots hold distinct pointers, an iteration does to the orders pointed
to what `matchIter` does to a book of orders. -/
theorem matchIterAt_refines {s : PtrState}
    (hnd : (s.ob.BuyOrders ++ s.ob.SellOrders).Nodup) :
    (matchIterAt s = .exit → matchIter s.view = .exit) ∧
    (∀ f, matchIterAt s = .fault f → matchIter s.view = .fault f) ∧
    (∀ s1, matchIterAt s = .next s1 →
      matchIter s.view = .next s1.view ∧ (s1.ob.BuyOrders ++ s1.ob.SellOrders).Nodup) := by
  refine ⟨?_, ?_, ?_⟩
  · intro h
    rw [matchIterAt_exit_iff] at h
    rw [matchIter_exit_iff]
    intro b bt a st hb ha
    simp only [PtrState.view, PtrBook.view] at hb ha
    obtain ⟨pb, pbt, hpb, rfl, rfl⟩ := List.map_eq_cons_iff.mp hb
    obtain ⟨ps, pst, hps, rfl, rfl⟩ := List.map_eq_cons_iff.mp ha
    exact h pb pbt ps pst hpb hps
  · intro f h
    obtain ⟨pb, bt, ps, st, hb, ha, hp, hst, hset⟩ := matchIterAt_fault h
    have hvb : s.view.ob.BuyOrders = s.objs pb :: bt.map s.objs := by
      simp [PtrState.view, PtrBook.view, hb]
    have hva : s.view.ob.SellOrders = s.objs ps :: st.map s.objs := by
      simp [PtrState.view, PtrBook.view, ha]
    cases hv : matchIter s.view with
    | exit =>
      rw [matchIter_exit_iff] at hv
      exact absurd ⟨hp, hst⟩ (hv _ _ _ _ hvb hva)
    | next v1 =>
      obtain ⟨b, bt1, a, st1, hb1, ha1, _, _, hset1, _⟩ := matchIter_next hv
      rw [hvb] at hb1
      rw [hva] at ha1
      obtain ⟨rfl, _⟩ := List.cons.inj hb1
      obtain ⟨rfl, _⟩ := List.cons.inj ha1
      have ht : s.view.traders = s.traders := rfl
      rw [ht, hset] at hset1
      exact absurd hset1 (by simp)
    | fault f1 =>
      obtain ⟨b, bt1, a, st1, hb1, ha1, _, _, hset1⟩ := matchIter_fault hv
      rw [hvb] at hb1
      rw [hva] at ha1
      obtain ⟨rfl, _⟩ := List.cons.inj hb1
      obtain ⟨rfl, _⟩ := List.cons.inj ha1
      have ht : s.view.traders = s.traders := rfl
      rw [ht, hset] at hset1
      simp only [Except.error.injEq] at hset1
      rw [hset1]
  · intro s1 h
    obtain ⟨pb, bt, ps, st, hb, ha, hp, hst, hobjs, hset, htx, hQ1, hQ2⟩ := matchIterAt_next h
    have hvb : s.view.ob.BuyOrders = s.objs pb :: bt.map s.objs := by
      simp [PtrState.view, PtrBook.view, hb]
    have hva : s.view.ob.SellOrders = s.objs ps :: st.map s.objs := by
      simp [PtrState.view, PtrBook.view, ha]
    rw [hb, ha] at hnd
    have hndB : (pb :: bt).Nodup := (List.nodup_append.mp hnd).1
    have hndS : (ps :: st).Nodup := (List.nodup_append.mp hnd).2.1
    have hdis := (List.nodup_append.mp hnd).2.2
    have hne : pb ≠ ps := fun e =>
      hdis (List.mem_cons_self pb bt) (by rw [e]; exact List.mem_cons_self ps st)
    have hpb_bt : pb ∉ bt := (List.nodup_cons.mp hndB).1
    have hps_st : ps ∉ st := (List.nodup_cons.mp hndS).1
    have hps_bt : ps ∉ bt := fun hx =>
      hdis (List.mem_cons_of_mem _ hx) (List.mem_cons_self ps st)
    have hpb_st : pb ∉ st := fun hx =>
      hdis (List.mem_cons_self pb bt) (List.mem_cons_of_mem _ hx)
    have o1 : s1.objs pb = fill (s.objs pb) (min (s.objs pb).Quantity (s.objs ps).Quantity) := by
      rw [hobjs]
      unfold fillAt
      simp [hne]
    have o2 : s1.objs ps = fill (s.objs ps) (min (s.objs pb).Quantity (s.objs ps).Quantity) := by
      rw [hobjs]
      unfold fillAt
      have : ¬ ps = pb := fun e => hne e.symm
      simp [this]
    have o3 : ∀ x, x ≠ pb → x ≠ ps → s1.objs x = s.objs x := by
      intro x h1 h2
      rw [hobjs]
      unfold fillAt
      simp [h1, h2]
    have m1 : bt.map s1.objs = bt.map s.objs :=
      List.map_congr_left (fun x hx =>
        o3 x (fun e => hpb_bt (e ▸ hx)) (fun e => hps_bt (e ▸ hx)))
    have m2 : st.map s1.objs = st.map s.objs :=
      List.map_congr_left (fun x hx =>
        o3 x (fun e => hpb_st (e ▸ hx)) (fun e => hps_st (e ▸ hx)))
    constructor
    · cases hv : matchIter s.view with
      | exit =>
        rw [matchIter_exit_iff] at hv
        exact absurd ⟨hp, hst⟩ (hv _ _ _ _ hvb hva)
      | fault f1 =>
        obtain ⟨b, bt1, a, st1, hb1, ha1, _, _, hset1⟩ := matchIter_fault hv
        rw [hvb] at hb1
        rw [hva] at ha1
        obtain ⟨rfl, _⟩ := List.cons.inj hb1
        obtain ⟨rfl, _⟩ := List.cons.inj ha1
        have ht : s.view.traders = s.traders := rfl
        rw [ht, hset] at hset1
        exact absurd hset1 (by simp)
      | next v1 =>
        obtain ⟨b, bt1, a, st1, hb1, ha1, _, _, hset1, htx1, hV1, hV2⟩ := matchIter_next hv
        rw [hvb] at hb1
        rw [hva] at ha1
        obtain ⟨rfl, rfl⟩ := List.cons.inj hb1
        obtain ⟨rfl, rfl⟩ := List.cons.inj ha1
        have ht : s.view.traders = s.traders := rfl
        rw [ht, hset] at hset1
        simp only [Except.ok.injEq] at hset1
        rw [← o1, ← m1] at hV1
        rw [← o2, ← m2] at hV2
        have e1 := queueAfterAt_view hQ1 hV1
        have e2 := queueAfterAt_view hQ2 hV2
        have e3 : v1.transactions = s1.transactions := by
          rw [htx1, htx]
          rfl
        congr 1
        cases v1 with
        | mk vob vtr vtx =>
          cases vob with
          | mk vb vs =>
            simp only at e1 e2 e3 hset1
            subst e1 e2 e3 hset1
            rfl
    · rw [List.nodup_append]
      refine ⟨queueAfterAt_nodup hQ1 hndB, queueAfterAt_nodup hQ2 hndS, ?_⟩
      intro x hx1 hx2
      exact hdis (queueAfterAt_subset hQ1 x hx1) (queueAfterAt_subset hQ2 x hx2)

/-- On a book whose slots hold distinct pointers, the loop of `MatchOrders` does to the
orders pointed to what `matchLoop` does to a book of orders. -/
theorem matchLoopAt_refines : ∀ (fuel : Nat) (s : PtrState),
    (s.ob.BuyOrders ++ s.ob.SellOrders).Nodup →
    (∀ r, matchLoopAt fuel s = .ok r →
      matchLoop fuel s.view = .ok r.view ∧ (r.ob.BuyOrders ++ r.ob.SellOrders).Nodup) ∧
    (∀ f, matchLoopAt fuel s = .error f → matchLoop fuel s.view = .error f)
  | 0, s, _ => by
    unfold matchLoopAt matchLoop
    simp
  | fuel + 1, s, hnd => by
    obtain ⟨r1, r2, r3⟩ := matchIterAt_refines hnd
    unfold matchLoopAt matchLoop
    cases hm : matchIterAt s with
    | exit =>
      rw [r1 hm]
      simp only [Except.ok.injEq, reduceCtorEq, false_implies, implies_true, and_true]
      intro r hr
      subst hr
      exact ⟨rfl, hnd⟩
    | fault f =>
      rw [r2 f hm]
      simp
    | next s1 =>
      obtain ⟨hv, hnd1⟩ := r3 s1 hm
      rw [hv]
      exact matchLoopAt_refines fuel s1 hnd1

/-- On a book whose slots hold distinct pointers, `MatchOrders` does to the orders pointed
to what `MatchOrders` does to a book of orders: it returns, or panics, in the one model
exactly when it does in the other, with the same transactions and traders and, slot by
slot, the same orders. -/
theorem matchOrders_refines (objs : Objects) (ob : PtrBook) (traders : Traders)
    (hnd : (ob.BuyOrders ++ ob.SellOrders).Nodup) :
    (∀ r, ob.MatchOrders objs traders = .ok r →
      (ob.view objs).MatchOrders traders = .ok r.view
        ∧ (r.ob.BuyOrders ++ r.ob.SellOrders).Nodup) ∧
    (∀ f, ob.MatchOrders objs traders = .error f →
      (ob.view objs).MatchOrders traders = .error f) := by
  have h := matchLoopAt_refines (ob.BuyOrders.length + ob.SellOrders.length + 1)
    { objs := objs, ob := ob, traders := traders, transactions := [] } hnd
  unfold PtrBook.MatchOrders OrderBook.MatchOrders
  simp only [PtrBook.view, List.length_map]
  exact h

/-- A reachable book of pointers holds distinct pointers, and the orders pointed to form a
reachable book of orders. -/
theorem reachableAt_view {P : Order → Prop} {objs : Objects} {ob : PtrBook}
    (h : ReachableAt P objs ob) :
    (ob.BuyOrders ++ ob.SellOrders).Nodup ∧ Reachable P (ob.view objs) := by
  induction h with
  | new objs => exact ⟨by simp [NewPtrBook], Reachable.new⟩
  | add objs ob order _ hfresh hP ih =>
    refine ⟨?_, ?_⟩
    · have hnd := ih.1
      unfold PtrBook.AddOrder
      split
      · have hp := heapPushOf_perm (ptrLess objs) ob.BuyOrders order
        have : (order :: (ob.BuyOrders ++ ob.SellOrders)).Nodup :=
          List.nodup_cons.mpr ⟨hfresh, hnd⟩
        exact ((hp.append_right ob.SellOrders).nodup_iff).mpr this
      · have hp := heapPushOf_perm (ptrLess objs) ob.SellOrders order
        have : (ob.BuyOrders ++ order :: ob.SellOrders).Nodup :=
          (List.perm_middle.nodup_iff).mpr (List.nodup_cons.mpr ⟨hfresh, hnd⟩)
        exact ((hp.append_left ob.BuyOrders).nodup_iff).mpr this
    · rw [addOrder_view]
      exact Reachable.add _ _ ih.2 hP
  | matched objs ob traders r _ hm ih =>
    obtain ⟨h1, h2⟩ := (matchOrders_refines objs ob traders ih.1).1 r hm
    exact ⟨h2, Reachable.matched _ traders r.view ih.2 h1⟩
  | other objs objs1 ob _ hsame ih =>
    refine ⟨ih.1, ?_⟩
    rw [view_congr hsame]
    exact ih.2

/-- On a book whose slots hold distinct pointers, every state that the pass on the orders
pointed to goes through is the view of a state of the pass on the pointers. -/
theorem iterates_lift (s0 : PtrState) (hnd : (s0.ob.BuyOrders ++ s0.ob.SellOrders).Nodup)
    {v : MatchState} (h : Iterates s0.view v) :
    ∃ s, IteratesAt s0 s ∧ s.view = v ∧ (s.ob.BuyOrders ++ s.ob.SellOrders).Nodup := by
  induction h with
  | start => exact ⟨s0, IteratesAt.start, rfl, hnd⟩
  | step v v1 _ hn ih =>
    obtain ⟨s, hit, hv, hnds⟩ := ih
    obtain ⟨r1, r2, r3⟩ := matchIterAt_refines hnds
    rw [← hv] at hn
    cases hm : matchIterAt s with
    | exit =>
      rw [r1 hm] at hn
      exact absurd hn (by simp)
    | fault f =>
      rw [r2 f hm] at hn
      exact absurd hn (by simp)
    | next s1 =>
      obtain ⟨e, hnd1⟩ := r3 s1 hm
      rw [e] at hn
      simp only [Step.next.injEq] at hn
      exact ⟨s1, IteratesAt.step s s1 hit hm, hn, hnd1⟩

/-- The step of a pass on the orders pointed to, seen on the pointers. -/
theorem matchIter_view_next {s : PtrState}
    (hnd : (s.ob.BuyOrders ++ s.ob.SellOrders).Nodup) {v1 : MatchState} {b a : Order}
    {bt st : PriorityQueue} (hn : matchIter s.view = .next v1)
    (hb : s.view.ob.BuyOrders = b :: bt) (ha : s.view.ob.SellOrders = a :: st) :
    ∃ s1 pb pbt ps pst, matchIterAt s = .next s1 ∧ s.ob.BuyOrders = pb :: pbt
      ∧ s.ob.SellOrders = ps :: pst ∧ s.objs pb = b ∧ s.objs ps = a := by
  obtain ⟨r1, r2, r3⟩ := matchIterAt_refines hnd
  simp only [PtrState.view, PtrBook.view] at hb ha
  obtain ⟨pb, pbt, hpb, e1, _⟩ := List.map_eq_cons_iff.mp hb
  obtain ⟨ps, pst, hps, e2, _⟩ := List.map_eq_cons_iff.mp ha
  cases hm : matchIterAt s with
  | exit =>
    rw [r1 hm] at hn
    exact absurd hn (by simp)
  | fault f =>
    rw [r2 f hm] at hn
    exact absurd hn (by simp)
  | next s1 => exact ⟨s1, pb, pbt, ps, pst, rfl, hpb, hps, e1, e2⟩

/-- Cash and reserved cash over a pass on a book of orders none of whose iterations
overflows in the subtraction from the head buy order. -/
theorem matchOrders_cash (ob : OrderBook) (traders : Traders) (K : Finset Int)
    (hK : ∀ o ∈ ob.BuyOrders ++ ob.SellOrders, o.TraderID ∈ K) (s : MatchState)
    (hm : ob.MatchOrders traders = .ok s)
    (hw : ∀ s1 s2 b bt a st, Iterates (MatchState.mk ob traders []) s1 →
      matchIter s1 = .next s2 → s1.ob.BuyOrders = b :: bt → s1.ob.SellOrders = a :: st →
      wrapInt (b.Quantity - (trade b a).Quantity) = b.Quantity - (trade b a).Quantity) :
    cashTotal s.traders K + reservedCash s.ob.BuyOrders
      = cashTotal traders K + reservedCash ob.BuyOrders := by
  have hKB : ∀ o ∈ ob.BuyOrders, o.TraderID ∈ K :=
    fun o ho => hK o (List.mem_append_left _ ho)
  have hKS : ∀ o ∈ ob.SellOrders, o.TraderID ∈ K :=
    fun o ho => hK o (List.mem_append_right _ ho)
  exact matchLoop_ok_from (MatchState.mk ob traders [])
    (fun x => cashTotal x.traders K + reservedCash x.ob.BuyOrders
      = cashTotal traders K + reservedCash ob.BuyOrders)
    (fun x y hit hi hn =>
      (matchIter_next_cash hn K
        (iterates_forall (fun o => o.TraderID ∈ K) (fun _ _ hx => hx) hit ⟨hKB, hKS⟩)
        (fun b bt a st hb ha => hw x y b bt a st hit hn hb ha)).trans hi)
    _ _ _ Iterates.start rfl hm

/-- Shares over a pass on a book of orders of one stock: the total is kept modulo `2^64`,
and the entries of the other stocks are kept. -/
theorem matchOrders_shares (stock : String) (ob : OrderBook) (traders : Traders)
    (K : Finset Int) (hst : ∀ o ∈ ob.BuyOrders ++ ob.SellOrders, o.Stock = stock)
    (hK : ∀ o ∈ ob.BuyOrders, o.TraderID ∈ K) (s : MatchState)
    (hm : ob.MatchOrders traders = .ok s) :
    (holdings s.traders K stock + restingTotal s.ob.SellOrders
      ≡ holdings traders K stock + restingTotal ob.SellOrders [ZMOD 2 ^ 64]) ∧
    (∀ k other, other ≠ stock → heldOf s.traders k other = heldOf traders k other) := by
  have hstB : ∀ o ∈ ob.BuyOrders, o.Stock = stock :=
    fun o ho => hst o (List.mem_append_left _ ho)
  have hmod := (matchLoop_ok
    (fun x => (∀ o ∈ x.ob.BuyOrders, o.Stock = stock)
      ∧ (∀ o ∈ x.ob.BuyOrders, o.TraderID ∈ K)
      ∧ (holdings x.traders K stock + restingTotal x.ob.SellOrders
          ≡ holdings traders K stock + restingTotal ob.SellOrders [ZMOD 2 ^ 64])
      ∧ (∀ k other, other ≠ stock → heldOf x.traders k other = heldOf traders k other))
    (fun x y hi hn => by
      obtain ⟨h1, h2, h3, h4⟩ := hi
      refine ⟨(matchIter_next_forall (fun o => o.Stock = stock) (fun _ _ hx => hx) hn).1 h1,
        (matchIter_next_forall (fun o => o.TraderID ∈ K) (fun _ _ hx => hx) hn).1 h2, ?_, ?_⟩
      · obtain ⟨b, bt, a, st, hb, _, heq⟩ := matchIter_next_shares hn K h2
        have hbs : b.Stock = stock := h1 b (by rw [hb]; exact List.mem_cons_self _ _)
        rw [hbs] at heq
        have m1 := wrapInt_modEq
          ((heldOf x.traders b.TraderID stock).getD 0 + min b.Quantity a.Quantity)
        have m2 := wrapInt_modEq (a.Quantity - min b.Quantity a.Quantity)
        rw [heq]
        unfold Int.ModEq at h3 m1 m2 ⊢
        omega
      · intro k other ho
        rw [matchIter_next_other_stock hn stock h1 k other ho]
        exact h4 k other ho)
    _ _ _ ⟨hstB, hK, Int.ModEq.refl _, fun _ _ _ => rfl⟩ hm).1
  exact ⟨hmod.2.2.1, hmod.2.2.2⟩

/-- Shares over a pass on a book of orders of one stock none of whose iterations overflows
in the addition to the buyer's `Portfolio` entry or in the subtraction from the head sell
order: the total is kept. -/
theorem matchOrders_shares_exact (stock : String) (ob : OrderBook) (traders : Traders)
    (K : Finset Int) (hst : ∀ o ∈ ob.BuyOrders ++ ob.SellOrders, o.Stock = stock)
    (hK : ∀ o ∈ ob.BuyOrders, o.TraderID ∈ K) (s : MatchState)
    (hm : ob.MatchOrders traders = .ok s)
    (hw : ∀ s1 s2 b bt a st, Iterates (MatchState.mk ob traders []) s1 →
      matchIter s1 = .next s2 → s1.ob.BuyOrders = b :: bt → s1.ob.SellOrders = a :: st →
      wrapInt ((heldOf s1.traders b.TraderID stock).getD 0 + (trade b a).Quantity)
          = (heldOf s1.traders b.TraderID stock).getD 0 + (trade b a).Quantity
        ∧ wrapInt (a.Quantity - (trade b a).Quantity) = a.Quantity - (trade b a).Quantity) :
    holdings s.traders K stock + restingTotal s.ob.SellOrders
      = holdings traders K stock + restingTotal ob.SellOrders := by
  have hstB : ∀ o ∈ ob.BuyOrders, o.Stock = stock :=
    fun o ho => hst o (List.mem_append_left _ ho)
  exact (matchLoop_ok_from (MatchState.mk ob traders [])
    (fun x => (∀ o ∈ x.ob.BuyOrders, o.Stock = stock)
      ∧ (∀ o ∈ x.ob.BuyOrders, o.TraderID ∈ K)
      ∧ holdings x.traders K stock + restingTotal x.ob.SellOrders
        = holdings traders K stock + restingTotal ob.SellOrders)
    (fun x y hit hi hn => by
      obtain ⟨h1, h2, h3⟩ := hi
      refine ⟨(matchIter_next_forall (fun o => o.Stock = stock) (fun _ _ hx => hx) hn).1 h1,
        (matchIter_next_forall (fun o => o.TraderID ∈ K) (fun _ _ hx => hx) hn).1 h2, ?_⟩
      obtain ⟨b, bt, a, st, hb, ha, heq⟩ := matchIter_next_shares hn K h2
      have hbs : b.Stock = stock := h1 b (by rw [hb]; exact List.mem_cons_self _ _)
      rw [hbs] at heq
      obtain ⟨w1, w2⟩ := hw x y b bt a st hit hn hb ha
      have t3 : (trade b a).Quantity = min b.Quantity a.Quantity := rfl
      rw [t3] at w1 w2
      rw [heq, w1, w2, ← h3]
      ring)
    _ _ _ Iterates.start ⟨hstB, hK, rfl⟩ hm).2.2

/-- Shares over a pass on a book of orders of one stock with positive quantities, holdings
that are not negative and a total that a Go `int` can hold: the total is kept. -/
theorem matchOrders_shares_static (stock : String) (ob : OrderBook) (traders : Traders)
    (K : Finset Int) (hst : ∀ o ∈ ob.BuyOrders ++ ob.SellOrders, o.Stock = stock)
    (hK : ∀ o ∈ ob.BuyOrders, o.TraderID ∈ K) (s : MatchState)
    (hm : ob.MatchOrders traders = .ok s)
    (hpos : ∀ o ∈ ob.BuyOrders ++ ob.SellOrders, PosQty o)
    (hnn : ∀ k ∈ K, 0 ≤ (heldOf traders k stock).getD 0)
    (hT : holdings traders K stock + restingTotal ob.SellOrders < 2 ^ 63) :
    holdings s.traders K stock + restingTotal s.ob.SellOrders
      = holdings traders K stock + restingTotal ob.SellOrders :=
  ((matchLoop_ok
    (fun x => (∀ o ∈ x.ob.BuyOrders, o.Stock = stock)
      ∧ (∀ o ∈ x.ob.BuyOrders, o.TraderID ∈ K)
      ∧ ((∀ o ∈ x.ob.BuyOrders, PosQty o) ∧ (∀ o ∈ x.ob.SellOrders, PosQty o))
      ∧ (∀ k ∈ K, 0 ≤ (heldOf x.traders k stock).getD 0)
      ∧ holdings x.traders K stock + restingTotal x.ob.SellOrders
          = holdings traders K stock + restingTotal ob.SellOrders)
    (fun _ _ hi hn => matchIter_next_shares_exact hn stock K _ hT hi)
    _ _ _ ⟨fun o ho => hst o (List.mem_append_left _ ho), hK,
      ⟨fun o ho => hpos o (List.mem_append_left _ ho),
        fun o ho => hpos o (List.mem_append_right _ ho)⟩, hnn, rfl⟩ hm).1).2.2.2.2

theorem view_forall {objs : Objects} {ob : PtrBook} {Q : Order → Prop}
    (h : ∀ x ∈ ob.BuyOrders ++ ob.SellOrders, Q (objs x)) :
    ∀ o ∈ (ob.view objs).BuyOrders ++ (ob.view objs).SellOrders, Q o := by
  intro o ho
  simp only [PtrBook.view, ← List.map_append, List.mem_map] at ho
  obtain ⟨x, hx, rfl⟩ := ho
  exact h x hx

theorem view_forall_buy {objs : Objects} {ob : PtrBook} {Q : Order → Prop}
    (h : ∀ x ∈ ob.BuyOrders, Q (objs x)) : ∀ o ∈ (ob.view objs).BuyOrders, Q o := by
  intro o ho
  simp only [PtrBook.view, List.mem_map] at ho
  obtain ⟨x, hx, rfl⟩ := ho
  exact h x hx

/-! ## Passes that do not end -/

theorem iteratesAt_head {s s1 s2 : PtrState} (hn : matchIterAt s = .next s1)
    (h : IteratesAt s1 s2) : IteratesAt s s2 := by
  induction h with
  | start => exact IteratesAt.step s s1 IteratesAt.start hn
  | step x y _ hxy ih => exact IteratesAt.step x y ih hxy

/-- A pass that returns goes on from each of its states to the same result. -/
theorem iteratesAt_run {s0 s r : PtrState} (h : IteratesAt s0 s) :
    ∀ fuel, matchLoopAt fuel s0 = .ok r → ∃ fuel1, matchLoopAt fuel1 s = .ok r := by
  induction h with
  | start => exact fun fuel hr => ⟨fuel, hr⟩
  | step x y _ hxy ih =>
    intro fuel hr
    obtain ⟨f1, h1⟩ := ih fuel hr
    cases f1 with
    | zero =>
      unfold matchLoopAt at h1
      exact absurd h1 (by simp)
    | succ n =>
      unfold matchLoopAt at h1
      rw [hxy] at h1
      exact ⟨n, h1⟩

/-- A pass does not return once it has come to a stuck state. -/
theorem iteratesAt_stuck {s0 s : PtrState} (h : IteratesAt s0 s) (hs : Stuck s)
    (fuel : Nat) (r : PtrState) : matchLoopAt fuel s0 ≠ .ok r := by
  intro hr
  obtain ⟨f1, h1⟩ := iteratesAt_run h fuel hr
  exact stuck_never_returns f1 s r hs h1

/-- From a stuck state whose traders can be settled the loop goes on for ever: whatever
the fuel, it is exhausted. -/
theorem stuck_loops : ∀ (fuel : Nat) (s : PtrState), Stuck s →
    TradersReady s.traders (s.ob.view s.objs) → matchLoopAt fuel s = .error .fuel
  | 0, _, _, _ => rfl
  | fuel + 1, s, hs, hr => by
    unfold matchLoopAt
    rcases matchIterAt_ready hr with he | ⟨s1, hn, hr1⟩
    · exact absurd he (stuck_not_exit hs)
    · rw [hn]
      exact stuck_loops fuel s1 (stuck_next hs hn) hr1

/-- Whatever the fuel, a failure of the loop other than exhausted fuel is a nil `*Trader`
or a nil `Portfolio` map. -/
theorem matchLoopAt_error : ∀ (fuel : Nat) (s : PtrState) (f : Fault),
    matchLoopAt fuel s = .error f → f = .fuel ∨ f = .nilTrader ∨ f = .nilMap
  | 0, _, f, h => by
    unfold matchLoopAt at h
    simp only [Except.error.injEq] at h
    exact Or.inl h.symm
  | fuel + 1, s, f, h => by
    unfold matchLoopAt at h
    split at h
    · exact absurd h (by simp)
    · exact matchLoopAt_error fuel _ f h
    · rename_i f1 hf
      simp only [Except.error.injEq] at h
      subst h
      obtain ⟨_, _, _, _, _, _, _, _, hset⟩ := matchIterAt_fault hf
      exact Or.inr (settle_error hset)

/-- With more fuel than the book has slots, the loop exhausts its fuel only by coming to a
stuck state. -/
theorem matchLoopAt_fuel : ∀ (fuel : Nat) (s : PtrState),
    s.ob.BuyOrders.length + s.ob.SellOrders.length < fuel →
    matchLoopAt fuel s = .error .fuel → ∃ s1, IteratesAt s s1 ∧ Stuck s1
  | 0, _, h, _ => absurd h (Nat.not_lt_zero _)
  | fuel + 1, s, h, he => by
    unfold matchLoopAt at he
    split at he
    · exact absurd he (by simp)
    · rename_i s1 hn
      rcases matchIterAt_next_length hn with hlt | hst
      · obtain ⟨s2, hit, hs2⟩ := matchLoopAt_fuel fuel s1 (by omega) he
        exact ⟨s2, iteratesAt_head hn hit, hs2⟩
      · exact ⟨s1, IteratesAt.step s s1 IteratesAt.start hn, hst⟩
    · rename_i f hf
      simp only [Except.error.injEq] at he
      subst he
      obtain ⟨_, _, _, _, _, _, _, _, hset⟩ := matchIterAt_fault hf
      rcases settle_error hset with h1 | h1 <;> exact absurd h1 (by simp)

theorem iteratesAt_disjoint {s0 s : PtrState} (h : IteratesAt s0 s)
    (hd : ∀ x ∈ s0.ob.BuyOrders, x ∉ s0.ob.SellOrders) :
    (∀ x ∈ s.ob.BuyOrders, x ∉ s.ob.SellOrders) ∧ ¬ Stuck s := by
  induction h with
  | start =>
    refine ⟨hd, ?_⟩
    rintro ⟨x, bt, st, e1, e2, _⟩
    exact hd x (by rw [e1]; simp) (by rw [e2]; simp)
  | step x y _ hxy ih => exact matchIterAt_next_disjoint hxy ih.1

/-- The number of transactions that a run of the loop which returns adds: none when a
queue is empty, and fewer than the book has slots otherwise. -/
theorem matchLoopAt_count : ∀ (fuel : Nat) (s r : PtrState), matchLoopAt fuel s = .ok r →
    ((s.ob.BuyOrders = [] ∨ s.ob.SellOrders = []) → r.transactions = s.transactions) ∧
    r.transactions.length
      ≤ s.transactions.length + (s.ob.BuyOrders.length + s.ob.SellOrders.length - 1)
  | 0, _, _, h => by
    unfold matchLoopAt at h
    exact absurd h (by simp)
  | fuel + 1, s, r, h => by
    unfold matchLoopAt at h
    split at h
    · simp only [Except.ok.injEq] at h
      subst h
      exact ⟨fun _ => rfl, Nat.le_add_right _ _⟩
    · rename_i s1 hn
      obtain ⟨pb, bt, ps, st, hb, ha, _, _, _, _, htx, _, _⟩ := matchIterAt_next hn
      have hlen : s1.ob.BuyOrders.length + s1.ob.SellOrders.length
          < s.ob.BuyOrders.length + s.ob.SellOrders.length := by
        rcases matchIterAt_next_length hn with hlt | hst
        · exact hlt
        · exact absurd h (stuck_never_returns fuel s1 r hst)
      have ih := matchLoopAt_count fuel s1 r h
      have hl : s1.transactions.length = s.transactions.length + 1 := by rw [htx]; simp
      constructor
      · intro he
        rcases he with he | he
        · rw [hb] at he; exact absurd he (by simp)
        · rw [ha] at he; exact absurd he (by simp)
      · rw [hb, ha] at hlen ⊢
        simp only [List.length_cons] at hlen ⊢
        have h2 := ih.2
        rw [hl] at h2
        by_cases he : s1.ob.BuyOrders = []
        · have h3 := ih.1 (Or.inl he)
          rw [h3, hl]
          omega
        · have hb1 : 0 < s1.ob.BuyOrders.length := List.length_pos.mpr he
          omega
    · exact absurd h (by simp)

theorem flipBook_stuck : Stuck (PtrState.mk flipObjs flipBook mainTraders []) :=
  ⟨0, [], [], by decide, by decide, by decide⟩

/-- In a pass that returns, on a book whose objects hold quantities from `0` on, every
state has such quantities. -/
theorem iteratesAt_good {U : Nat → Prop} {s0 s : PtrState} (hg : GoodAt U s0)
    (hret : ∃ fuel r, matchLoopAt fuel s0 = .ok r) (h : IteratesAt s0 s) : GoodAt U s := by
  induction h with
  | start => exact hg
  | step x y hx hxy ih =>
    obtain ⟨fuel, r, hr⟩ := hret
    have hns : ¬ Stuck y := fun hst =>
      iteratesAt_stuck (IteratesAt.step x y hx hxy) hst fuel r hr
    obtain ⟨_, _, _, _, _, _, hgy, _⟩ := matchIterAt_next_good ih hxy hns
    exact hgy

/-! ## The claims -/

/-- C1 (no-cross postcondition).  On a book built from `NewOrderBook` by `AddOrder` calls
whose orders all carry the stock `stock` and by `MatchOrders` calls, a `MatchOrders` call
never exhausts its loop bound and returns whenever the traders of the resting orders can
be settled; and when it returns, a queue is empty or the head of
`BuyOrders` is priced strictly below the head of `SellOrders`; moreover every resting buy
order is then priced strictly below every resting sell order. -/
theorem matchOrders_no_cross (stock : String) (ob : OrderBook)
    (hr : Reachable (fun o => o.Stock = stock) ob) (traders : Traders) :
    ob.MatchOrders traders ≠ .error .fuel ∧
    (TradersReady traders ob → ∃ s, ob.MatchOrders traders = .ok s) ∧
    ∀ s, ob.MatchOrders traders = .ok s →
      (s.ob.BuyOrders = [] ∨ s.ob.SellOrders = [] ∨
        ∃ b bt a st, s.ob.BuyOrders = b :: bt ∧ s.ob.SellOrders = a :: st
          ∧ b.Price < a.Price) ∧
      (∀ b ∈ s.ob.BuyOrders, ∀ a ∈ s.ob.SellOrders, b.Price < a.Price) := by
  refine ⟨matchOrders_ne_fuel ob traders, matchOrders_returns ob traders, ?_⟩
  intro s hm
  have hexit := (matchLoop_ok (fun _ => True) (fun _ _ _ _ => trivial) _ _ _ trivial hm).2
  have hwf : WellFormed s.ob := wellFormed_matchOrders (reachable_wellFormed hr) hm
  have hst := matchOrders_forall (fun o => o.Stock = stock) (fun _ _ h => h) hm
    (reachable_forall_orders _ (fun _ h => h) (fun _ _ h => h) hr)
  rw [matchIter_exit_iff] at hexit
  cases hb : s.ob.BuyOrders with
  | nil => exact ⟨Or.inl rfl, fun b h => absurd h (List.not_mem_nil _)⟩
  | cons b bt =>
    cases ha : s.ob.SellOrders with
    | nil => exact ⟨Or.inr (Or.inl rfl), fun _ _ a h => absurd h (List.not_mem_nil _)⟩
    | cons a st =>
      have hbs : b.Stock = stock := hst.1 b (by rw [hb]; exact List.mem_cons_self _ _)
      have has : a.Stock = stock := hst.2 a (by rw [ha]; exact List.mem_cons_self _ _)
      have hlt : b.Price < a.Price := by
        by_contra hc
        exact hexit b bt a st hb ha ⟨not_lt.mp hc, hbs.trans has.symm⟩
      refine ⟨Or.inr (Or.inr ⟨b, bt, a, st, rfl, rfl, hlt⟩), ?_⟩
      intro x hx y hy
      have h1 := hwf.buyHeap
      have h2 := hwf.sellHeap
      rw [hb] at h1
      rw [ha] at h2
      have k1 := isHeap_head_le h1 x hx
      have k2 := isHeap_head_le h2 y hy
      simp only [prio, ↓reduceIte, Bool.false_eq_true] at k1 k2
      linarith

/-- Price priority for prices that are numbers.  In every book of orders reachable from
`NewOrderBook` by `AddOrder` and `MatchOrders` calls, the head of a non-empty `BuyOrders`
has a price greater than or equal to the price of every order in `BuyOrders`, and the head
of a non-empty `SellOrders` has a price less than or equal to the price of every order in
`SellOrders`. -/
theorem price_priority (ob : OrderBook) (hr : Reachable (fun _ => True) ob) :
    (∀ b bt, ob.BuyOrders = b :: bt → ∀ o ∈ ob.BuyOrders, o.Price ≤ b.Price) ∧
    (∀ a st, ob.SellOrders = a :: st → ∀ o ∈ ob.SellOrders, a.Price ≤ o.Price) := by
  have hwf := reachable_wellFormed hr
  constructor
  · intro b bt hb o ho
    have h1 := hwf.buyHeap
    rw [hb] at h1 ho
    have := isHeap_head_le h1 o ho
    simp only [prio, ↓reduceIte] at this
    linarith
  · intro a st ha o ho
    have h1 := hwf.sellHeap
    rw [ha] at h1 ho
    have := isHeap_head_le h1 o ho
    simpa only [prio, Bool.false_eq_true, ↓reduceIte] using this

theorem fifoBook_reachable : Reachable (fun _ => True) fifoBook :=
  Reachable.add _ _ (Reachable.add _ _ (Reachable.add _ _ (Reachable.add _ _
    Reachable.new trivial) trivial) trivial) trivial

/-- Witness of C1: the book holding buys A, B, C of 1@50 and a sell of 3@50, matched
against the traders of `main`. -/
theorem matchOrders_no_cross_witness :
    Reachable (fun o => o.Stock = "AAPL") fifoBook ∧
    (fifoBook.MatchOrders mainTraders ≠ .error .fuel ∧
    (TradersReady mainTraders fifoBook → ∃ s, fifoBook.MatchOrders mainTraders = .ok s) ∧
    ∀ s, fifoBook.MatchOrders mainTraders = .ok s →
      (s.ob.BuyOrders = [] ∨ s.ob.SellOrders = [] ∨
        ∃ b bt a st, s.ob.BuyOrders = b :: bt ∧ s.ob.SellOrders = a :: st
          ∧ b.Price < a.Price) ∧
      (∀ b ∈ s.ob.BuyOrders, ∀ a ∈ s.ob.SellOrders, b.Price < a.Price)) :=
  have hr : Reachable (fun o => o.Stock = "AAPL") fifoBook :=
    Reachable.add _ _ (Reachable.add _ _ (Reachable.add _ _ (Reachable.add _ _
      Reachable.new rfl) rfl) rfl) rfl
  ⟨hr, matchOrders_no_cross "AAPL" fifoBook hr mainTraders⟩

/-- Price priority at a scenario of the spec: Buy 10@50 then Buy 5@55 leaves the 55 order
at the head. -/
theorem price_priority_witness :
    Reachable (fun _ => True) ((NewOrderBook.AddOrder (buyAt 1 10 50)).AddOrder (buyAt 2 5 55)) ∧
    ((NewOrderBook.AddOrder (buyAt 1 10 50)).AddOrder (buyAt 2 5 55)).BuyOrders
      = [buyAt 2 5 55, buyAt 1 10 50] ∧
    ((∀ b bt, ((NewOrderBook.AddOrder (buyAt 1 10 50)).AddOrder (buyAt 2 5 55)).BuyOrders
        = b :: bt →
      ∀ o ∈ ((NewOrderBook.AddOrder (buyAt 1 10 50)).AddOrder (buyAt 2 5 55)).BuyOrders,
        o.Price ≤ b.Price) ∧
    (∀ a st, ((NewOrderBook.AddOrder (buyAt 1 10 50)).AddOrder (buyAt 2 5 55)).SellOrders
        = a :: st →
      ∀ o ∈ ((NewOrderBook.AddOrder (buyAt 1 10 50)).AddOrder (buyAt 2 5 55)).SellOrders,
        a.Price ≤ o.Price)) :=
  have hr : Reachable (fun _ => True)
      ((NewOrderBook.AddOrder (buyAt 1 10 50)).AddOrder (buyAt 2 5 55)) :=
    Reachable.add _ _ (Reachable.add _ _ Reachable.new trivial) trivial
  ⟨hr, by decide, price_priority _ hr⟩

/-- C2, the code at the failing input: buys at 50, NaN, 60 and 70 are submitted in that
order.  Every comparison with NaN is `false`, so `heap.Push` leaves the buy at 70 below the
NaN order: `BuyOrders` is 60, NaN, 50, 70, and the head, at 60, is priced below the resting
buy at 70. -/
theorem nan_price_breaks_priority :
    nanBook.BuyOrders.map (fun o => o.Price) = [.num 60, .nan, .num 50, .num 70] ∧
    nanBook.BuyOrders.head? = some (floatBuy 3 (.num 60)) ∧
    floatBuy 4 (.num 70) ∈ nanBook.BuyOrders ∧
    (floatBuy 4 (.num 70)).Price.gt (floatBuy 3 (.num 60)).Price = true :=
  ⟨by decide, by decide, by decide, by decide⟩

/-- Counterexample to C3 as stated: with buys A, B, C of 1@50 submitted in that order
(IDs 1, 2, 3) and a sell of 3@50, the first iteration trades A and leaves C at the head of
`BuyOrders` in front of B, which still rests with quantity 1; the pass trades in the order
A, C, B. -/
theorem fifo_counterexample :
    fifoBook.BuyOrders = [buyAt 1 1 50, buyAt 2 1 50, buyAt 3 1 50] ∧
    (∃ s1, matchIter { ob := fifoBook, traders := mainTraders, transactions := [] } = .next s1
      ∧ s1.ob.BuyOrders = [buyAt 3 1 50, buyAt 2 1 50]) ∧
    (∃ s, fifoBook.MatchOrders mainTraders = .ok s
      ∧ s.transactions.map (fun t => t.BuyOrderID) = [1, 3, 2]) := by
  refine ⟨by decide, ⟨_, rfl, by decide⟩, ⟨_, rfl, by decide⟩⟩

/-- C3, amended (price priority without FIFO).  With prices that are numbers, taken as
exact, in a `MatchOrders` pass on a reachable book every iteration that emits a transaction
trades the heads of the two queues, and no resting order of the same side is priced
strictly better than the order traded against.  Nothing orders the resting orders of equal
price by submission. -/
theorem head_served_by_price (ob : OrderBook) (hr : Reachable (fun _ => True) ob)
    (traders : Traders) (s s1 : MatchState)
    (hit : Iterates { ob := ob, traders := traders, transactions := [] } s)
    (hn : matchIter s = .next s1) :
    ∃ b bt a st, s.ob.BuyOrders = b :: bt ∧ s.ob.SellOrders = a :: st
      ∧ s1.transactions = s.transactions ++ [trade b a]
      ∧ (trade b a).BuyOrderID = b.ID ∧ (trade b a).SellOrderID = a.ID
      ∧ (∀ o ∈ s.ob.BuyOrders, o.Price ≤ b.Price)
      ∧ (∀ o ∈ s.ob.SellOrders, a.Price ≤ o.Price) := by
  have hwf : WellFormed s.ob := iterates_wellFormed hit (reachable_wellFormed hr)
  obtain ⟨b, bt, a, st, hb, ha, _, _, _, htx, _, _⟩ := matchIter_next hn
  refine ⟨b, bt, a, st, hb, ha, htx, rfl, rfl, ?_, ?_⟩
  · intro o ho
    have h1 := hwf.buyHeap
    rw [hb] at h1 ho
    have := isHeap_head_le h1 o ho
    simp only [prio, ↓reduceIte] at this
    linarith
  · intro o ho
    have h1 := hwf.sellHeap
    rw [ha] at h1 ho
    have := isHeap_head_le h1 o ho
    simpa only [prio, Bool.false_eq_true, ↓reduceIte] using this

/-- Witness of the amended C3: the first iteration on the book of buys A, B, C. -/
theorem head_served_by_price_witness :
    ∃ s1, matchIter { ob := fifoBook, traders := mainTraders, transactions := [] } = .next s1 ∧
      ∃ b bt a st, fifoBook.BuyOrders = b :: bt ∧ fifoBook.SellOrders = a :: st
        ∧ s1.transactions = [] ++ [trade b a]
        ∧ (trade b a).BuyOrderID = b.ID ∧ (trade b a).SellOrderID = a.ID
        ∧ (∀ o ∈ fifoBook.BuyOrders, o.Price ≤ b.Price)
        ∧ (∀ o ∈ fifoBook.SellOrders, a.Price ≤ o.Price) :=
  ⟨_, rfl, head_served_by_price fifoBook fifoBook_reachable mainTraders _ _ Iterates.start rfl⟩

/-- C4 (trade record of one matching step).  The transaction that an iteration of
`MatchOrders` appends carries the IDs of the orders at the heads of `BuyOrders` and
`SellOrders` at that iteration, the minimum of their two quantities as `Quantity`, and the
sell order's price as `Price`, which is not above the buy order's price. -/
theorem trade_record (s s1 : MatchState) (hn : matchIter s = .next s1) :
    ∃ b bt a st t, s.ob.BuyOrders = b :: bt ∧ s.ob.SellOrders = a :: st
      ∧ s1.transactions = s.transactions ++ [t]
      ∧ t.BuyOrderID = b.ID ∧ t.SellOrderID = a.ID
      ∧ t.Quantity = Min.min b.Quantity a.Quantity
      ∧ t.Price = a.Price ∧ t.Price ≤ b.Price := by
  obtain ⟨b, bt, a, st, hb, ha, hp, _, _, htx, _, _⟩ := matchIter_next hn
  exact ⟨b, bt, a, st, trade b a, hb, ha, htx, rfl, rfl, min_eq_min _ _, rfl, hp⟩

/-- Witness of C4: Buy 5@52 against Sell 10@50. -/
theorem trade_record_witness :
    ∃ s1, matchIter { ob := pairBook, traders := mainTraders, transactions := [] } = .next s1 ∧
      ∃ b bt a st t, pairBook.BuyOrders = b :: bt ∧ pairBook.SellOrders = a :: st
        ∧ s1.transactions = [] ++ [t]
        ∧ t.BuyOrderID = b.ID ∧ t.SellOrderID = a.ID
        ∧ t.Quantity = Min.min b.Quantity a.Quantity
        ∧ t.Price = a.Price ∧ t.Price ≤ b.Price :=
  ⟨_, rfl, trade_record { ob := pairBook, traders := mainTraders, transactions := [] } _ rfl⟩

/-- C6 (no trade on a price gap).  When `BuyOrders` is empty, or `SellOrders` is empty, or
the head of `BuyOrders` is priced strictly below the head of `SellOrders`, `MatchOrders`
returns no transaction and leaves the book (both queues with every order and quantity) and
the traders (cash and portfolios) as they were. -/
theorem no_trade_on_gap (ob : OrderBook) (traders : Traders)
    (h : ob.BuyOrders = [] ∨ ob.SellOrders = [] ∨
      ∃ b bt a st, ob.BuyOrders = b :: bt ∧ ob.SellOrders = a :: st ∧ b.Price < a.Price) :
    ob.MatchOrders traders = .ok { ob := ob, traders := traders, transactions := [] } := by
  have hexit : matchIter { ob := ob, traders := traders, transactions := [] } = .exit := by
    rw [matchIter_exit_iff]
    intro b bt a st hb ha hc
    rcases h with h | h | ⟨b1, bt1, a1, st1, hb1, ha1, hlt⟩
    · rw [h] at hb; exact absurd hb (by simp)
    · rw [h] at ha; exact absurd ha (by simp)
    · simp only at hb ha
      rw [hb] at hb1
      rw [ha] at ha1
      obtain ⟨rfl, _⟩ := List.cons.inj hb1
      obtain ⟨rfl, _⟩ := List.cons.inj ha1
      exact absurd hc.1 (not_le.mpr hlt)
  unfold OrderBook.MatchOrders matchLoop
  rw [hexit]

/-- Witness of C6, the scenario of the spec: Sell 10@60 then Buy 10@55. -/
theorem no_trade_on_gap_witness :
    gapBook = { BuyOrders := [buyAt 2 10 55], SellOrders := [sellAt 1 10 60] } ∧
    gapBook.MatchOrders mainTraders
      = .ok { ob := gapBook, traders := mainTraders, transactions := [] } :=
  ⟨by decide, no_trade_on_gap gapBook mainTraders
    (Or.inr (Or.inr ⟨buyAt 2 10 55, [], sellAt 1 10 60, [], by decide, by decide, by decide⟩))⟩

/-- Counterexample to C8 as stated: the `Order` object at address `0`, a buy of 5@52, is
submitted twice and a sell of 5@50 once, each call with an order of positive quantity.
`MatchOrders` trades 5, which brings the quantity of both objects to `0`, pops one slot of
each queue and returns: the second slot of the buy object stays in `BuyOrders`, with
`Quantity = 0`. -/
theorem resting_quantity_counterexample :
    PosQty (sameObjs 0) ∧ PosQty (sameObjs 1) ∧
    sameBook = { BuyOrders := [0, 0], SellOrders := [1] } ∧
    ∃ r, sameBook.MatchOrders sameObjs mainTraders = .ok r ∧
      r.transactions.map (fun t => t.Quantity) = [5] ∧
      r.ob = { BuyOrders := [0], SellOrders := [] } ∧ (r.objs 0).Quantity = 0 :=
  ⟨by decide, by decide, by decide, _, rfl, by decide, by decide, by decide⟩

/-- C8, amended (positive resting quantity of orders submitted once).  In every book
reached from an empty book by `AddOrder` calls, each submitting an `Order` object that is
not yet in the book and has `Quantity > 0` (a Go `int`, hence below `2^63`), and by
`MatchOrders` calls that return, the program writing in between only to objects that are
not in the book, every slot of `BuyOrders` and `SellOrders` points to an order with
`Quantity > 0`. -/
theorem resting_quantity_positive (objs : Objects) (ob : PtrBook)
    (hr : ReachableAt PosQty objs ob) :
    ∀ x ∈ ob.BuyOrders ++ ob.SellOrders, 0 < (objs x).Quantity := by
  obtain ⟨_, hv⟩ := reachableAt_view hr
  have hp := reachable_posQty hv
  intro x hx
  rcases List.mem_append.mp hx with h | h
  · exact (hp.1 (objs x) (by simp only [PtrBook.view, List.mem_map]; exact ⟨x, h, rfl⟩)).1
  · exact (hp.2 (objs x) (by simp only [PtrBook.view, List.mem_map]; exact ⟨x, h, rfl⟩)).1

/-- Witness of the amended C8: the buy of 5@52 and the sell of 10@50 are submitted once
each and matched; the sell order rests with quantity 5. -/
theorem resting_quantity_positive_witness :
    ∃ r, pairPtrBook.MatchOrders twiceObjs mainTraders = .ok r ∧
      r.ob = { BuyOrders := [], SellOrders := [1] } ∧ (r.objs 1).Quantity = 5 ∧
      ReachableAt PosQty r.objs r.ob ∧
      ∀ x ∈ r.ob.BuyOrders ++ r.ob.SellOrders, 0 < (r.objs x).Quantity :=
  have hr : ReachableAt PosQty twiceObjs pairPtrBook :=
    ReachableAt.add _ _ 1 (ReachableAt.add _ _ 0 (ReachableAt.new _) (by decide) (by decide))
      (by decide) (by decide)
  ⟨_, rfl, by decide, by decide, ReachableAt.matched _ _ mainTraders _ hr rfl,
    resting_quantity_positive _ _ (ReachableAt.matched _ _ mainTraders _ hr rfl)⟩

/-- C9 (submission only inserts).  `AddOrder` puts a buy order into `BuyOrders` and any
other order into `SellOrders`: the target queue then holds exactly its previous orders and
the new one, quantities included, and the other queue is the same slice as before; the
call yields nothing but the book, whatever the prices on the opposite side.  Hence, in a
book reachable from `NewOrderBook`, all of `BuyOrders` are buys and all of `SellOrders`
are sells. -/
theorem addOrder_only_inserts (ob : OrderBook) (o : Order) :
    (o.IsBuy = true → (ob.AddOrder o).BuyOrders.Perm (o :: ob.BuyOrders)
      ∧ (ob.AddOrder o).SellOrders = ob.SellOrders) ∧
    (o.IsBuy = false → (ob.AddOrder o).SellOrders.Perm (o :: ob.SellOrders)
      ∧ (ob.AddOrder o).BuyOrders = ob.BuyOrders) ∧
    (Reachable (fun _ => True) ob →
      (∀ x ∈ ob.BuyOrders, x.IsBuy = true) ∧ (∀ x ∈ ob.SellOrders, x.IsBuy = false)) := by
  refine ⟨?_, ?_, ?_⟩
  · intro h
    unfold OrderBook.AddOrder
    rw [if_pos h]
    exact ⟨heapPush_perm _ _, rfl⟩
  · intro h
    unfold OrderBook.AddOrder
    rw [if_neg (by simp [h])]
    exact ⟨heapPush_perm _ _, rfl⟩
  · intro hr
    exact ⟨(reachable_wellFormed hr).buySide, (reachable_wellFormed hr).sellSide⟩

/-- Witness of C9: a buy at 55 submitted to a book whose only order is a sell at 50 is
inserted, not traded. -/
theorem addOrder_only_inserts_witness :
    (NewOrderBook.AddOrder (sellAt 1 10 50)).AddOrder (buyAt 2 10 55)
      = { BuyOrders := [buyAt 2 10 55], SellOrders := [sellAt 1 10 50] } ∧
    Reachable (fun _ => True) (NewOrderBook.AddOrder (sellAt 1 10 50)) ∧
    ((buyAt 2 10 55).IsBuy = true →
      ((NewOrderBook.AddOrder (sellAt 1 10 50)).AddOrder (buyAt 2 10 55)).BuyOrders.Perm
        (buyAt 2 10 55 :: (NewOrderBook.AddOrder (sellAt 1 10 50)).BuyOrders)
      ∧ ((NewOrderBook.AddOrder (sellAt 1 10 50)).AddOrder (buyAt 2 10 55)).SellOrders
        = (NewOrderBook.AddOrder (sellAt 1 10 50)).SellOrders) ∧
    ((∀ x ∈ (NewOrderBook.AddOrder (sellAt 1 10 50)).BuyOrders, x.IsBuy = true) ∧
      (∀ x ∈ (NewOrderBook.AddOrder (sellAt 1 10 50)).SellOrders, x.IsBuy = false)) :=
  have hr : Reachable (fun _ => True) (NewOrderBook.AddOrder (sellAt 1 10 50)) :=
    Reachable.add _ _ Reachable.new trivial
  ⟨by decide, hr,
    (addOrder_only_inserts (NewOrderBook.AddOrder (sellAt 1 10 50)) (buyAt 2 10 55)).1,
    (addOrder_only_inserts (NewOrderBook.AddOrder (sellAt 1 10 50)) (buyAt 2 10 55)).2.2 hr⟩

/-- Counterexample to C5 as stated: the book holds Buy 5@52 of trader 1 and Sell 10@50 of
trader 2, the prices cross, the quantities are positive and both traders are in the map,
but trader 1 has a nil `Portfolio`; `MatchOrders` panics on the assignment to the nil map
and returns no transaction. -/
theorem one_pair_counterexample :
    pairBook = { BuyOrders := [buyAt 1 5 52], SellOrders := [sellAt 2 10 50] } ∧
    (sellAt 2 10 50).Price ≤ (buyAt 1 5 52).Price ∧
    (buyAt 1 5 52).Stock = (sellAt 2 10 50).Stock ∧
    PosQty (buyAt 1 5 52) ∧ PosQty (sellAt 2 10 50) ∧
    (bareTraders (buyAt 1 5 52).TraderID).isSome = true ∧
    (bareTraders (sellAt 2 10 50).TraderID).isSome = true ∧
    pairBook.MatchOrders bareTraders = .error .nilMap ∧
    ¬ ∃ s, pairBook.MatchOrders bareTraders = .ok s := by
  have h : pairBook.MatchOrders bareTraders = .error .nilMap := rfl
  refine ⟨rfl, by decide, by decide, by decide, by decide, rfl, rfl, h, ?_⟩
  rintro ⟨s, hs⟩
  rw [h] at hs
  exact absurd hs (by simp)

/-- C5, amended (one crossing pair).  For a book holding exactly one buy order `b` and one
sell order `a` of the same stock with `b.Price ≥ a.Price` and positive quantities, when
both traders are in the map and the buyer's `Portfolio` map is not nil, `MatchOrders`
returns exactly one transaction, with `Price = a.Price` and
`Quantity = min(b.Quantity, a.Quantity)`; the order with the smaller quantity has left its
queue, the other one is the only order of its queue with the difference as quantity, and
both queues are empty when the quantities are equal. -/
theorem one_pair_match (b a : Order) (traders : Traders) (buyer seller : Trader)
    (held : String → Int) (hp : a.Price ≤ b.Price) (hst : b.Stock = a.Stock)
    (hb : PosQty b) (ha : PosQty a) (hbuyer : traders b.TraderID = some buyer)
    (hheld : buyer.Portfolio = some held) (hseller : traders a.TraderID = some seller) :
    ∃ s, OrderBook.MatchOrders { BuyOrders := [b], SellOrders := [a] } traders = .ok s ∧
      s.transactions = [{
        BuyOrderID := b.ID
        SellOrderID := a.ID
        Price := a.Price
        Quantity := Min.min b.Quantity a.Quantity
        Stock := b.Stock }] ∧
      (b.Quantity < a.Quantity → s.ob.BuyOrders = [] ∧
        s.ob.SellOrders = [{ a with Quantity := a.Quantity - b.Quantity }]) ∧
      (a.Quantity < b.Quantity → s.ob.SellOrders = [] ∧
        s.ob.BuyOrders = [{ b with Quantity := b.Quantity - a.Quantity }]) ∧
      (b.Quantity = a.Quantity → s.ob.BuyOrders = [] ∧ s.ob.SellOrders = []) := by
  obtain ⟨tr1, hset⟩ := settle_ok traders b a (min b.Quantity a.Quantity) buyer seller held
    hbuyer hheld hseller
  obtain ⟨e1, e2, _, _, _⟩ := fill_min_quantity b a hb ha
  have hmin := min_eq_min b.Quantity a.Quantity
  cases h1 : matchIter (MatchState.mk { BuyOrders := [b], SellOrders := [a] } traders []) with
  | exit =>
    rw [matchIter_exit_iff] at h1
    exact absurd ⟨hp, hst⟩ (h1 b [] a [] rfl rfl)
  | fault f =>
    obtain ⟨b1, bt, a1, st, hb1, ha1, _, _, hf⟩ := matchIter_fault h1
    obtain ⟨rfl, _⟩ := List.cons.inj hb1
    obtain ⟨rfl, _⟩ := List.cons.inj ha1
    rw [hset] at hf
    exact absurd hf (by simp)
  | next s1 =>
    obtain ⟨b1, bt, a1, st, hb1, ha1, _, _, _, htx, hQ1, hQ2⟩ := matchIter_next h1
    obtain ⟨rfl, rfl⟩ := List.cons.inj hb1
    obtain ⟨rfl, rfl⟩ := List.cons.inj ha1
    have q1 := queueAfter_nil hQ1
    have q2 := queueAfter_nil hQ2
    have hexit : matchIter s1 = .exit := by
      rw [matchIter_exit_iff]
      intro x xt y yt hx hy _
      rcases fill_min_zero b a with h0 | h0
      · rw [q1.1 h0] at hx; exact absurd hx (by simp)
      · rw [q2.1 h0] at hy; exact absurd hy (by simp)
    have w1 : wrapInt (b.Quantity - min b.Quantity a.Quantity)
        = b.Quantity - min b.Quantity a.Quantity := e1
    have w2 : wrapInt (a.Quantity - min b.Quantity a.Quantity)
        = a.Quantity - min b.Quantity a.Quantity := e2
    refine ⟨s1, ?_, ?_, ?_, ?_, ?_⟩
    · unfold OrderBook.MatchOrders
      simp only [List.length_singleton]
      unfold matchLoop
      rw [h1]
      simp only
      unfold matchLoop
      rw [hexit]
    · rw [htx]
      simp [trade, hmin]
    · intro hlt
      have m : min b.Quantity a.Quantity = b.Quantity := by
        rw [hmin]; exact min_eq_left (le_of_lt hlt)
      rw [m] at e1 e2 w2
      refine ⟨q1.1 (by rw [m, e1]; omega), ?_⟩
      rw [q2.2 (by rw [m, e2]; omega)]
      unfold fill
      rw [m, w2]
    · intro hlt
      have m : min b.Quantity a.Quantity = a.Quantity := by
        rw [hmin]; exact min_eq_right (le_of_lt hlt)
      rw [m] at e1 e2 w1
      refine ⟨q2.1 (by rw [m, e2]; omega), ?_⟩
      rw [q1.2 (by rw [m, e1]; omega)]
      unfold fill
      rw [m, w1]
    · intro heq
      have m : min b.Quantity a.Quantity = a.Quantity := by
        rw [hmin]; exact min_eq_right (le_of_eq heq.symm)
      rw [m] at e1 e2
      exact ⟨q1.1 (by rw [m, e1]; omega), q2.1 (by rw [m, e2]; omega)⟩

/-- Witness of the amended C5, a scenario of the spec: Buy 5@52 against Sell 10@50 among
the traders of `main` yields one trade of 5 at 50 and leaves the ask with quantity 5. -/
theorem one_pair_match_witness :
    ∃ s, pairBook.MatchOrders mainTraders = .ok s ∧
      s.transactions = [{
        BuyOrderID := 1
        SellOrderID := 2
        Price := 50
        Quantity := Min.min 5 10
        Stock := "AAPL" }] ∧
      ((5 : Int) < 10 → s.ob.BuyOrders = [] ∧ s.ob.SellOrders = [sellAt 2 (10 - 5) 50]) ∧
      ((10 : Int) < 5 → s.ob.SellOrders = [] ∧ s.ob.BuyOrders = [buyAt 1 (5 - 10) 52]) ∧
      ((5 : Int) = 10 → s.ob.BuyOrders = [] ∧ s.ob.SellOrders = []) :=
  one_pair_match (buyAt 1 5 52) (sellAt 2 10 50) mainTraders
    { ID := 1, Cash := 1000, Portfolio := some (fun st =>
        if st = "AAPL" then 10 else if st = "GOOG" then 5 else 0) }
    { ID := 2, Cash := 1500, Portfolio := some (fun st =>
        if st = "AAPL" then 7 else if st = "AMZN" then 8 else 0) }
    (fun st => if st = "AAPL" then 10 else if st = "GOOG" then 5 else 0)
    (by decide) rfl (by decide) (by decide) rfl rfl rfl

/-- Counterexample to C10 as stated: matching Buy 5@52 of trader 1 against Sell 10@50 of
trader 2 changes the traders map: trader 1 goes from cash 1000 and 10 AAPL to cash 1010
and 15 AAPL, trader 2 from cash 1500 to cash 1750. -/
theorem matchOrders_touches_traders :
    ∃ s, pairBook.MatchOrders mainTraders = .ok s ∧
      cashOf mainTraders 1 = some 1000 ∧ cashOf s.traders 1 = some 1010 ∧
      heldOf mainTraders 1 "AAPL" = some 10 ∧ heldOf s.traders 1 "AAPL" = some 15 ∧
      cashOf mainTraders 2 = some 1500 ∧ cashOf s.traders 2 = some 1750 :=
  ⟨_, rfl, by decide, by decide!, by decide, by decide, by decide, by decide!⟩

/-- C10, amended (matching settles the traders itself).  With prices and cash as exact
rationals, in a `MatchOrders` pass every iteration that emits a transaction `t` between the
head buy order `b` and the head sell order `a` adds
`t.Quantity*b.Price - t.Quantity*t.Price` to the cash of `b`'s trader,
`t.Quantity*t.Price` to the cash of `a`'s trader and `t.Quantity` (as a Go `int`) to what
`b`'s trader holds of `b.Stock`, and changes no other cash or holding; a trader who owns
no order of the book is left as it was by the whole pass, and a pass that returns no
transaction leaves the traders map as it was. -/
theorem matchOrders_settles_traders (ob : OrderBook) (traders : Traders) (s : MatchState)
    (hm : ob.MatchOrders traders = .ok s) :
    (∀ s1 s2, Iterates (MatchState.mk ob traders []) s1 → matchIter s1 = .next s2 →
      ∃ b bt a st, s1.ob.BuyOrders = b :: bt ∧ s1.ob.SellOrders = a :: st
        ∧ s2.transactions = s1.transactions ++ [trade b a]
        ∧ (∀ k, cashOf s2.traders k = (cashOf s1.traders k).map (fun c =>
            c + (if k = b.TraderID then ((trade b a).Quantity : ℚ) * b.Price
                  - ((trade b a).Quantity : ℚ) * (trade b a).Price else 0)
              + (if k = a.TraderID then ((trade b a).Quantity : ℚ) * (trade b a).Price
                  else 0)))
        ∧ (∀ k stock, heldOf s2.traders k stock = (heldOf s1.traders k stock).map (fun x =>
            if k = b.TraderID ∧ stock = b.Stock then wrapInt (x + (trade b a).Quantity)
            else x))) ∧
    (∀ k, (∀ o ∈ ob.BuyOrders ++ ob.SellOrders, o.TraderID ≠ k) → s.traders k = traders k) ∧
    (s.transactions = [] → s.traders = traders) := by
  refine ⟨?_, ?_, ?_⟩
  · intro s1 s2 _ hn
    obtain ⟨b, bt, a, st, hb, ha, _, _, hset, htx, _, _⟩ := matchIter_next hn
    have he := settle_effect hset
    exact ⟨b, bt, a, st, hb, ha, htx, he.1, he.2.1⟩
  · intro k hk
    have hinv := (matchLoop_ok
      (fun x => x.traders k = traders k ∧ (∀ o ∈ x.ob.BuyOrders, o.TraderID ≠ k)
        ∧ (∀ o ∈ x.ob.SellOrders, o.TraderID ≠ k))
      (fun x y hi hn => by
        obtain ⟨b, bt, a, st, hb, ha, _, _, hset, _, _, _⟩ := matchIter_next hn
        have hf := matchIter_next_forall (fun o => o.TraderID ≠ k) (fun _ _ h => h) hn
        refine ⟨?_, hf.1 hi.2.1, hf.2 hi.2.2⟩
        rw [(settle_effect hset).2.2 k
          (fun e => hi.2.1 b (by rw [hb]; exact List.mem_cons_self _ _) e.symm)
          (fun e => hi.2.2 a (by rw [ha]; exact List.mem_cons_self _ _) e.symm)]
        exact hi.1)
      _ _ _ ⟨rfl, fun o ho => hk o (List.mem_append_left _ ho),
        fun o ho => hk o (List.mem_append_right _ ho)⟩ hm).1
    exact hinv.1
  · intro hnil
    rcases matchLoop_transactions _ _ _ hm with rfl | hlt
    · rfl
    · rw [hnil] at hlt
      exact absurd hlt (Nat.not_lt_zero _)

/-- Witness of the amended C10: the pass on Buy 5@52 against Sell 10@50 among the traders
of `main`. -/
theorem matchOrders_settles_traders_witness :
    ∃ s, pairBook.MatchOrders mainTraders = .ok s ∧
      (∀ k, (∀ o ∈ pairBook.BuyOrders ++ pairBook.SellOrders, o.TraderID ≠ k) →
        s.traders k = mainTraders k) ∧
      (s.transactions = [] → s.traders = mainTraders) :=
  ⟨_, rfl, (matchOrders_settles_traders pairBook mainTraders _ rfl).2⟩

/-- Counterexample to C7 as stated: the book whose two queues hold the `Order` object at
address `0`, of quantity 5, among the traders of `main`; every resting order has a positive
quantity.  The first iteration emits a transaction of quantity 5 against the object and
subtracts 5 from it twice: the object stays in both queues, with the remaining quantity
`-5`.  The pass never returns. -/
theorem quantity_conservation_counterexample :
    flipBook = { BuyOrders := [0], SellOrders := [0] } ∧
    (∀ x ∈ flipBook.BuyOrders ++ flipBook.SellOrders, PosQty (flipObjs x)) ∧
    (∃ s1, matchIterAt (PtrState.mk flipObjs flipBook mainTraders []) = .next s1 ∧
      s1.transactions.map (fun t => t.Quantity) = [5] ∧
      s1.ob = flipBook ∧ (s1.objs 0).Quantity = -5) ∧
    ∀ fuel r, matchLoopAt fuel (PtrState.mk flipObjs flipBook mainTraders []) ≠ .ok r :=
  ⟨by decide, by decide, ⟨_, rfl, by decide, by decide, by decide⟩,
    fun fuel r => stuck_never_returns fuel _ r flipBook_stuck⟩

/-- C7, amended (quantity conservation in the passes that return).  Let every slot of the
book point to an order with positive quantity (a Go `int`); two slots may hold the same
pointer.  A `MatchOrders` pass returns when no object is in both queues and the traders of
the resting orders can be settled, and a pass that returns does so within
`len(BuyOrders) + len(SellOrders)` trips.  For a pass that returns: the returned
transactions are those of its trips, each emitted against the objects at the two heads,
with their IDs and a quantity that is not negative; for every `Order` object, the
quantities of the transactions emitted against it plus its quantity after the pass equal
its quantity before the pass; hence for every object of the book the executed total is
between `0` and the quantity before the pass, and the remaining quantity is never negative,
during the pass and after it; and an object a slot of which the pass has removed is left
with quantity `0`. -/
theorem quantity_conservation (objs : Objects) (ob : PtrBook) (traders : Traders)
    (hpos : ∀ x ∈ ob.BuyOrders ++ ob.SellOrders, PosQty (objs x)) :
    ((∀ x ∈ ob.BuyOrders, x ∉ ob.SellOrders) → TradersReady traders (ob.view objs) →
      ∃ r, ob.MatchOrders objs traders = .ok r) ∧
    (∀ fuel r, matchLoopAt fuel (PtrState.mk objs ob traders []) = .ok r →
      ob.MatchOrders objs traders = .ok r) ∧
    ∀ r, ob.MatchOrders objs traders = .ok r →
      r.transactions = (ob.trips objs traders).map (fun t => t.transaction) ∧
      (∀ t ∈ ob.trips objs traders, 0 ≤ t.transaction.Quantity
        ∧ t.buyOrder ∈ ob.BuyOrders ∧ t.sellOrder ∈ ob.SellOrders
        ∧ t.transaction.BuyOrderID = (objs t.buyOrder).ID
        ∧ t.transaction.SellOrderID = (objs t.sellOrder).ID) ∧
      (∀ x, executedAt (ob.trips objs traders) x + (r.objs x).Quantity
        = (objs x).Quantity) ∧
      (∀ x ∈ ob.BuyOrders ++ ob.SellOrders, 0 ≤ executedAt (ob.trips objs traders) x
        ∧ executedAt (ob.trips objs traders) x ≤ (objs x).Quantity
        ∧ 0 ≤ (r.objs x).Quantity) ∧
      (∀ s, IteratesAt (PtrState.mk objs ob traders []) s →
        ∀ x ∈ ob.BuyOrders ++ ob.SellOrders, 0 ≤ (s.objs x).Quantity) ∧
      (∀ x, r.ob.BuyOrders.count x < ob.BuyOrders.count x
        ∨ r.ob.SellOrders.count x < ob.SellOrders.count x → (r.objs x).Quantity = 0) := by
  refine ⟨fun hd hr => matchLoopAt_returns _ _ (Nat.lt_succ_self _) hr hd,
    fun fuel r h => matchLoopAt_enough fuel _ r h, ?_⟩
  intro r hm
  have hg : GoodAt (fun x => x ∈ ob.BuyOrders ++ ob.SellOrders)
      (PtrState.mk objs ob traders []) :=
    ⟨fun x hx => hx, fun x hx => ⟨le_of_lt (hpos x hx).1, (hpos x hx).2⟩⟩
  obtain ⟨hgr, _, htr, htrip, hcons, _, hzero⟩ := matchLoopAt_conserves _ _ _ r hg hm
  refine ⟨by simpa using htr, htrip, hcons, ?_, ?_, hzero⟩
  · intro x hx
    have e1 := hcons x
    have e2 := executedAt_nonneg _ (fun t ht => (htrip t ht).1) x
    have e3 := (hgr.2 x hx).1
    simp only at e1
    exact ⟨e2, by unfold PtrBook.trips; omega, e3⟩
  · intro s hit x hx
    exact ((iteratesAt_good hg ⟨_, r, hm⟩ hit).2 x hx).1

/-- Witness of the amended C7: the buy object of quantity 5 held in two slots, against a
sell of 10.
The pass emits the quantities 5 and 0 against the buy object and leaves it with quantity 0,
and it leaves the sell object with quantity 5. -/
theorem quantity_conservation_witness :
    twiceBook = { BuyOrders := [0, 0], SellOrders := [1] } ∧
    ∃ r, twiceBook.MatchOrders twiceObjs mainTraders = .ok r ∧
      r.transactions.map (fun t => t.Quantity) = [5, 0] ∧
      r.ob = { BuyOrders := [], SellOrders := [1] } ∧
      executedAt (twiceBook.trips twiceObjs mainTraders) 0 = 5 ∧ (r.objs 0).Quantity = 0 ∧
      executedAt (twiceBook.trips twiceObjs mainTraders) 1 = 5 ∧ (r.objs 1).Quantity = 5 ∧
      (∀ x, executedAt (twiceBook.trips twiceObjs mainTraders) x + (r.objs x).Quantity
        = (twiceObjs x).Quantity) :=
  ⟨by decide, _, rfl, by decide, by decide, by decide, by decide, by decide, by decide,
    ((quantity_conservation twiceObjs twiceBook mainTraders (by decide)).2.2 _ rfl).2.2.1⟩

/-- Counterexample to C11 as stated, in two ways.  On the book Buy 5@52 / Sell 10@50 with
an empty traders map, the lookup of the buyer yields a nil `*Trader` and `MatchOrders`
panics.  And on the book whose two queues hold the same `Order` object, among the traders
of `main`, the call never completes. -/
theorem matchOrders_can_fail :
    pairBook.MatchOrders noTraders = .error .nilTrader ∧
    (¬ ∃ s, pairBook.MatchOrders noTraders = .ok s) ∧
    TradersReady mainTraders (flipBook.view flipObjs) ∧
    ∀ fuel r, matchLoopAt fuel (PtrState.mk flipObjs flipBook mainTraders []) ≠ .ok r := by
  have h : pairBook.MatchOrders noTraders = .error .nilTrader := rfl
  refine ⟨h, ?_, ⟨by decide, by decide⟩, ?_⟩
  · rintro ⟨s, hs⟩
    rw [h] at hs
    exact absurd hs (by simp)
  · intro fuel r
    exact stuck_never_returns fuel _ r flipBook_stuck

/-- C11, amended (when matching cannot fail).  On a book whose slots point to `Order`
objects, `MatchOrders` completes normally and returns its transactions whenever no object
is held by both queues, the trader of every resting buy order is in the traders map with a
non-nil `Portfolio` and the trader of every resting sell order is in the map.  For every
such book and every traders map, reading the queue heads and popping a queue never fail:
the only run-time errors of a pass are the dereference of the nil `*Trader` of an absent
key and the write to a nil `Portfolio` map, and the only other way for it not to complete
is a loop that does not end, in a state in which the two queues have the same object at
their heads. -/
theorem matchOrders_completes (objs : Objects) (ob : PtrBook) (traders : Traders) :
    ((∀ x ∈ ob.BuyOrders, x ∉ ob.SellOrders) → TradersReady traders (ob.view objs) →
      ∃ r, ob.MatchOrders objs traders = .ok r) ∧
    (∀ f, ob.MatchOrders objs traders = .error f →
      f = .nilTrader ∨ f = .nilMap ∨
        (f = .fuel ∧ ∃ s, IteratesAt (PtrState.mk objs ob traders []) s ∧ Stuck s)) := by
  refine ⟨fun hd hr => matchLoopAt_returns _ _ (Nat.lt_succ_self _) hr hd, ?_⟩
  intro f hf
  rcases matchLoopAt_error _ _ f hf with h | h | h
  · subst h
    exact Or.inr (Or.inr ⟨rfl, matchLoopAt_fuel _ _ (Nat.lt_succ_self _) hf⟩)
  · exact Or.inl h
  · exact Or.inr (Or.inl h)

/-- Witness of the amended C11: the buy object of quantity 5 held in two slots of
`BuyOrders` and a sell of 10, among the traders of `main`. -/
theorem matchOrders_completes_witness :
    (∀ x ∈ twiceBook.BuyOrders, x ∉ twiceBook.SellOrders) ∧
    TradersReady mainTraders (twiceBook.view twiceObjs) ∧
    ∃ r, twiceBook.MatchOrders twiceObjs mainTraders = .ok r :=
  have hd : ∀ x ∈ twiceBook.BuyOrders, x ∉ twiceBook.SellOrders := by decide
  have hr : TradersReady mainTraders (twiceBook.view twiceObjs) := ⟨by decide, by decide⟩
  ⟨hd, hr, (matchOrders_completes twiceObjs twiceBook mainTraders).1 hd hr⟩

/-- Counterexample to C17 as stated: the `Order` object at address `0`, a buy of 5@50 by
trader 1, is submitted, the caller sets its `IsBuy` to `false` and submits it again, so
that `BuyOrders` and `SellOrders` both hold it; trader 1 is in the traders map, with a
`Portfolio`.  The first iteration trades 5, subtracts 5 from the object twice, which leaves
it with quantity `-5`, and pops nothing: a transaction has been emitted and no order
removed.  The pass goes on like this for ever: whatever the fuel, it neither returns nor
panics. -/
theorem matchOrders_loops_counterexample :
    flipBook = { BuyOrders := [0], SellOrders := [0] } ∧
    TradersReady mainTraders (flipBook.view flipObjs) ∧
    (∃ s1, matchIterAt (PtrState.mk flipObjs flipBook mainTraders []) = .next s1 ∧
      s1.ob = flipBook ∧ s1.transactions.length = 1 ∧ (s1.objs 0).Quantity = -5) ∧
    (∀ fuel, matchLoopAt fuel (PtrState.mk flipObjs flipBook mainTraders [])
      = .error .fuel) ∧
    ¬ ∃ r, flipBook.MatchOrders flipObjs mainTraders = .ok r := by
  have hr : TradersReady mainTraders (flipBook.view flipObjs) := ⟨by decide, by decide⟩
  have hl := fun fuel => stuck_loops fuel _ flipBook_stuck hr
  refine ⟨by decide, hr, ⟨_, rfl, by decide, by decide, by decide⟩, hl, ?_⟩
  rintro ⟨r, hr1⟩
  unfold PtrBook.MatchOrders at hr1
  rw [hl] at hr1
  exact absurd hr1 (by simp)

/-- C17, amended (termination and trade bound).  For every book, whatever the quantities of
its orders, and every traders map, the loop of `MatchOrders` ends unless the pass comes to
a state in which the two queues have the same `Order` object at their heads, with a
quantity that is not `0`; it ends for every book in which no object is held by both
queues, and then the call returns when the traders of the resting orders can be settled
(otherwise it ends in a panic).  When the loop ends, more fuel does not change the result.
Every iteration emits one transaction and removes at least one order from a queue, unless
it leaves the pass in such a state.  A pass that returns has returned at most
`len(BuyOrders) + len(SellOrders) - 1` transactions, and none when either queue is
empty. -/
theorem matchOrders_terminates (objs : Objects) (ob : PtrBook) (traders : Traders) :
    (ob.MatchOrders objs traders = .error .fuel →
      ∃ s, IteratesAt (PtrState.mk objs ob traders []) s ∧ Stuck s) ∧
    ((∀ x ∈ ob.BuyOrders, x ∉ ob.SellOrders) → ob.MatchOrders objs traders ≠ .error .fuel) ∧
    (∀ k, ob.MatchOrders objs traders ≠ .error .fuel →
      matchLoopAt (ob.BuyOrders.length + ob.SellOrders.length + 1 + k)
        (PtrState.mk objs ob traders []) = ob.MatchOrders objs traders) ∧
    (∀ s1 s2, IteratesAt (PtrState.mk objs ob traders []) s1 → matchIterAt s1 = .next s2 →
      s2.transactions.length = s1.transactions.length + 1 ∧
      (s2.ob.BuyOrders.length + s2.ob.SellOrders.length
          < s1.ob.BuyOrders.length + s1.ob.SellOrders.length ∨ Stuck s2)) ∧
    ((∀ x ∈ ob.BuyOrders, x ∉ ob.SellOrders) → TradersReady traders (ob.view objs) →
      ∃ r, ob.MatchOrders objs traders = .ok r) ∧
    (∀ r, ob.MatchOrders objs traders = .ok r →
      r.transactions.length ≤ ob.BuyOrders.length + ob.SellOrders.length - 1 ∧
      ((ob.BuyOrders = [] ∨ ob.SellOrders = []) → r.transactions = [])) := by
  refine ⟨fun h => matchLoopAt_fuel _ _ (Nat.lt_succ_self _) h, ?_, ?_, ?_, ?_, ?_⟩
  · intro hd h
    obtain ⟨s, hit, hs⟩ := matchLoopAt_fuel _ _ (Nat.lt_succ_self _) h
    exact (iteratesAt_disjoint hit hd).2 hs
  · intro k hne
    exact matchLoopAt_mono _ k _ _ rfl hne
  · intro s1 s2 _ hn
    obtain ⟨_, _, _, _, _, _, _, _, _, _, htx, _, _⟩ := matchIterAt_next hn
    exact ⟨by rw [htx]; simp, matchIterAt_next_length hn⟩
  · intro hd hr
    exact matchLoopAt_returns _ _ (Nat.lt_succ_self _) hr hd
  · intro r hm
    have h := matchLoopAt_count _ _ _ hm
    exact ⟨by simpa using h.2, h.1⟩

/-- Witness of the amended C17: a buy of quantity `-3` and a sell of quantity `0`, each
submitted once, among the traders of `main`; the pass ends after one transaction. -/
theorem matchOrders_terminates_witness :
    oddBook = { BuyOrders := [0], SellOrders := [1] } ∧
    (∃ r, oddBook.MatchOrders oddObjs mainTraders = .ok r ∧ r.transactions.length = 1 ∧
      r.transactions.length ≤ 1 + 1 - 1) :=
  ⟨by decide, _, rfl, by decide,
    ((matchOrders_terminates oddObjs oddBook mainTraders).2.2.2.2.2 _ rfl).1⟩

/-- C20 (matching is idempotent).  When a `MatchOrders` pass has returned, a second call
on the book and the traders as the first call left them returns no transaction and leaves
both queues, all quantities and all traders as they are. -/
theorem matchOrders_idempotent (ob : OrderBook) (traders : Traders) (s : MatchState)
    (hm : ob.MatchOrders traders = .ok s) :
    s.ob.MatchOrders s.traders
      = .ok { ob := s.ob, traders := s.traders, transactions := [] } := by
  have hexit := (matchLoop_ok (fun _ => True) (fun _ _ _ _ => trivial) _ _ _ trivial hm).2
  have hexit2 : matchIter { ob := s.ob, traders := s.traders, transactions := [] } = .exit := by
    rw [matchIter_exit_iff] at hexit ⊢
    exact hexit
  unfold OrderBook.MatchOrders matchLoop
  rw [hexit2]

/-- Witness of C20: the pass on Buy 5@52 against Sell 10@50 among the traders of `main`,
followed by a second pass. -/
theorem matchOrders_idempotent_witness :
    ∃ s, pairBook.MatchOrders mainTraders = .ok s ∧ s.transactions.length = 1 ∧
      s.ob.MatchOrders s.traders
        = .ok { ob := s.ob, traders := s.traders, transactions := [] } :=
  ⟨_, rfl, by decide, matchOrders_idempotent pairBook mainTraders _ rfl⟩

/-- Counterexample to C18 as stated, in two ways.  Trader 1 holds `2^63 - 1` AAPL, the
largest Go `int`, and buys 5 more from trader 2: the addition to the `Portfolio` entry
wraps around and the sum of the holdings and of the resting sell quantities changes.  And
among the traders of `main`, a sell object of 10 shares held in two slots of `SellOrders`
is bought in full: both slots showed 10 shares before the pass, 10 shares reach the buyer
and the slot that stays shows `0`. -/
theorem share_conservation_counterexample :
    (∀ x ∈ pairPtrBook.BuyOrders ++ pairPtrBook.SellOrders, (twiceObjs x).Stock = "AAPL") ∧
    TradersReady richTraders (pairPtrBook.view twiceObjs) ∧
    (∃ r, pairPtrBook.MatchOrders twiceObjs richTraders = .ok r ∧
      holdings richTraders {1, 2} "AAPL" + restingTotal (pairPtrBook.view twiceObjs).SellOrders
        = 9223372036854775807 + 7 + 10 ∧
      holdings r.traders {1, 2} "AAPL" + restingTotal (r.ob.view r.objs).SellOrders
        = -9223372036854775804 + 7 + 5) ∧
    soldBook = { BuyOrders := [1], SellOrders := [0, 0] } ∧
    (∃ r, soldBook.MatchOrders soldObjs mainTraders = .ok r ∧
      holdings mainTraders {1, 2, 3} "AAPL" + restingTotal (soldBook.view soldObjs).SellOrders
        = 17 + 20 ∧
      holdings r.traders {1, 2, 3} "AAPL" + restingTotal (r.ob.view r.objs).SellOrders
        = 27 + 0) :=
  ⟨by decide, ⟨by decide, by decide⟩, ⟨_, rfl, by decide, by decide⟩, by decide,
    ⟨_, rfl, by decide, by decide⟩⟩

/-- C18, amended (share conservation in Go `int` arithmetic, for orders submitted once).
Let the slots of the book hold distinct pointers, let all orders of the book carry the
stock `stock`, and let `K` be a finite set of trader keys (the keys of the traders map)
holding the trader of every resting buy order.  A `MatchOrders` pass returns when the
traders of the resting orders can be settled.  A pass that returns preserves, modulo
`2^64`, the sum over `K` of `Portfolio[stock]` plus the sum of the quantities of the orders
in `SellOrders`, and leaves the entries of every other stock as they were.  The sum is
preserved exactly unless, in an iteration of the pass, the addition
`Portfolio[stock] += quantity` or the subtraction `sellOrder.Quantity -= quantity`
overflows the Go `int`; none does when, before the pass, all resting quantities are
positive, no trader of `K` holds a negative amount of `stock`, and the sum is below
`2^63`. -/
theorem share_conservation (stock : String) (objs : Objects) (ob : PtrBook)
    (traders : Traders) (K : Finset Int) (hnd : (ob.BuyOrders ++ ob.SellOrders).Nodup)
    (hst : ∀ x ∈ ob.BuyOrders ++ ob.SellOrders, (objs x).Stock = stock)
    (hK : ∀ x ∈ ob.BuyOrders, (objs x).TraderID ∈ K) :
    (TradersReady traders (ob.view objs) → ∃ r, ob.MatchOrders objs traders = .ok r) ∧
    ∀ r, ob.MatchOrders objs traders = .ok r →
      (holdings r.traders K stock + restingTotal (r.ob.view r.objs).SellOrders
        ≡ holdings traders K stock + restingTotal (ob.view objs).SellOrders [ZMOD 2 ^ 64]) ∧
      (∀ k other, other ≠ stock → heldOf r.traders k other = heldOf traders k other) ∧
      ((∀ s1 s2 pb bt ps st, IteratesAt (PtrState.mk objs ob traders []) s1 →
          matchIterAt s1 = .next s2 → s1.ob.BuyOrders = pb :: bt →
          s1.ob.SellOrders = ps :: st →
          wrapInt ((heldOf s1.traders (s1.objs pb).TraderID stock).getD 0
              + (trade (s1.objs pb) (s1.objs ps)).Quantity)
            = (heldOf s1.traders (s1.objs pb).TraderID stock).getD 0
              + (trade (s1.objs pb) (s1.objs ps)).Quantity
          ∧ wrapInt ((s1.objs ps).Quantity - (trade (s1.objs pb) (s1.objs ps)).Quantity)
            = (s1.objs ps).Quantity - (trade (s1.objs pb) (s1.objs ps)).Quantity) →
        holdings r.traders K stock + restingTotal (r.ob.view r.objs).SellOrders
          = holdings traders K stock + restingTotal (ob.view objs).SellOrders) ∧
      ((∀ x ∈ ob.BuyOrders ++ ob.SellOrders, PosQty (objs x)) →
        (∀ k ∈ K, 0 ≤ (heldOf traders k stock).getD 0) →
        holdings traders K stock + restingTotal (ob.view objs).SellOrders < 2 ^ 63 →
        holdings r.traders K stock + restingTotal (r.ob.view r.objs).SellOrders
          = holdings traders K stock + restingTotal (ob.view objs).SellOrders) := by
  have hd : ∀ x ∈ ob.BuyOrders, x ∉ ob.SellOrders :=
    fun x h1 h2 => (List.nodup_append.mp hnd).2.2 h1 h2
  refine ⟨fun hr => matchLoopAt_returns _ _ (Nat.lt_succ_self _) hr hd, ?_⟩
  intro r hm
  obtain ⟨hv, _⟩ := (matchOrders_refines objs ob traders hnd).1 r hm
  have hst1 := view_forall (Q := fun o => o.Stock = stock) hst
  have hK1 := view_forall_buy (Q := fun o => o.TraderID ∈ K) hK
  obtain ⟨h1, h2⟩ := matchOrders_shares stock _ traders K hst1 hK1 r.view hv
  refine ⟨h1, h2, ?_, ?_⟩
  · intro hw
    refine matchOrders_shares_exact stock _ traders K hst1 hK1 r.view hv ?_
    intro v1 v2 b bt a st hit hn hb ha
    obtain ⟨s1, hit1, rfl, hnd1⟩ :=
      iterates_lift (PtrState.mk objs ob traders []) hnd hit
    obtain ⟨s2, pb, pbt, ps, pst, hm1, hpb, hps, rfl, rfl⟩ :=
      matchIter_view_next hnd1 hn hb ha
    exact hw s1 s2 pb pbt ps pst hit1 hm1 hpb hps
  · intro hpos hnn hT
    exact matchOrders_shares_static stock _ traders K hst1 hK1 r.view hv
      (view_forall (Q := PosQty) hpos) hnn hT

/-- Witness of the amended C18: Buy 5@52 against Sell 10@50, each submitted once, among the
traders of `main`; the holdings of AAPL (10, 7, 0) and the resting sell quantity (10) sum
to 27 before and after the pass. -/
theorem share_conservation_witness :
    ∃ r, pairPtrBook.MatchOrders twiceObjs mainTraders = .ok r ∧
      holdings mainTraders {1, 2, 3} "AAPL"
        + restingTotal (pairPtrBook.view twiceObjs).SellOrders = 27 ∧
      holdings r.traders {1, 2, 3} "AAPL" + restingTotal (r.ob.view r.objs).SellOrders
        = holdings mainTraders {1, 2, 3} "AAPL"
          + restingTotal (pairPtrBook.view twiceObjs).SellOrders :=
  ⟨_, rfl, by decide,
    ((share_conservation "AAPL" twiceObjs pairPtrBook mainTraders {1, 2, 3} (by decide)
      (by decide) (by decide)).2 _ rfl).2.2.2 (by decide) (by decide) (by decide)⟩

/-- Counterexample to C19 as stated, in two ways.  With a buy of `2^62` at 1 and a sell of
`-2^62` at 1 among the traders of `main`, the traded quantity is `-2^62`, the buy order is
left with the wrapped quantity `-2^63`, and cash plus reserved cash drops by `2^64`.  And a
buy object of 5@52 held in two slots of `BuyOrders` reserves 520 by its two slots; after
the trade of 5 with a sell at 50 the traders have received 260 and the slot that stays
reserves nothing. -/
theorem cash_conservation_counterexample :
    TradersReady mainTraders (wrapPtrBook.view wrapObjs) ∧
    (∃ r, wrapPtrBook.MatchOrders wrapObjs mainTraders = .ok r ∧
      r.ob.BuyOrders = [0] ∧ (r.objs 0).Quantity = -9223372036854775808 ∧
      cashTotal mainTraders {1, 2, 3} + reservedCash (wrapPtrBook.view wrapObjs).BuyOrders
        = 3300 + 4611686018427387904 ∧
      cashTotal r.traders {1, 2, 3} + reservedCash (r.ob.view r.objs).BuyOrders
        = 3300 - 4611686018427387904 - 9223372036854775808) ∧
    sameBook = { BuyOrders := [0, 0], SellOrders := [1] } ∧
    (∃ r, sameBook.MatchOrders sameObjs mainTraders = .ok r ∧
      cashTotal mainTraders {1, 2, 3} + reservedCash (sameBook.view sameObjs).BuyOrders
        = 3300 + 520 ∧
      cashTotal r.traders {1, 2, 3} + reservedCash (r.ob.view r.objs).BuyOrders
        = 3560 + 0) :=
  ⟨⟨by decide, by decide⟩, ⟨_, rfl, by decide, by decide, by decide!, by decide!⟩, by decide,
    ⟨_, rfl, by decide!, by decide!⟩⟩

/-- C19, amended (cash conservation without overflow, for orders submitted once).  With
prices and cash as exact rationals, let the slots of the book hold distinct pointers and
let `K` be a finite set of trader keys (the keys of the traders map) holding the trader of
every resting order.  A `MatchOrders` pass returns when the traders of the resting orders
can be settled.  In every iteration of the pass that emits a transaction `t` between the
head buy order `b` and the head sell order `a`, `b`'s trader is refunded
`t.Quantity * (b.Price - a.Price)` and `a`'s trader is credited `t.Quantity * a.Price`, and
no other cash changes.  A pass that returns preserves the sum over `K` of `Cash` plus the
sum over `BuyOrders` of `Quantity * Price`, unless in one of its iterations the subtraction
`buyOrder.Quantity -= quantity` overflows the Go `int`; none does when every resting order
has a positive quantity. -/
theorem cash_conservation (objs : Objects) (ob : PtrBook) (traders : Traders)
    (K : Finset Int) (hnd : (ob.BuyOrders ++ ob.SellOrders).Nodup)
    (hK : ∀ x ∈ ob.BuyOrders ++ ob.SellOrders, (objs x).TraderID ∈ K) :
    (TradersReady traders (ob.view objs) → ∃ r, ob.MatchOrders objs traders = .ok r) ∧
    (∀ s1 s2, IteratesAt (PtrState.mk objs ob traders []) s1 → matchIterAt s1 = .next s2 →
      ∃ pb bt ps st, s1.ob.BuyOrders = pb :: bt ∧ s1.ob.SellOrders = ps :: st
        ∧ s2.transactions = s1.transactions ++ [trade (s1.objs pb) (s1.objs ps)]
        ∧ ∀ k, cashOf s2.traders k = (cashOf s1.traders k).map (fun c =>
            c + (if k = (s1.objs pb).TraderID then
                  ((trade (s1.objs pb) (s1.objs ps)).Quantity : ℚ)
                    * ((s1.objs pb).Price - (s1.objs ps).Price) else 0)
              + (if k = (s1.objs ps).TraderID then
                  ((trade (s1.objs pb) (s1.objs ps)).Quantity : ℚ) * (s1.objs ps).Price
                  else 0))) ∧
    (∀ r, ob.MatchOrders objs traders = .ok r →
      (∀ s1 s2 pb bt ps st, IteratesAt (PtrState.mk objs ob traders []) s1 →
        matchIterAt s1 = .next s2 → s1.ob.BuyOrders = pb :: bt →
        s1.ob.SellOrders = ps :: st →
        wrapInt ((s1.objs pb).Quantity - (trade (s1.objs pb) (s1.objs ps)).Quantity)
          = (s1.objs pb).Quantity - (trade (s1.objs pb) (s1.objs ps)).Quantity) →
      cashTotal r.traders K + reservedCash (r.ob.view r.objs).BuyOrders
        = cashTotal traders K + reservedCash (ob.view objs).BuyOrders) ∧
    (∀ r, ob.MatchOrders objs traders = .ok r →
      (∀ x ∈ ob.BuyOrders ++ ob.SellOrders, PosQty (objs x)) →
      cashTotal r.traders K + reservedCash (r.ob.view r.objs).BuyOrders
        = cashTotal traders K + reservedCash (ob.view objs).BuyOrders) := by
  have hd : ∀ x ∈ ob.BuyOrders, x ∉ ob.SellOrders :=
    fun x h1 h2 => (List.nodup_append.mp hnd).2.2 h1 h2
  have hK1 := view_forall (Q := fun o => o.TraderID ∈ K) hK
  refine ⟨fun hr => matchLoopAt_returns _ _ (Nat.lt_succ_self _) hr hd, ?_, ?_, ?_⟩
  · intro s1 s2 _ hn
    obtain ⟨pb, bt, ps, st, hb, ha, _, _, _, hset, htx, _, _⟩ := matchIterAt_next hn
    refine ⟨pb, bt, ps, st, hb, ha, htx, ?_⟩
    intro k
    rw [(settle_effect hset).1 k]
    simp only [mul_sub]
    rfl
  · intro r hm hw
    obtain ⟨hv, _⟩ := (matchOrders_refines objs ob traders hnd).1 r hm
    refine matchOrders_cash _ traders K hK1 r.view hv ?_
    intro v1 v2 b bt a st hit hn hb ha
    obtain ⟨s1, hit1, rfl, hnd1⟩ :=
      iterates_lift (PtrState.mk objs ob traders []) hnd hit
    obtain ⟨s2, pb, pbt, ps, pst, hm1, hpb, hps, rfl, rfl⟩ :=
      matchIter_view_next hnd1 hn hb ha
    exact hw s1 s2 pb pbt ps pst hit1 hm1 hpb hps
  · intro r hm hpos
    obtain ⟨hv, _⟩ := (matchOrders_refines objs ob traders hnd).1 r hm
    refine matchOrders_cash _ traders K hK1 r.view hv ?_
    intro v1 v2 b bt a st hit _ hb ha
    have hpos1 := view_forall (Q := PosQty) hpos
    have hp := iterates_posQty hit
      ⟨fun o ho => hpos1 o (List.mem_append_left _ ho),
        fun o ho => hpos1 o (List.mem_append_right _ ho)⟩
    exact (fill_min_quantity b a (hp.1 b (by rw [hb]; exact List.mem_cons_self _ _))
      (hp.2 a (by rw [ha]; exact List.mem_cons_self _ _))).1

/-- Witness of the amended C19: Buy 5@52 against Sell 10@50, each submitted once, among the
traders of `main`; cash 3300 and reserved cash 260 before the pass, the same total after
it. -/
theorem cash_conservation_witness :
    ∃ r, pairPtrBook.MatchOrders twiceObjs mainTraders = .ok r ∧
      cashTotal mainTraders {1, 2, 3} + reservedCash (pairPtrBook.view twiceObjs).BuyOrders
        = 3560 ∧
      cashTotal r.traders {1, 2, 3} + reservedCash (r.ob.view r.objs).BuyOrders
        = cashTotal mainTraders {1, 2, 3}
          + reservedCash (pairPtrBook.view twiceObjs).BuyOrders :=
  ⟨_, rfl, by decide!,
    (cash_conservation twiceObjs pairPtrBook mainTraders {1, 2, 3} (by decide)
      (by decide)).2.2.2 _ rfl (by decide)⟩

/-- C12, the code at the failing input: after `switch 1`, the command
`order buy 1 MSFT 10` names a stock without a book.  No error about the instrument is
reported: the cash of trader 1 is lowered from 1000 to 990, and then `AddOrder` is called
on the nil `*OrderBook` and the program panics. -/
theorem order_unknown_stock_crashes :
    traderOneSession.currentTraderID = 1 ∧
    traderOneSession.StockOrderBooks "MSFT" = none ∧
    cashOf traderOneSession.traders 1 = some 1000 ∧
    (orderCommand demoAtoi demoParseFloat traderOneSession
      ["order", "buy", "1", "MSFT", "10"] 7).2 = .crashed .nilOrderBook ∧
    cashOf (orderCommand demoAtoi demoParseFloat traderOneSession
      ["order", "buy", "1", "MSFT", "10"] 7).1.traders 1 = some 990 :=
  ⟨by decide, by decide, by decide, by decide!, by decide!⟩

/-- C13, the code at the failing input: after `switch 1`, the command
`order buy -5 AAPL 10` is accepted: an order with `Quantity = -5` is submitted to the book
of AAPL and the cash of trader 1 grows from 1000 to 1050. -/
theorem order_accepts_negative_quantity :
    cashOf traderOneSession.traders 1 = some 1000 ∧
    (orderCommand demoAtoi demoParseFloat traderOneSession
      ["order", "buy", "-5", "AAPL", "10"] 7).2 = .added (buyAt 7 (-5) 10) ∧
    ((orderCommand demoAtoi demoParseFloat traderOneSession
      ["order", "buy", "-5", "AAPL", "10"] 7).1.StockOrderBooks "AAPL").map
        (fun ob => ob.BuyOrders) = some [buyAt 7 (-5) 10] ∧
    cashOf (orderCommand demoAtoi demoParseFloat traderOneSession
      ["order", "buy", "-5", "AAPL", "10"] 7).1.traders 1 = some 1050 :=
  ⟨by decide, by decide!, by decide!, by decide!⟩

/-- C14, the code at the failing input: after `switch 1` and buys at 50, 40 and 45 the
command `show` prints the buy orders of AAPL in the order 50, 40, 45, the order of the
backing array of the heap, which is not non-increasing; it changes no state. -/
theorem show_not_sorted :
    Reachable (fun _ => True) shownBook ∧
    ((showBook shownBook).filterMap Prod.fst).map (fun o => o.Price) = [50, 40, 45] ∧
    ¬ List.Pairwise (fun x y : ℚ => x ≥ y)
      (((showBook shownBook).filterMap Prod.fst).map (fun o => o.Price)) ∧
    (showCommand shownSession ["AAPL"]).2.map
      (fun kv => (kv.1, (kv.2.filterMap Prod.fst).map (fun o => o.Price)))
        = [("AAPL", [50, 40, 45])] ∧
    (∀ (s : Session) (keys : List String), (showCommand s keys).1 = s) :=
  ⟨Reachable.add _ _ (Reachable.add _ _ (Reachable.add _ _ Reachable.new trivial) trivial)
    trivial, by decide, by decide, by decide!, fun _ _ => rfl⟩

/-- Counterexample to C15 as stated: after `switch 1`, the commands `order buy 1 AAPL 10`
and `order buy 5 AAPL 10` for both of which `rand.Intn(1000)` returns 7 create two
different orders with the same ID, and both rest in the book of AAPL. -/
theorem order_ids_collide :
    (orderCommand demoAtoi demoParseFloat traderOneSession
      ["order", "buy", "1", "AAPL", "10"] 7).2 = .added (buyAt 7 1 10) ∧
    (orderCommand demoAtoi demoParseFloat
      (orderCommand demoAtoi demoParseFloat traderOneSession
        ["order", "buy", "1", "AAPL", "10"] 7).1
      ["order", "buy", "5", "AAPL", "10"] 7).2 = .added (buyAt 7 5 10) ∧
    buyAt 7 1 10 ≠ buyAt 7 5 10 ∧ (buyAt 7 1 10).ID = (buyAt 7 5 10).ID ∧
    ((orderCommand demoAtoi demoParseFloat
      (orderCommand demoAtoi demoParseFloat traderOneSession
        ["order", "buy", "1", "AAPL", "10"] 7).1
      ["order", "buy", "5", "AAPL", "10"] 7).1.StockOrderBooks "AAPL").map
        (fun ob => ob.BuyOrders) = some [buyAt 7 1 10, buyAt 7 5 10] :=
  ⟨by decide!, by decide!, by decide, by decide, by decide!⟩

/-- C15, amended (order IDs are random draws).  Every order that the command `order`
creates and submits carries as `ID` the value that `rand.Intn(1000)` returned for it, an
integer from 0 to 999, and the current trader as `TraderID`, and is added to the book of
its stock.  Nothing keeps IDs apart: two orders whose draws coincide share an ID, and
among more than 1000 orders with such IDs two always do. -/
theorem order_id_is_draw (atoi : String → Option Int) (parseFloat : String → Option ℚ)
    (s s1 : Session) (args : List String) (draw : Int) (o : Order)
    (h : orderCommand atoi parseFloat s args draw = (s1, .added o)) :
    o.ID = draw ∧ ((0 ≤ draw ∧ draw < 1000) → 0 ≤ o.ID ∧ o.ID < 1000) ∧
    o.TraderID = s.currentTraderID ∧
    (∃ ob, s.StockOrderBooks o.Stock = some ob ∧
      s1.StockOrderBooks o.Stock = some (ob.AddOrder o)) ∧
    (∀ l : List Order, (∀ x ∈ l, 0 ≤ x.ID ∧ x.ID < 1000) → 1000 < l.length →
      ¬ (l.map (fun x => x.ID)).Nodup) := by
  obtain ⟨h1, h2, _, _, _, h3⟩ := orderCommand_added h
  exact ⟨h1, fun hd => by rw [h1]; exact hd, h2, h3, ids_collide⟩

/-- Witness of the amended C15: `order buy 1 AAPL 10` by trader 1 with the draw 7. -/
theorem order_id_is_draw_witness :
    (orderCommand demoAtoi demoParseFloat traderOneSession
      ["order", "buy", "1", "AAPL", "10"] 7).2 = .added (buyAt 7 1 10) ∧
    (buyAt 7 1 10).ID = 7 ∧ (buyAt 7 1 10).TraderID = traderOneSession.currentTraderID :=
  have h : orderCommand demoAtoi demoParseFloat traderOneSession
      ["order", "buy", "1", "AAPL", "10"] 7
      = ((orderCommand demoAtoi demoParseFloat traderOneSession
          ["order", "buy", "1", "AAPL", "10"] 7).1, .added (buyAt 7 1 10)) :=
    Prod.ext rfl (by decide!)
  ⟨by decide!, (order_id_is_draw _ _ _ _ _ _ _ h).1, (order_id_is_draw _ _ _ _ _ _ _ h).2.2.1⟩

end types
